import Mathlib

/-!
# lua-linear: strided views, elementwise dispatch and reduction dispatch

A shallow embedding of `src/linear_elementary.c` and `src/linear_unary.c`.

* Doubles are modelled by exact rationals (`ℚ`); the C library functions
  (`sqrt`, `pow`, `exp`, ...) are parameters collected in `Libm`.
* Memory is one flat address space of doubles (`Mem`), addressed in units of
  one double; a `double *` is an address (`Int`).
* `size_t` values are naturals, `int` values are integers; the narrowing
  `size_t -> int` at each kernel call is explicit (`toCInt`), and the
  `size_t` products that the source compares or converts are reduced
  modulo `2^64`; address arithmetic, which stays inside the object it
  addresses, is not reduced.
* A Lua error (a `longjmp` out of the C function) is the `raise` outcome,
  which keeps the state reached when the error was raised.
-/

namespace LuaLinear

/-! ## Machine constants and conversions -/

/-- The constant `INT_MAX` of `limits.h` (32-bit `int`). -/
def INT_MAX : Nat := 2147483647

/-- The constant `RAND_MAX` of `stdlib.h` (glibc). -/
def RAND_MAX : Nat := 2147483647

/-- The number of `size_t` values: `size_t` arithmetic is modulo this. -/
def SIZE_MOD : Nat := 2 ^ 64

/-- Conversion of a `size_t` value to `int` at a call whose parameter is
`int`: the value is reduced modulo `2^32` into the two's complement range. -/
def toCInt (n : Nat) : Int :=
  if n % 2 ^ 32 < 2 ^ 31 then ((n % 2 ^ 32 : Nat) : Int)
  else ((n % 2 ^ 32 : Nat) : Int) - 2 ^ 32

/-- Conversion `(size_t)z` of an `int` value. -/
def toSizeT (z : Int) : Nat := (z % (2 ^ 64 : Int)).toNat

/-! ## Memory and views -/

/-- Flat memory of doubles, addressed in units of one double. -/
abbrev Mem := Int → ℚ

/-- Store `v` at address `a`. -/
def Mem.write (m : Mem) (a : Int) (v : ℚ) : Mem :=
  fun b => if b = a then v else m b

/-- The type `CBLAS_ORDER` of `cblas.h`. -/
inductive CBLAS_ORDER where
  | CblasRowMajor
  | CblasColMajor
  deriving DecidableEq, Repr

open CBLAS_ORDER

/-- The struct `linear_vector` (`linear_core.h`); `values` is the address of
the first component, the shared `data` header carries no value and is left
out. -/
structure linear_vector where
  length : Nat
  inc : Nat
  values : Int
  deriving DecidableEq, Repr

/-- The struct `linear_matrix` (`linear_core.h`). -/
structure linear_matrix where
  rows : Nat
  cols : Nat
  ld : Nat
  order : CBLAS_ORDER
  values : Int
  deriving DecidableEq, Repr

/-- Address of logical component `i` of a vector view. -/
def linear_vector.addr (x : linear_vector) (i : Nat) : Int :=
  x.values + ((i * x.inc : Nat) : Int)

/-- Address of logical element `(i, j)` of a matrix view: major vectors are
`ld` apart, the elements of a major vector are adjacent. -/
def linear_matrix.addr (X : linear_matrix) (i j : Nat) : Int :=
  match X.order with
  | CblasRowMajor => X.values + ((i * X.ld + j : Nat) : Int)
  | CblasColMajor => X.values + ((j * X.ld + i : Nat) : Int)

/-- The dimensions of a matrix view are representable in the `int` run size
and run stride of a kernel. -/
def linear_matrix.fitsInt (X : linear_matrix) : Prop :=
  X.rows ≤ INT_MAX ∧ X.cols ≤ INT_MAX ∧ X.ld ≤ INT_MAX

/-- The dimensions of a vector view are representable in the `int` run size
and run stride of a kernel. -/
def linear_vector.fitsInt (x : linear_vector) : Prop :=
  x.length ≤ INT_MAX ∧ x.inc ≤ INT_MAX

instance (X : linear_matrix) : Decidable X.fitsInt := by
  unfold linear_matrix.fitsInt; infer_instance

instance (x : linear_vector) : Decidable x.fitsInt := by
  unfold linear_vector.fitsInt; infer_instance

/-! ## Lua values, arguments and errors -/

/-- The values found on the Lua stack of a call. -/
inductive LuaVal where
  | nil
  | boolean (b : Bool)
  | number (n : ℚ)
  | string (s : String)
  | table (fields : List (String × LuaVal))
  | function (id : Nat)
  | vector (x : linear_vector)
  | matrix (X : linear_matrix)

/-- The error kinds raised to the host. `type index numok` is the operand
error of `linear_argerror(L, index, numok)` and of `luaL_checkudata`. -/
inductive LErr where
  | type (index : Int) (numok : Bool)
  | argType
  | argRange
  | argument
  | dimension
  | callback (code : Nat)
  deriving DecidableEq, Repr

/-- The union `linear_arg` (`linear_core.h`), one constructor per member
that the kernels read. -/
inductive linear_arg where
  | n (v : ℚ)
  | i (v : Int)
  | e (v : Int)
  | d (v : Nat)
  deriving DecidableEq, Repr

/-- Member access `args[k].n`. -/
def argN (args : List linear_arg) (k : Nat) : ℚ :=
  match args.get? k with
  | some (.n v) => v
  | _ => 0

/-- Member access `args[k].d`. -/
def argD (args : List linear_arg) (k : Nat) : Nat :=
  match args.get? k with
  | some (.d v) => v
  | _ => 0

/-- The struct `linear_param` as initialised in the sources: name, type
character and default; for an enumeration the choices. -/
structure linear_param where
  name : String
  type : Char
  defv : linear_arg
  choices : List String := []

/-- The table `LINEAR_PARAMS_NONE` (the terminating entry is the end of the
list). -/
def LINEAR_PARAMS_NONE : List linear_param := []

/-- The table `LINEAR_PARAMS_ALPHA`. -/
def LINEAR_PARAMS_ALPHA : List linear_param := [⟨"alpha", 'n', .n 1, []⟩]

/-- The table `LINEAR_PARAMS_DDOF`. -/
def LINEAR_PARAMS_DDOF : List linear_param := [⟨"ddof", 'd', .d 0, []⟩]

/-- The state a call runs in: the memory of doubles and the state of the
host outside it (generator state, effects of a callback, ...). -/
structure World (σ : Type) where
  mem : Mem
  ext : σ

/-- Outcome of a call: a normal return with a value, or a raised Lua error;
both carry the state reached. -/
inductive Outcome (α σ : Type) where
  | ok (val : α) (w : World σ)
  | raise (err : LErr) (w : World σ)

/-- The state an outcome ends in. -/
def Outcome.world {α σ : Type} : Outcome α σ → World σ
  | .ok _ w => w
  | .raise _ w => w

/-- The functions of the host layer that the dispatchers call and that are
defined outside the two source files. -/
structure Host where
  /-- The call `linear_checkargs(L, params, size, index, args)`. -/
  linear_checkargs : List LuaVal → List linear_param → Nat → Nat →
    Except LErr (List linear_arg)
  /-- The call `linear_checkorder(L, index)`. -/
  linear_checkorder : List LuaVal → Nat → Except LErr CBLAS_ORDER
  /-- The call `lua_tonumberx(L, index, &isnum)`; `none` is `isnum == 0`. -/
  lua_tonumberx : List LuaVal → Nat → Option ℚ

/-- The value at stack index `index` (1-based); `nil` beyond the top. -/
def stackAt (L : List LuaVal) (index : Nat) : LuaVal :=
  (L.get? (index - 1)).getD .nil

/-- The call `luaL_testudata(L, index, LINEAR_VECTOR)`. -/
def testVector (L : List LuaVal) (index : Nat) : Option linear_vector :=
  match stackAt L index with
  | .vector x => some x
  | _ => none

/-- The call `luaL_testudata(L, index, LINEAR_MATRIX)`. -/
def testMatrix (L : List LuaVal) (index : Nat) : Option linear_matrix :=
  match stackAt L index with
  | .matrix X => some X
  | _ => none

/-! ## Loops -/

/-- The loop `for (i = 0; i < n; i++) s = body(i, s)`. -/
def forLoop {S : Type} : Nat → (Nat → S → S) → S → S
  | 0, _, s => s
  | n + 1, body, s => body n (forLoop n body s)

/-- The loop `for (i = 0; i < n; i++) body(i)` over the state of a call; an
error raised by the body leaves the loop. -/
def forLoopE {σ : Type} : Nat → (Nat → World σ → Outcome Unit σ) → World σ →
    Outcome Unit σ
  | 0, _, w => .ok () w
  | n + 1, body, w =>
    match forLoopE n body w with
    | .ok _ w1 => body n w1
    | .raise e w1 => .raise e w1

/-! ## Reduction kernels (`linear_unary.c`) -/

/-- The type `linear_unary_function`: a kernel gets the run size, the
address of the run, the stride and the parsed arguments; it returns a
double and may, as any C function, change the state. -/
abbrev UKernel (σ : Type) :=
  Int → Int → Int → List linear_arg → World σ → ℚ × World σ

/-- A kernel that only reads memory. -/
def pureU {σ : Type} (h : Int → Mem → Int → Int → List linear_arg → ℚ) :
    UKernel σ :=
  fun size x incx args w => (h size w.mem x incx args, w)

/-- The summation loops shared by the sum, mean and variance kernels: the
contiguous loop `sum += x[i]` and the strided loop `sum += *x; x += incx`.
The result is the sum and the final pointer. -/
def sumLoop (size : Int) (m : Mem) (x incx : Int) : ℚ × Int :=
  if incx = 1 then
    (forLoop size.toNat (fun i sum => sum + m (x + (i : Int))) 0, x)
  else
    forLoop size.toNat (fun _ (s : ℚ × Int) => (s.1 + m s.2, s.2 + incx)) (0, x)

/-- The function `linear_sum_handler`. -/
def linear_sum_handler (size : Int) (m : Mem) (x incx : Int)
    (_args : List linear_arg) : ℚ :=
  (sumLoop size m x incx).1

/-- The function `linear_mean_handler`. -/
def linear_mean_handler (size : Int) (m : Mem) (x incx : Int)
    (_args : List linear_arg) : ℚ :=
  (sumLoop size m x incx).1 / (size : ℚ)

/-- The function `linear_var_handler`. In the strided branch the pointer
is rewound by `(size_t)size * (size_t)incx` between the two passes; the
divisor `size - args[0].d` is computed in `size_t`. Division by zero,
which yields `inf` or `nan` in C, yields `0` here. -/
def linear_var_handler (size : Int) (m : Mem) (x incx : Int)
    (args : List linear_arg) : ℚ :=
  let sum :=
    if incx = 1 then
      let sum := forLoop size.toNat (fun i sum => sum + m (x + (i : Int))) 0
      let mean := sum / (size : ℚ)
      forLoop size.toNat
        (fun i sum => sum + (m (x + (i : Int)) - mean) * (m (x + (i : Int)) - mean)) 0
    else
      let s1 := forLoop size.toNat
        (fun _ (s : ℚ × Int) => (s.1 + m s.2, s.2 + incx)) (0, x)
      let mean := s1.1 / (size : ℚ)
      let x1 : Int := s1.2 - (((toSizeT size * toSizeT incx) % SIZE_MOD : Nat) : Int)
      (forLoop size.toNat
        (fun _ (s : ℚ × Int) => (s.1 + (m s.2 - mean) * (m s.2 - mean), s.2 + incx))
        (0, x1)).1
  sum / (((toSizeT size + SIZE_MOD - argD args 0) % SIZE_MOD : Nat) : ℚ)

/-! ## Reduction dispatch (`linear_unary.c`) -/

/-- The loop of `linear_unary` over the slots of the output vector:
`y->values[i * y->inc] = f(size, &X->values[i * step], incx, args)`. -/
def reduceLoop {σ : Type} (f : UKernel σ) (count : Nat) (size : Nat)
    (X : linear_matrix) (step : Nat) (incx : Int) (y : linear_vector)
    (args : List linear_arg) (w : World σ) : World σ :=
  forLoop count (fun i w =>
    let r := f (toCInt size) (X.values + ((i * step : Nat) : Int)) incx args w
    { r.2 with mem := r.2.mem.write (y.values + ((i * y.inc : Nat) : Int)) r.1 }) w

/-- The function `linear_unary`. The value of a normal return is the number
pushed (vector operand) or nothing (matrix operand). -/
def linear_unary {σ : Type} (host : Host) (L : List LuaVal) (f : UKernel σ)
    (params : List linear_param) (w : World σ) : Outcome (Option ℚ) σ :=
  match testVector L 1 with
  | some x =>
    match host.linear_checkargs L params x.length 2 with
    | .error e => .raise e w
    | .ok args =>
      let r := f (toCInt x.length) x.values (toCInt x.inc) args w
      .ok (some r.1) r.2
  | none =>
    match testMatrix L 1 with
    | some X =>
      match testVector L 2 with
      | none => .raise (.type 2 false) w
      | some y =>
        match host.linear_checkorder L 3 with
        | .error e => .raise e w
        | .ok CblasRowMajor =>
          if y.length = X.rows then
            match host.linear_checkargs L params X.cols 4 with
            | .error e => .raise e w
            | .ok args =>
              if X.order = CblasRowMajor then
                .ok none (reduceLoop f X.rows X.cols X X.ld 1 y args w)
              else
                .ok none (reduceLoop f X.rows X.cols X 1 (toCInt X.ld) y args w)
          else .raise .dimension w
        | .ok CblasColMajor =>
          if y.length = X.cols then
            match host.linear_checkargs L params X.rows 4 with
            | .error e => .raise e w
            | .ok args =>
              if X.order = CblasColMajor then
                .ok none (reduceLoop f X.cols X.rows X X.ld 1 y args w)
              else
                .ok none (reduceLoop f X.cols X.rows X 1 (toCInt X.ld) y args w)
          else .raise .dimension w
    | none => .raise (.type 1 false) w

/-! ## Elementwise kernels (`linear_elementary.c`) -/

/-- The functions of `math.h` and the constant `M_PI`, on exact values. -/
structure Libm where
  sqrt : ℚ → ℚ
  pow : ℚ → ℚ → ℚ
  exp : ℚ → ℚ
  log : ℚ → ℚ
  tanh : ℚ → ℚ
  cos : ℚ → ℚ
  sin : ℚ → ℚ
  pi : ℚ

/-- The function `linear_std_handler` (`linear_unary.c`). -/
def linear_std_handler (lm : Libm) (size : Int) (m : Mem) (x incx : Int)
    (args : List linear_arg) : ℚ :=
  lm.sqrt (linear_var_handler size m x incx args)

/-- The type `linear_elementary_function`: a kernel gets the run size, the
address of the run, the stride and the parsed arguments; it changes the
state and may raise (the callback kernel). -/
abbrev EKernel (σ : Type) :=
  Int → Int → Int → List linear_arg → World σ → Outcome Unit σ

/-- A kernel that only reads and writes memory and never raises. -/
def pureE {σ : Type} (h : Int → Mem → Int → Int → List linear_arg → Mem) :
    EKernel σ :=
  fun size x incx args w => .ok () { w with mem := h size w.mem x incx args }

/-- The loop `for (i = 0; i < size; i++) x[i] = g(x[i])`. -/
def contigLoop (g : ℚ → ℚ) (size : Int) (m : Mem) (x : Int) : Mem :=
  forLoop size.toNat (fun i m => m.write (x + (i : Int)) (g (m (x + (i : Int))))) m

/-- The loop `for (i = 0; i < size; i++) { *x = g(*x); x += incx; }`. -/
def stridedLoop (g : ℚ → ℚ) (size : Int) (m : Mem) (x incx : Int) : Mem :=
  (forLoop size.toNat
    (fun _ (s : Mem × Int) => (s.1.write s.2 (g (s.1 s.2)), s.2 + incx)) (m, x)).1

/-- The function `linear_inc_handler`. -/
def linear_inc_handler (size : Int) (m : Mem) (x incx : Int)
    (args : List linear_arg) : Mem :=
  let alpha := argN args 0
  if incx = 1 then contigLoop (fun v => v + alpha) size m x
  else stridedLoop (fun v => v + alpha) size m x incx

/-- The function `linear_pow_handler`. The quotient `1 / 0`, which is
`inf` in C, is `0` here. -/
def linear_pow_handler (lm : Libm) (size : Int) (m : Mem) (x incx : Int)
    (args : List linear_arg) : Mem :=
  let alpha := argN args 0
  if alpha = -1 then
    if incx = 1 then contigLoop (fun v => 1 / v) size m x
    else stridedLoop (fun v => 1 / v) size m x incx
  else if alpha = 0 then
    if incx = 1 then contigLoop (fun _ => 1) size m x
    else stridedLoop (fun _ => 1) size m x incx
  else if alpha = 1 / 2 then
    stridedLoop lm.sqrt size m x incx
  else if alpha ≠ 1 then
    stridedLoop (fun v => lm.pow v alpha) size m x incx
  else m

/-- The function `linear_exp_handler`. -/
def linear_exp_handler (lm : Libm) (size : Int) (m : Mem) (x incx : Int)
    (_args : List linear_arg) : Mem :=
  if incx = 1 then contigLoop lm.exp size m x
  else stridedLoop lm.exp size m x incx

/-- The function `linear_log_handler`. -/
def linear_log_handler (lm : Libm) (size : Int) (m : Mem) (x incx : Int)
    (_args : List linear_arg) : Mem :=
  if incx = 1 then contigLoop lm.log size m x
  else stridedLoop lm.log size m x incx

/-- The function `linear_sgn_handler`. -/
def linear_sgn_handler (size : Int) (m : Mem) (x incx : Int)
    (_args : List linear_arg) : Mem :=
  stridedLoop (fun v => if v > 0 then 1 else if v < 0 then -1 else v) size m x incx

/-- The function `linear_abs_handler`. -/
def linear_abs_handler (size : Int) (m : Mem) (x incx : Int)
    (_args : List linear_arg) : Mem :=
  stridedLoop (fun v => |v|) size m x incx

/-- The function `linear_logistic_handler`. -/
def linear_logistic_handler (lm : Libm) (size : Int) (m : Mem) (x incx : Int)
    (_args : List linear_arg) : Mem :=
  stridedLoop (fun v => 1 / (1 + lm.exp (-v))) size m x incx

/-- The function `linear_tanh_handler`. -/
def linear_tanh_handler (lm : Libm) (size : Int) (m : Mem) (x incx : Int)
    (_args : List linear_arg) : Mem :=
  stridedLoop lm.tanh size m x incx

/-- The function `linear_set_handler`. -/
def linear_set_handler (size : Int) (m : Mem) (x incx : Int)
    (args : List linear_arg) : Mem :=
  let alpha := argN args 0
  if incx = 1 then contigLoop (fun _ => alpha) size m x
  else stridedLoop (fun _ => alpha) size m x incx

/-- The Lua function given to `linear_apply`, as the call
`lua_call(linear_TL, 1, 1)` sees it: applied to a number in a state, it
returns a Lua value or raises an error, and leaves a new state. -/
abbrev Callback (σ : Type) := ℚ → World σ → Outcome LuaVal σ

/-- The call `lua_tonumber(linear_TL, -1)` on the value a callback returned:
the conversion `lua_tonumberx`, with 0 for a value that is not a number. -/
def callbackNumber (host : Host) (r : LuaVal) : ℚ :=
  (host.lua_tonumberx [r] 1).getD 0

/-- The loop of `linear_apply_handler`, on the number of iterations that
remain: the callback is called on `*x`, an error it raises leaves the
function, its value converted to a number is stored in `*x`, and the
pointer moves on by `incx`. -/
def applyLoop {σ : Type} (host : Host) (fn : Callback σ) (incx : Int) :
    Nat → Int → World σ → Outcome Unit σ
  | 0, _, w => .ok () w
  | n + 1, x, w =>
    match fn (w.mem x) w with
    | .raise e w1 => .raise e w1
    | .ok r w1 =>
      applyLoop host fn incx n (x + incx)
        { w1 with mem := w1.mem.write x (callbackNumber host r) }

/-- The function `linear_apply_handler`; `fn` is the function on top of the
stack of `linear_TL`. -/
def linear_apply_handler {σ : Type} (host : Host) (fn : Callback σ) : EKernel σ :=
  fun size x incx _args w => applyLoop host fn incx size.toNat x w

/-- The value `random() / (RAND_MAX + 1.0)` of a draw. -/
def unitHalfOpen (draw : Nat) : ℚ := (draw : ℚ) / ((RAND_MAX : ℚ) + 1)

/-- The function `linear_uniform_handler`; `random` is the call `random()`
on the generator state. The loop state is the pointer and the state of the
call. -/
def linear_uniform_handler {σ : Type} (random : σ → Nat × σ) : EKernel σ :=
  fun size x incx _args w =>
    .ok () (forLoop size.toNat
      (fun _ (s : Int × World σ) =>
        (s.1 + incx,
         { mem := s.2.mem.write s.1 (unitHalfOpen (random s.2.ext).1),
           ext := (random s.2.ext).2 })) (x, w)).2

/-- The value `(random() + 1.0) / (RAND_MAX + 1.0)` of a draw. -/
def unitOpen (draw : Nat) : ℚ := ((draw : ℚ) + 1) / ((RAND_MAX : ℚ) + 1)

/-- The loop `for (i = 0; i < size - 1; i += 2)` of `linear_normal_handler`
on the state `(i, x, world)`; `random` is the call `random()` on the
generator state. The first argument bounds the number of iterations: the
handler passes the run size, which the loop never exhausts. -/
def normalPairs {σ : Type} (lm : Libm) (random : σ → Nat × σ) (size incx : Int) :
    Nat → Int × Int × World σ → Int × Int × World σ
  | 0, s => s
  | fuel + 1, (i, x, w) =>
    if i < size - 1 then
      let d1 := random w.ext
      let d2 := random d1.2
      let u1 := unitOpen d1.1
      let u2 := unitOpen d2.1
      let r := lm.sqrt (-2 * lm.log u1)
      let s := lm.sin (2 * lm.pi * u2)
      let c := lm.cos (2 * lm.pi * u2)
      let m1 := w.mem.write x (r * c)
      let m2 := m1.write (x + incx) (r * s)
      normalPairs lm random size incx fuel
        (i + 2, x + incx + incx, { mem := m2, ext := d2.2 })
    else (i, x, w)

/-- The function `linear_normal_handler` (Box-Muller transform). -/
def linear_normal_handler {σ : Type} (lm : Libm) (random : σ → Nat × σ) :
    EKernel σ :=
  fun size x incx _args w =>
    let s := normalPairs lm random size incx size.toNat (0, x, w)
    if s.1 < size then
      let d1 := random s.2.2.ext
      let d2 := random d1.2
      let u1 := unitOpen d1.1
      let u2 := unitOpen d2.1
      .ok () { mem := s.2.2.mem.write s.2.1
                 (lm.sqrt (-2 * lm.log u1) * lm.cos (2 * lm.pi * u2)),
               ext := d2.2 }
    else .ok () s.2.2

/-! ## Elementwise dispatch (`linear_elementary.c`) -/

/-- The end of a branch of `linear_elementary` that returns no value. -/
def ret0 {σ : Type} : Outcome Unit σ → Outcome (Option ℚ) σ
  | .ok _ w => .ok none w
  | .raise e w => .raise e w

/-- The loop of `linear_elementary` over the major vectors:
`for (i = 0; i < count; i++) f(extent, &X->values[i * X->ld], 1, args)`. -/
def eachMajor {σ : Type} (f : EKernel σ) (count extent : Nat)
    (X : linear_matrix) (args : List linear_arg) (w : World σ) : Outcome Unit σ :=
  forLoopE count
    (fun i w => f (toCInt extent) (X.values + ((i * X.ld : Nat) : Int)) 1 args w) w

/-- The function `linear_elementary`. For a number operand the kernel runs
on the local variable `n`, a one-cell memory of its own, and the value of
the return is the number pushed. -/
def linear_elementary {σ : Type} (host : Host) (L : List LuaVal) (f : EKernel σ)
    (params : List linear_param) (w : World σ) : Outcome (Option ℚ) σ :=
  match host.linear_checkargs L params 0 2 with
  | .error e => .raise e w
  | .ok args =>
    match host.lua_tonumberx L 1 with
    | some n =>
      match f 1 0 1 args { w with mem := fun _ => n } with
      | .ok _ w1 => .ok (some (w1.mem 0)) { w1 with mem := w.mem }
      | .raise e w1 => .raise e { w1 with mem := w.mem }
    | none =>
      match testVector L 1 with
      | some x => ret0 (f (toCInt x.length) x.values (toCInt x.inc) args w)
      | none =>
        match testMatrix L 1 with
        | some X =>
          if X.order = CblasRowMajor then
            if X.cols = X.ld ∧ (X.rows * X.cols) % SIZE_MOD ≤ INT_MAX then
              ret0 (f (toCInt ((X.rows * X.cols) % SIZE_MOD)) X.values 1 args w)
            else
              ret0 (eachMajor f X.rows X.cols X args w)
          else
            if X.rows = X.ld ∧ (X.cols * X.rows) % SIZE_MOD ≤ INT_MAX then
              ret0 (f (toCInt ((X.cols * X.rows) % SIZE_MOD)) X.values 1 args w)
            else
              ret0 (eachMajor f X.cols X.rows X args w)
        | none => .raise (.type 0 true) w

/-! ## The host layer, from the specification -/

/-- Modelled from the spec: a number parameter of `linear_checkargs`
(spec 4.2), which is not among the sources. An unspecified parameter takes
its default; any value but a number is a type error. -/
def specParseNumber (p : linear_param) (v : LuaVal) : Except LErr linear_arg :=
  match v with
  | .nil => .ok p.defv
  | .number q => .ok (.n q)
  | _ => .error .argType

/-- Modelled from the spec: an integer parameter of `linear_checkargs`
(spec 4.2), which is not among the sources. -/
def specParseInteger (p : linear_param) (v : LuaVal) : Except LErr linear_arg :=
  match v with
  | .nil => .ok p.defv
  | .number q => if q.den = 1 then .ok (.i q.num) else .error .argType
  | _ => .error .argType

/-- Modelled from the spec: an enumeration parameter of `linear_checkargs`
(spec 4.2), which is not among the sources: one of the choices, the first
being the default. -/
def specParseEnum (p : linear_param) (v : LuaVal) : Except LErr linear_arg :=
  match v with
  | .nil => .ok (.e 0)
  | .string s =>
    if s ∈ p.choices then .ok (.e (p.choices.indexOf s)) else .error .argType
  | _ => .error .argType

/-- Modelled from the spec: a degrees-of-freedom parameter of
`linear_checkargs` (spec 4.2), which is not among the sources: a
non-negative integer below the implied size, whether given or defaulted;
out of range is a range error. -/
def specParseDdof (size : Nat) (p : linear_param) (v : LuaVal) : Except LErr linear_arg :=
  match v with
  | .nil =>
    if argD [p.defv] 0 < size then .ok (.d (argD [p.defv] 0)) else .error .argRange
  | .number q =>
    if q.den = 1 ∧ 0 ≤ q.num ∧ q.num.toNat < size then .ok (.d q.num.toNat)
    else .error .argRange
  | _ => .error .argType

/-- Modelled from the spec: the parsing of one parameter by
`linear_checkargs` (spec 4.2), which is not among the sources, by the type
character of the parameter. -/
def specParseArg (size : Nat) (p : linear_param) (v : LuaVal) :
    Except LErr linear_arg :=
  if p.type = 'n' then specParseNumber p v
  else if p.type = 'i' then specParseInteger p v
  else if p.type = 'e' then specParseEnum p v
  else if p.type = 'd' then specParseDdof size p v
  else .error .argument

/-- Modelled from the spec: the named value of a parameter in the trailing
record of a call, `nil` when the record does not name it. -/
def specNamed (fields : List (String × LuaVal)) (name : String) : LuaVal :=
  match fields with
  | [] => .nil
  | (k, v) :: rest => if k = name then v else specNamed rest name

/-- Modelled from the spec: the value `linear_checkargs` takes for a
parameter, the named value of the trailing record taking precedence over
the positional value at `index`; `nil` when the call gives neither. -/
def specArgValue (L : List LuaVal) (fields : List (String × LuaVal))
    (p : linear_param) (index : Nat) : LuaVal :=
  match specNamed fields p.name with
  | .nil =>
    match stackAt L index with
    | .table _ => .nil
    | v => v
  | named => named

/-- Modelled from the spec: the parameters of `linear_checkargs` parsed in
order, the first error ending the parse. -/
def specParseArgs (L : List LuaVal) (fields : List (String × LuaVal)) (size : Nat) :
    List linear_param → Nat → Except LErr (List linear_arg)
  | [], _ => .ok []
  | p :: ps, index =>
    match specParseArg size p (specArgValue L fields p index) with
    | .error e => .error e
    | .ok a =>
      match specParseArgs L fields size ps (index + 1) with
      | .error e => .error e
      | .ok as => .ok (a :: as)

/-- Modelled from the spec: the trailing record of named overrides of a
call, empty when the last argument from `index` on is not a record. -/
def specFields (L : List LuaVal) (index : Nat) : List (String × LuaVal) :=
  match L.getLast? with
  | some (.table fs) => if index ≤ L.length then fs else []
  | _ => []

/-- Modelled from the spec: the argument protocol `linear_checkargs`
(spec 4.2), which is not among the sources: positional arguments from
`index` on, a trailing record of named overrides, and an error for a
named key that no parameter has. -/
def specCheckargs (L : List LuaVal) (params : List linear_param) (size index : Nat) :
    Except LErr (List linear_arg) :=
  if (specFields L index).all (fun kv => params.any (fun p => p.name = kv.1)) then
    specParseArgs L (specFields L index) size params index
  else .error .argument

/-- Modelled from the spec: the axis selector `linear_checkorder`, which is
not among the sources: an enumeration of the two orders whose first entry,
the row order, is the default (spec 4.2, 4.4). -/
def specCheckorder (L : List LuaVal) (index : Nat) : Except LErr CBLAS_ORDER :=
  match stackAt L index with
  | .nil => .ok CblasRowMajor
  | .string s =>
    if s = "row" then .ok CblasRowMajor
    else if s = "col" then .ok CblasColMajor
    else .error .argType
  | _ => .error .argType

/-- Modelled from the spec: the host layer of Lua, where only a number
converts to a number. -/
def specHost : Host where
  linear_checkargs := specCheckargs
  linear_checkorder := specCheckorder
  lua_tonumberx := fun L index =>
    match stackAt L index with
    | .number n => some n
    | _ => none

/-! ## Reference semantics of the reductions -/

/-- The logical sequence of a run: element `i` is read at `x + i * incx`. -/
def logicalRun (m : Mem) (x incx : Int) : Nat → ℚ :=
  fun i => m (x + (i : Int) * incx)

/-- Reference sum of the first `n` elements of a sequence. -/
def refSum (xs : Nat → ℚ) (n : Nat) : ℚ := ∑ i ∈ Finset.range n, xs i

/-- Reference mean: the sum divided by the number of elements. -/
def refMean (xs : Nat → ℚ) (n : Nat) : ℚ := refSum xs n / (n : ℚ)

/-- Reference variance: the sum of squared deviations from the mean,
divided by `n - ddof`. -/
def refVar (xs : Nat → ℚ) (n ddof : Nat) : ℚ :=
  (∑ i ∈ Finset.range n, (xs i - refMean xs n) ^ 2) / ((n : ℚ) - (ddof : ℚ))

/-- A memory holding `1, 2, 3, 4` at the addresses `5, 8, 11, 14`. -/
def stridedRunMem : Mem := fun a => ((a : ℚ) - 5) / 3 + 1

/-- A memory holding `1, 2, 3, 4` at the addresses `0, 1, 2, 3`. -/
def contigRunMem : Mem := fun a => (a : ℚ) + 1

/-! ## Axes of a matrix reduction -/

/-- Number of results of a reduction along `axis` (the order returned by
`linear_checkorder`): one per row for the row axis, one per column for the
column axis. -/
def outLength (axis : CBLAS_ORDER) (X : linear_matrix) : Nat :=
  match axis with
  | CblasRowMajor => X.rows
  | CblasColMajor => X.cols

/-- Number of elements reduced into each result along `axis`. -/
def runLength (axis : CBLAS_ORDER) (X : linear_matrix) : Nat :=
  match axis with
  | CblasRowMajor => X.cols
  | CblasColMajor => X.rows

/-- Address of element `r` of the `k`-th logical row (row axis) or logical
column (column axis). -/
def linear_matrix.axisAddr (X : linear_matrix) (axis : CBLAS_ORDER) (k r : Nat) : Int :=
  match axis with
  | CblasRowMajor => X.addr k r
  | CblasColMajor => X.addr r k

/-- The matrix `[[1,2,3],[4,5,6]]` stored in row-major order at address 0. -/
def rowMajor23 : linear_matrix := ⟨2, 3, 3, CblasRowMajor, 0⟩

/-- The matrix `[[1,2,3],[4,5,6]]` stored in column-major order at address 0. -/
def colMajor23 : linear_matrix := ⟨2, 3, 2, CblasColMajor, 0⟩

/-- A memory whose addresses `0..5` hold `1, 2, 3, 4, 5, 6`. -/
def rowMajor23Mem : Mem := fun a => (a : ℚ) + 1

/-- A memory whose addresses `0..5` hold `1, 4, 2, 5, 3, 6`. -/
def colMajor23Mem : Mem := fun a => 3 * ((a % 2 : Int) : ℚ) + ((a / 2 : Int) : ℚ) + 1

/-- An output vector of two components at the addresses `100` and `102`. -/
def out2 : linear_vector := ⟨2, 2, 100⟩

/-! ## Observing kernel invocations -/

/-- One invocation of a kernel: the arguments it was called with. -/
structure KernelCall where
  size : Int
  x : Int
  incx : Int
  args : List linear_arg
  deriving DecidableEq, Repr

/-- A reduction kernel that records each of its invocations in the host
state and returns 0. -/
def traceU : UKernel (List KernelCall) :=
  fun size x incx args w => (0, { w with ext := w.ext ++ [⟨size, x, incx, args⟩] })

/-- An elementwise kernel that records each of its invocations in the host
state and leaves the memory alone. -/
def traceE : EKernel (List KernelCall) :=
  fun size x incx args w => .ok () { w with ext := w.ext ++ [⟨size, x, incx, args⟩] }

/-- The kernel `f` restricted to the invocations with `ddof < size`: any
other invocation returns 0 and does nothing. -/
def ddofGuarded {σ : Type} (f : UKernel σ) : UKernel σ :=
  fun size x incx args w =>
    if (argD args 0 : Int) < size then f size x incx args w else (0, w)

/-- A vector view of four components at the addresses `0, 1, 2, 3`. -/
def vec4 : linear_vector := ⟨4, 1, 0⟩

/-- A call whose operand is `nil` and whose `alpha` argument is a string. -/
def nilOperandBadAlpha : List LuaVal := [.nil, .string "x"]

/-! ## Elementwise dispatch: notions of the specification -/

/-- Number of major vectors of a matrix view: rows in row-major order,
columns in column-major order. -/
def majorCount (X : linear_matrix) : Nat :=
  match X.order with
  | CblasRowMajor => X.rows
  | CblasColMajor => X.cols

/-- Minor extent of a matrix view: the number of elements of a major
vector. -/
def minorExtent (X : linear_matrix) : Nat :=
  match X.order with
  | CblasRowMajor => X.cols
  | CblasColMajor => X.rows

/-- The transposed construction of a matrix view: the same values and
leading dimension, the opposite order flag, the dimensions swapped. -/
def linear_matrix.transposed (X : linear_matrix) : linear_matrix :=
  { rows := X.cols, cols := X.rows, ld := X.ld,
    order := match X.order with
      | CblasRowMajor => CblasColMajor
      | CblasColMajor => CblasRowMajor,
    values := X.values }

/-- A kernel is value-wise with function `g` when, on a run of positive
stride, it replaces each element of the run by `g` of the arguments and
the element's own value and leaves every other address alone. -/
def Valuewise (K : Int → Mem → Int → Int → List linear_arg → Mem)
    (g : List linear_arg → ℚ → ℚ) : Prop :=
  ∀ (size : Int) (m : Mem) (x incx : Int) (args : List linear_arg), 1 ≤ incx →
    (∀ i : Nat, i < size.toNat →
      K size m x incx args (x + (i : Int) * incx) = g args (m (x + (i : Int) * incx)))
    ∧ (∀ a : Int, (∀ i : Nat, i < size.toNat → a ≠ x + (i : Int) * incx) →
      K size m x incx args a = m a)

/-- The kernels of `linear_elementary.c` that replace each element by a
function of its own value and the parsed arguments. -/
def valuewiseKernels (lm : Libm) :
    List (Int → Mem → Int → Int → List linear_arg → Mem) :=
  [linear_inc_handler, linear_pow_handler lm, linear_exp_handler lm,
   linear_log_handler lm, linear_sgn_handler, linear_abs_handler,
   linear_logistic_handler lm, linear_tanh_handler lm, linear_set_handler]

/-- The function that `linear_pow_handler` applies to each element. -/
def powValue (lm : Libm) (args : List linear_arg) (v : ℚ) : ℚ :=
  if argN args 0 = -1 then 1 / v
  else if argN args 0 = 0 then 1
  else if argN args 0 = 1 / 2 then lm.sqrt v
  else if argN args 0 ≠ 1 then lm.pow v (argN args 0)
  else v

/-- A parent vector of six components at the addresses `0..5`. -/
def parent6 : linear_vector := ⟨6, 1, 0⟩

/-- A sub-view of `parent6`: its components 1, 3 and 5. -/
def sub3 : linear_vector := ⟨3, 2, 1⟩

/-- The 2 x 3 row-major matrix at address 0 with leading dimension 5: two
padding positions follow each row. -/
def padded23 : linear_matrix := ⟨2, 3, 5, CblasRowMajor, 0⟩

/-- A stand-in for the functions of `math.h` on rationals, for evaluating
the kernels on concrete inputs. -/
def ratLibm : Libm where
  sqrt := fun v => v
  pow := fun v _ => v
  exp := fun v => v
  log := fun v => v
  tanh := fun v => v
  cos := fun v => v
  sin := fun v => v
  pi := 3

/-! ## Box-Muller fill, pair by pair -/

/-- One Box-Muller pair, from two draws: the cosine value is written at `x`,
the sine value at `x + incx`, and the pointer moves on by two elements. -/
def pairStep {σ : Type} (lm : Libm) (random : σ → Nat × σ) (incx : Int)
    (s : Int × World σ) : Int × World σ :=
  let d1 := random s.2.ext
  let d2 := random d1.2
  let r := lm.sqrt (-2 * lm.log (unitOpen d1.1))
  (s.1 + incx + incx,
   { mem := (s.2.mem.write s.1 (r * lm.cos (2 * lm.pi * unitOpen d2.1))).write
       (s.1 + incx) (r * lm.sin (2 * lm.pi * unitOpen d2.1)),
     ext := d2.2 })

/-- The first `n` Box-Muller pairs of a run. -/
def pairsN {σ : Type} (lm : Libm) (random : σ → Nat × σ) (incx : Int) :
    Nat → Int × World σ → Int × World σ
  | 0, s => s
  | n + 1, s => pairsN lm random incx n (pairStep lm random incx s)

/-- The last element of a run of odd length: the cosine value of one more
pair, whose sine value is dropped. -/
def tailStep {σ : Type} (lm : Libm) (random : σ → Nat × σ) (s : Int × World σ) :
    World σ :=
  let d1 := random s.2.ext
  let d2 := random d1.2
  { mem := s.2.mem.write s.1
      (lm.sqrt (-2 * lm.log (unitOpen d1.1)) * lm.cos (2 * lm.pi * unitOpen d2.1)),
    ext := d2.2 }

/-- The fill of a run of `n` elements as the specification words it: `n / 2`
pairs, and for odd `n` one more pair of which only the first value is
kept. -/
def normalFill {σ : Type} (lm : Libm) (random : σ → Nat × σ) (n : Nat) (x incx : Int)
    (w : World σ) : World σ :=
  if n % 2 = 1 then tailStep lm random (pairsN lm random incx (n / 2) (x, w))
  else (pairsN lm random incx (n / 2) (x, w)).2

/-- A generator whose state counts the draws made; draw `k` returns `k`
reduced into the range of `random()`. -/
def countingRandom : Nat → Nat × Nat := fun s => (s % (RAND_MAX + 1), s + 1)

/-- A fully contiguous matrix of two rows and one column at address 0. -/
def col21 : linear_matrix := ⟨2, 1, 1, CblasRowMajor, 0⟩

/-- A fully contiguous matrix of two rows and two columns at address 0. -/
def square22 : linear_matrix := ⟨2, 2, 2, CblasRowMajor, 0⟩

/-! ## Draws of the generator -/

/-- State of the generator after `k` draws. -/
def genState {σ : Type} (random : σ → Nat × σ) : Nat → σ → σ
  | 0, s => s
  | k + 1, s => (random (genState random k s)).2

/-- The draw number `k`, counted from 0, made from the state `s`. -/
def genDraw {σ : Type} (random : σ → Nat × σ) (k : Nat) (s : σ) : Nat :=
  (random (genState random k s)).1

/-- The first value of a Box-Muller pair, `r * cos (2 * pi * u2)` with
`r = sqrt (-2 * ln u1)`, from the draws behind `u1` and `u2`. -/
def boxMullerCos (lm : Libm) (d1 d2 : Nat) : ℚ :=
  lm.sqrt (-2 * lm.log (unitOpen d1)) * lm.cos (2 * lm.pi * unitOpen d2)

/-- The second value of a Box-Muller pair, `r * sin (2 * pi * u2)`. -/
def boxMullerSin (lm : Libm) (d1 d2 : Nat) : ℚ :=
  lm.sqrt (-2 * lm.log (unitOpen d1)) * lm.sin (2 * lm.pi * unitOpen d2)

/-- The functions of `math.h` with a guarded logarithm and a guarded square
root: outside `0 < u <= 1` the logarithm, and below 0 the square root, take
an error branch, which returns 0. -/
def domainGuarded (lm : Libm) : Libm :=
  { lm with
    log := fun u => if 0 < u ∧ u ≤ 1 then lm.log u else 0
    sqrt := fun v => if 0 ≤ v then lm.sqrt v else 0 }

/-! ## The callback map, call by call -/

/-- The callback map as the specification words it, after the first `k`
calls: call `k` receives the value stored in logical element `k` at that
time, and the value it returns is written to element `k` before the next
call; an error ends the map. -/
def applyPrefix {σ : Type} (host : Host) (fn : Callback σ) (x incx : Int)
    (w : World σ) : Nat → Outcome Unit σ
  | 0 => .ok () w
  | k + 1 =>
    match applyPrefix host fn x incx w k with
    | .raise e w1 => .raise e w1
    | .ok _ wk =>
      match fn (wk.mem (x + (k : Int) * incx)) wk with
      | .raise e w1 => .raise e w1
      | .ok r w1 =>
        .ok () { w1 with mem := w1.mem.write (x + (k : Int) * incx) (callbackNumber host r) }

/-- A callback that records the number it is called with in the host state
and returns `g` of it. -/
def recordingCallback (g : ℚ → LuaVal) : Callback (List ℚ) :=
  fun v w => .ok (g v) { w with ext := w.ext ++ [v] }

/-- A callback that records the number it is called with and raises an
error when that number is `bad`. -/
def raisingCallback (bad : ℚ) (g : ℚ → LuaVal) : Callback (List ℚ) :=
  fun v w =>
    if v = bad then .raise (.callback 0) { w with ext := w.ext ++ [v] }
    else .ok (g v) { w with ext := w.ext ++ [v] }

/-- A memory holding `2, 4, 5` at the addresses `0, 1, 2`. -/
def mem245 : Mem := fun a => if a = 0 then 2 else if a = 1 then 4 else 5

/-- A memory holding `2, 4, 5` at the addresses `10, 13, 16`. -/
def mem245Strided : Mem := fun a => if a = 10 then 2 else if a = 13 then 4 else 5

/-- A fully contiguous view of `2^32` rows and `2^32` columns: its element
count `2^64` is 0 modulo `2^64`. -/
def hugeSquare : linear_matrix := ⟨2 ^ 32, 2 ^ 32, 2 ^ 32, CblasRowMajor, 0⟩

/-- A stand-in for the functions of `math.h` whose logarithm, `u - 1`, is
not positive on `0 < u <= 1`, as the logarithm is. -/
def boundLibm : Libm :=
  { ratLibm with log := fun u => u - 1 }

/-! ## Conversions and loops: basic facts -/

theorem toCInt_of_le {n : Nat} (h : n ≤ INT_MAX) : toCInt n = (n : Int) := by
  unfold INT_MAX at h
  unfold toCInt
  have h1 : n % 2 ^ 32 = n := Nat.mod_eq_of_lt (by omega)
  rw [h1]
  have h2 : n < 2 ^ 31 := by omega
  rw [if_pos h2]

theorem toSizeT_of_nonneg {z : Int} (h0 : 0 ≤ z) (h1 : z ≤ INT_MAX) :
    toSizeT z = z.toNat := by
  unfold INT_MAX at h1
  unfold toSizeT
  rw [Int.emod_eq_of_lt h0 (by norm_num at h1 ⊢; omega)]

theorem forLoop_sum (n : Nat) (g : Nat → ℚ) (s0 : ℚ) :
    forLoop n (fun i sum => sum + g i) s0 = s0 + ∑ i ∈ Finset.range n, g i := by
  induction n with
  | zero => simp [forLoop]
  | succ k ih => simp only [forLoop, ih, Finset.sum_range_succ]; ring

theorem forLoop_strided_sum (n : Nat) (g : Int → ℚ) (x incx : Int) (s0 : ℚ) :
    forLoop n (fun _ (s : ℚ × Int) => (s.1 + g s.2, s.2 + incx)) (s0, x)
      = (s0 + ∑ i ∈ Finset.range n, g (x + (i : Int) * incx), x + (n : Int) * incx) := by
  induction n with
  | zero => simp [forLoop]
  | succ k ih =>
    simp only [forLoop, ih, Finset.sum_range_succ]
    refine Prod.ext ?_ ?_
    · simp only; ring
    · simp only; push_cast; ring

theorem sumLoop_eq (size : Int) (m : Mem) (x incx : Int) :
    (sumLoop size m x incx).1
      = ∑ i ∈ Finset.range size.toNat, m (x + (i : Int) * incx) := by
  unfold sumLoop
  split
  · next h => subst h; simp [forLoop_sum]
  · simp [forLoop_strided_sum]

theorem forLoop_sq_sum (n : Nat) (g : Nat → ℚ) (mean s0 : ℚ) :
    forLoop n (fun i sum => sum + (g i - mean) * (g i - mean)) s0
      = s0 + ∑ i ∈ Finset.range n, (g i - mean) ^ 2 := by
  induction n with
  | zero => simp [forLoop]
  | succ k ih => simp only [forLoop, ih, Finset.sum_range_succ]; ring

theorem forLoop_strided_sq_sum (n : Nat) (g : Int → ℚ) (x incx : Int) (mean s0 : ℚ) :
    (forLoop n (fun _ (s : ℚ × Int) =>
        (s.1 + (g s.2 - mean) * (g s.2 - mean), s.2 + incx)) (s0, x)).1
      = s0 + ∑ i ∈ Finset.range n, (g (x + (i : Int) * incx) - mean) ^ 2 := by
  have h := forLoop_strided_sum n (fun a => (g a - mean) * (g a - mean)) x incx s0
  simp only at h
  rw [h]
  simp only [pow_two]

/-- The divisor `size - args[0].d` of the variance kernel, computed in
`size_t`, is the exact difference when `ddof` is below the run size. -/
theorem var_divisor (size : Int) (d : Nat) (h0 : 0 ≤ size) (h1 : size ≤ INT_MAX)
    (hd : (d : Int) < size) :
    (((toSizeT size + SIZE_MOD - d) % SIZE_MOD : Nat) : ℚ)
      = (size.toNat : ℚ) - (d : ℚ) := by
  rw [toSizeT_of_nonneg h0 h1]
  unfold INT_MAX at h1
  unfold SIZE_MOD
  have h2 : (size.toNat + 2 ^ 64 - d) % 2 ^ 64 = size.toNat - d := by
    have : size.toNat + 2 ^ 64 - d = (size.toNat - d) + 2 ^ 64 := by omega
    rw [this, Nat.add_mod_right]
    exact Nat.mod_eq_of_lt (by omega)
  rw [h2, Nat.cast_sub (by omega)]

/-- The pointer rewind `x -= (size_t)size * (size_t)incx` of the variance
kernel undoes the `size` advances by `incx` of the first pass. -/
theorem var_rewind (size incx x : Int) (h0 : 0 ≤ size) (h1 : size ≤ INT_MAX)
    (hi0 : 0 ≤ incx) (hi1 : incx ≤ INT_MAX) :
    x + (size.toNat : Int) * incx
      - (((toSizeT size * toSizeT incx) % SIZE_MOD : Nat) : Int) = x := by
  rw [toSizeT_of_nonneg h0 h1, toSizeT_of_nonneg hi0 hi1]
  unfold INT_MAX at h1 hi1
  unfold SIZE_MOD
  have hb : size.toNat * incx.toNat < 2 ^ 64 := by
    have ha : size.toNat < 2 ^ 32 := by omega
    have hc : incx.toNat < 2 ^ 32 := by omega
    calc size.toNat * incx.toNat < 2 ^ 32 * 2 ^ 32 :=
          Nat.mul_lt_mul'' ha hc
      _ = 2 ^ 64 := by norm_num
  rw [Nat.mod_eq_of_lt hb]
  push_cast
  rw [Int.toNat_of_nonneg hi0]
  ring

theorem linear_var_handler_eq (size incx : Int) (m : Mem) (x : Int)
    (args : List linear_arg) (h0 : 0 ≤ size) (h1 : size ≤ INT_MAX)
    (hi0 : 0 ≤ incx) (hi1 : incx ≤ INT_MAX) (hd : (argD args 0 : Int) < size) :
    linear_var_handler size m x incx args
      = (∑ i ∈ Finset.range size.toNat,
          (m (x + (i : Int) * incx)
            - (∑ k ∈ Finset.range size.toNat, m (x + (k : Int) * incx))
                / (size.toNat : ℚ)) ^ 2)
        / ((size.toNat : ℚ) - (argD args 0 : ℚ)) := by
  have hsz : (size : ℚ) = (size.toNat : ℚ) := by
    have h : (size : ℚ) = ((size.toNat : Int) : ℚ) := by
      rw [Int.toNat_of_nonneg h0]
    rw [h]; exact Int.cast_natCast _
  unfold linear_var_handler
  simp only [var_divisor size (argD args 0) h0 h1 hd]
  congr 1
  split
  · next h =>
    subst h
    rw [forLoop_sq_sum, forLoop_sum, hsz]
    simp
  · rw [forLoop_strided_sum]
    simp only [var_rewind size incx x h0 h1 hi0 hi1]
    rw [forLoop_strided_sq_sum, hsz]
    simp

/-! ## Reductions: reference semantics -/

/-- C10: for a run of `size >= 1` elements read at a stride `incx >= 1` and
`ddof < size`, the sum kernel returns the sum of the logical elements, the
mean kernel that sum divided by `size`, and the variance kernel the sum of
squared deviations from the mean divided by `size - ddof`; on a memory that
holds the same logical sequence contiguously the contiguous branch returns
the same three values as the strided branch. -/
theorem reduction_handlers_reference (size incx : Int) (m : Mem) (x : Int)
    (args : List linear_arg)
    (hsize : 1 ≤ size) (hmax : size ≤ INT_MAX)
    (hinc : 1 ≤ incx) (hincmax : incx ≤ INT_MAX)
    (hd : (argD args 0 : Int) < size) :
    linear_sum_handler size m x incx args
        = refSum (logicalRun m x incx) size.toNat
    ∧ linear_mean_handler size m x incx args
        = refMean (logicalRun m x incx) size.toNat
    ∧ linear_var_handler size m x incx args
        = refVar (logicalRun m x incx) size.toNat (argD args 0)
    ∧ ∀ (m2 : Mem) (x2 : Int),
        (∀ i : Nat, i < size.toNat → m2 (x2 + (i : Int)) = m (x + (i : Int) * incx)) →
        linear_sum_handler size m2 x2 1 args = linear_sum_handler size m x incx args
        ∧ linear_mean_handler size m2 x2 1 args = linear_mean_handler size m x incx args
        ∧ linear_var_handler size m2 x2 1 args = linear_var_handler size m x incx args := by
  have h0 : 0 ≤ size := by omega
  have hsz : (size : ℚ) = (size.toNat : ℚ) := by
    have h : (size : ℚ) = ((size.toNat : Int) : ℚ) := by
      rw [Int.toNat_of_nonneg h0]
    rw [h]; exact Int.cast_natCast _
  have hmax1 : (1 : Int) ≤ INT_MAX := by unfold INT_MAX; norm_num
  refine ⟨?_, ?_, ?_, ?_⟩
  · simp only [linear_sum_handler, sumLoop_eq, refSum, logicalRun]
  · simp only [linear_mean_handler, sumLoop_eq, refMean, refSum, logicalRun, hsz]
  · rw [linear_var_handler_eq size incx m x args h0 hmax (by omega) hincmax hd]
    simp only [refVar, refMean, refSum, logicalRun]
  · intro m2 x2 hsame
    have hs : ∑ i ∈ Finset.range size.toNat, m2 (x2 + (i : Int) * 1)
        = ∑ i ∈ Finset.range size.toNat, m (x + (i : Int) * incx) := by
      apply Finset.sum_congr rfl
      intro i hi
      rw [mul_one]
      exact hsame i (Finset.mem_range.mp hi)
    refine ⟨?_, ?_, ?_⟩
    · simp only [linear_sum_handler, sumLoop_eq, hs]
    · simp only [linear_mean_handler, sumLoop_eq, hs]
    · rw [linear_var_handler_eq size incx m x args h0 hmax (by omega) hincmax hd,
        linear_var_handler_eq size 1 m2 x2 args h0 hmax (by norm_num) hmax1 hd, hs]
      congr 1
      apply Finset.sum_congr rfl
      intro i hi
      rw [mul_one, hsame i (Finset.mem_range.mp hi)]

/-- C10, witness: the run `1, 2, 3, 4` read at stride 3 has sum 10, mean
5/2, variance 5/4 for `ddof = 0` and 5/3 for `ddof = 1`, and the
contiguous run `1, 2, 3, 4` gives the same variance. -/
theorem reduction_handlers_reference_witness :
    linear_sum_handler 4 stridedRunMem 5 3 [.d 0] = 10
    ∧ linear_mean_handler 4 stridedRunMem 5 3 [.d 0] = 5 / 2
    ∧ linear_var_handler 4 stridedRunMem 5 3 [.d 0] = 5 / 4
    ∧ linear_var_handler 4 stridedRunMem 5 3 [.d 1] = 5 / 3
    ∧ linear_var_handler 4 contigRunMem 0 1 [.d 1] = 5 / 3 := by
  have a0 := reduction_handlers_reference 4 3 stridedRunMem 5 [.d 0]
    (by decide) (by decide) (by decide) (by decide) (by decide)
  have a1 := reduction_handlers_reference 4 3 stridedRunMem 5 [.d 1]
    (by decide) (by decide) (by decide) (by decide) (by decide)
  have e0 : refSum (logicalRun stridedRunMem 5 3) 4 = 10 := by
    norm_num [refSum, logicalRun, stridedRunMem, Finset.sum_range_succ]
  have e1 : refMean (logicalRun stridedRunMem 5 3) 4 = 5 / 2 := by
    norm_num [refMean, refSum, logicalRun, stridedRunMem, Finset.sum_range_succ]
  have e2 : refVar (logicalRun stridedRunMem 5 3) 4 0 = 5 / 4 := by
    norm_num [refVar, refMean, refSum, logicalRun, stridedRunMem, Finset.sum_range_succ]
  have e3 : refVar (logicalRun stridedRunMem 5 3) 4 1 = 5 / 3 := by
    norm_num [refVar, refMean, refSum, logicalRun, stridedRunMem, Finset.sum_range_succ]
  have hd0 : argD [linear_arg.d 0] 0 = 0 := rfl
  have hd1 : argD [linear_arg.d 1] 0 = 1 := rfl
  have hn : (4 : Int).toNat = 4 := rfl
  rw [hd0, hn] at a0
  rw [hd1, hn] at a1
  refine ⟨a0.1.trans e0, a0.2.1.trans e1, a0.2.2.1.trans e2, a1.2.2.1.trans e3, ?_⟩
  have hc := (a1.2.2.2 contigRunMem 0 (by
    intro i _
    simp only [contigRunMem, stridedRunMem]
    push_cast
    ring)).2.2
  rw [hc]
  exact a1.2.2.1.trans e3

/-! ## Reduction dispatch -/

theorem testVector_of_testMatrix {L : List LuaVal} {index : Nat} {X : linear_matrix}
    (h : testMatrix L index = some X) : testVector L index = none := by
  unfold testMatrix at h
  unfold testVector
  split at h <;> simp_all

/-- The loop of `linear_unary` with a kernel that only reads its run: when
no output slot lies in a run, slot `k` ends up holding the kernel's value
on the run `k` of the initial memory, and nothing but the slots changes. -/
theorem reduceLoop_pure {σ : Type} (h : Int → Mem → Int → Int → List linear_arg → ℚ)
    (N size : Nat) (X : linear_matrix) (step : Nat) (incx : Int) (y : linear_vector)
    (args : List linear_arg) (w : World σ)
    (hfoot : ∀ (m1 m2 : Mem) (base : Int),
      (∀ r : Nat, r < size → m1 (base + (r : Int) * incx) = m2 (base + (r : Int) * incx)) →
      h (toCInt size) m1 base incx args = h (toCInt size) m2 base incx args)
    (hinc : 1 ≤ y.inc)
    (hdisj : ∀ k k2 r : Nat, k < N → k2 < N → r < size →
      y.values + ((k * y.inc : Nat) : Int)
        ≠ X.values + ((k2 * step : Nat) : Int) + (r : Int) * incx) :
    ∀ n : Nat, n ≤ N →
      (reduceLoop (pureU h) n size X step incx y args w).ext = w.ext
      ∧ (∀ a : Int, (∀ k : Nat, k < n → a ≠ y.values + ((k * y.inc : Nat) : Int)) →
          (reduceLoop (pureU h) n size X step incx y args w).mem a = w.mem a)
      ∧ (∀ k : Nat, k < n →
          (reduceLoop (pureU h) n size X step incx y args w).mem
              (y.values + ((k * y.inc : Nat) : Int))
            = h (toCInt size) w.mem (X.values + ((k * step : Nat) : Int)) incx args) := by
  intro n
  induction n with
  | zero =>
    intro _
    refine ⟨rfl, fun a _ => rfl, fun k hk => absurd hk (Nat.not_lt_zero k)⟩
  | succ n ih =>
    intro hn
    obtain ⟨ihe, iho, ihs⟩ := ih (by omega)
    have hstep : reduceLoop (pureU h) (n + 1) size X step incx y args w
        = { reduceLoop (pureU h) n size X step incx y args w with
            mem := (reduceLoop (pureU h) n size X step incx y args w).mem.write
              (y.values + ((n * y.inc : Nat) : Int))
              (h (toCInt size) (reduceLoop (pureU h) n size X step incx y args w).mem
                (X.values + ((n * step : Nat) : Int)) incx args) } := rfl
    have hval : h (toCInt size) (reduceLoop (pureU h) n size X step incx y args w).mem
          (X.values + ((n * step : Nat) : Int)) incx args
        = h (toCInt size) w.mem (X.values + ((n * step : Nat) : Int)) incx args := by
      apply hfoot
      intro r hr
      apply iho
      intro k hk
      exact (hdisj k n r (by omega) (by omega) hr).symm
    rw [hstep]
    refine ⟨ihe, ?_, ?_⟩
    · intro a ha
      simp only [Mem.write]
      rw [if_neg (ha n (by omega))]
      exact iho a (fun k hk => ha k (by omega))
    · intro k hk
      simp only [Mem.write]
      by_cases hkn : k = n
      · subst hkn
        rw [if_pos rfl, hval]
      · have hne : y.values + ((k * y.inc : Nat) : Int)
            ≠ y.values + ((n * y.inc : Nat) : Int) := by
          intro he
          have he2 : k * y.inc = n * y.inc := by omega
          exact hkn (Nat.eq_of_mul_eq_mul_right (by omega) he2)
        rw [if_neg hne]
        exact ihs k (by omega)

theorem linear_sum_handler_foot (size : Nat) (incx : Int) (args : List linear_arg)
    (hs : size ≤ INT_MAX) (m1 m2 : Mem) (base : Int)
    (hm : ∀ r : Nat, r < size → m1 (base + (r : Int) * incx) = m2 (base + (r : Int) * incx)) :
    linear_sum_handler (toCInt size) m1 base incx args
      = linear_sum_handler (toCInt size) m2 base incx args := by
  simp only [linear_sum_handler, sumLoop_eq, toCInt_of_le hs, Int.toNat_ofNat]
  apply Finset.sum_congr rfl
  intro r hr
  exact hm r (Finset.mem_range.mp hr)

theorem reduceLoop_sum {σ : Type} (count size : Nat) (X : linear_matrix) (step : Nat)
    (incx : Int) (y : linear_vector) (args : List linear_arg) (w : World σ)
    (hs : size ≤ INT_MAX) (hinc : 1 ≤ y.inc)
    (hdisj : ∀ k k2 r : Nat, k < count → k2 < count → r < size →
      y.values + ((k * y.inc : Nat) : Int)
        ≠ X.values + ((k2 * step : Nat) : Int) + (r : Int) * incx) :
    (∀ a : Int, (∀ k : Nat, k < count → a ≠ y.values + ((k * y.inc : Nat) : Int)) →
        (reduceLoop (pureU linear_sum_handler) count size X step incx y args w).mem a
          = w.mem a)
    ∧ ∀ k : Nat, k < count →
        (reduceLoop (pureU linear_sum_handler) count size X step incx y args w).mem
            (y.values + ((k * y.inc : Nat) : Int))
          = ∑ r ∈ Finset.range size,
              w.mem (X.values + ((k * step : Nat) : Int) + (r : Int) * incx) := by
  obtain ⟨_, ho, hsl⟩ := reduceLoop_pure linear_sum_handler count size X step incx y args w
    (linear_sum_handler_foot size incx args hs) hinc hdisj count (Nat.le_refl _)
  refine ⟨ho, ?_⟩
  intro k hk
  rw [hsl k hk]
  simp only [linear_sum_handler, sumLoop_eq, toCInt_of_le hs, Int.toNat_ofNat]

/-- C1: with the sum kernel, an output vector of stride at least 1 whose
slots do not overlap the matrix, and dimensions in the kernels' `int` range,
`linear_unary` returns normally and leaves slot `k` of the output equal to
the sum of logical row `k` (row axis) or of logical column `k` (column
axis) of the matrix, whichever storage order the matrix has; the elements
of the matrix are unchanged. -/
theorem reduction_axis_symmetry {σ : Type} (host : Host) (L : List LuaVal)
    (X : linear_matrix) (y : linear_vector) (axis : CBLAS_ORDER)
    (args : List linear_arg) (w : World σ)
    (hX : testMatrix L 1 = some X) (hy : testVector L 2 = some y)
    (haxis : host.linear_checkorder L 3 = .ok axis)
    (hargs : host.linear_checkargs L LINEAR_PARAMS_NONE (runLength axis X) 4 = .ok args)
    (hlen : y.length = outLength axis X)
    (hfit : X.fitsInt) (hinc : 1 ≤ y.inc)
    (hdisj : ∀ k i j : Nat, k < y.length → i < X.rows → j < X.cols →
      y.addr k ≠ X.addr i j) :
    ∃ w2 : World σ,
      linear_unary host L (pureU linear_sum_handler) LINEAR_PARAMS_NONE w = .ok none w2
      ∧ (∀ k : Nat, k < outLength axis X →
          w2.mem (y.addr k)
            = ∑ r ∈ Finset.range (runLength axis X), w.mem (X.axisAddr axis k r))
      ∧ (∀ i j : Nat, i < X.rows → j < X.cols → w2.mem (X.addr i j) = w.mem (X.addr i j)) := by
  obtain ⟨hrows, hcols, hld⟩ := hfit
  unfold linear_unary
  rw [testVector_of_testMatrix hX, hX, hy, haxis]
  cases axis with
  | CblasRowMajor =>
    simp only [outLength, runLength] at hlen hargs ⊢
    rw [if_pos hlen, hargs]
    simp only
    by_cases hord : X.order = CblasRowMajor
    · rw [if_pos hord]
      have hA : ∀ i j : Nat, X.values + ((i * X.ld : Nat) : Int) + (j : Int) * 1 = X.addr i j := by
        intro i j; simp only [linear_matrix.addr, hord]; push_cast; ring
      obtain ⟨ho, hsl⟩ := reduceLoop_sum X.rows X.cols X X.ld 1 y args w hcols hinc (by
        intro k k2 r hk hk2 hr
        rw [hA]
        exact hdisj k k2 r (by omega) hk2 hr)
      refine ⟨_, rfl, ?_, ?_⟩
      · intro k hk
        simp only [linear_vector.addr, linear_matrix.axisAddr]
        rw [hsl k hk]
        exact Finset.sum_congr rfl (fun r _ => by rw [hA])
      · intro i j hi hj
        apply ho
        intro k hk
        exact (hdisj k i j (by omega) hi hj).symm
    · rw [if_neg hord]
      have hord2 : X.order = CblasColMajor := by
        cases hX2 : X.order <;> simp_all
      have hA : ∀ i j : Nat,
          X.values + ((i * 1 : Nat) : Int) + (j : Int) * toCInt X.ld = X.addr i j := by
        intro i j
        simp only [linear_matrix.addr, hord2, toCInt_of_le hld]; push_cast; ring
      obtain ⟨ho, hsl⟩ := reduceLoop_sum X.rows X.cols X 1 (toCInt X.ld) y args w hcols hinc (by
        intro k k2 r hk hk2 hr
        rw [hA]
        exact hdisj k k2 r (by omega) hk2 hr)
      refine ⟨_, rfl, ?_, ?_⟩
      · intro k hk
        simp only [linear_vector.addr, linear_matrix.axisAddr]
        rw [hsl k hk]
        exact Finset.sum_congr rfl (fun r _ => by rw [hA])
      · intro i j hi hj
        apply ho
        intro k hk
        exact (hdisj k i j (by omega) hi hj).symm
  | CblasColMajor =>
    simp only [outLength, runLength] at hlen hargs ⊢
    rw [if_pos hlen, hargs]
    simp only
    by_cases hord : X.order = CblasColMajor
    · rw [if_pos hord]
      have hA : ∀ i j : Nat, X.values + ((i * X.ld : Nat) : Int) + (j : Int) * 1 = X.addr j i := by
        intro i j; simp only [linear_matrix.addr, hord]; push_cast; ring
      obtain ⟨ho, hsl⟩ := reduceLoop_sum X.cols X.rows X X.ld 1 y args w hrows hinc (by
        intro k k2 r hk hk2 hr
        rw [hA]
        exact hdisj k r k2 (by omega) hr hk2)
      refine ⟨_, rfl, ?_, ?_⟩
      · intro k hk
        simp only [linear_vector.addr, linear_matrix.axisAddr]
        rw [hsl k hk]
        exact Finset.sum_congr rfl (fun r _ => by rw [hA])
      · intro i j hi hj
        apply ho
        intro k hk
        exact (hdisj k i j (by omega) hi hj).symm
    · rw [if_neg hord]
      have hord2 : X.order = CblasRowMajor := by
        cases hX2 : X.order <;> simp_all
      have hA : ∀ i j : Nat,
          X.values + ((i * 1 : Nat) : Int) + (j : Int) * toCInt X.ld = X.addr j i := by
        intro i j
        simp only [linear_matrix.addr, hord2, toCInt_of_le hld]; push_cast; ring
      obtain ⟨ho, hsl⟩ := reduceLoop_sum X.cols X.rows X 1 (toCInt X.ld) y args w hrows hinc (by
        intro k k2 r hk hk2 hr
        rw [hA]
        exact hdisj k r k2 (by omega) hr hk2)
      refine ⟨_, rfl, ?_, ?_⟩
      · intro k hk
        simp only [linear_vector.addr, linear_matrix.axisAddr]
        rw [hsl k hk]
        exact Finset.sum_congr rfl (fun r _ => by rw [hA])
      · intro i j hi hj
        apply ho
        intro k hk
        exact (hdisj k i j (by omega) hi hj).symm

/-- C1, witness: the matrix `[[1,2,3],[4,5,6]]`, stored in row-major order
and stored in column-major order, reduces along the row axis to `6, 15`. -/
theorem reduction_axis_symmetry_witness :
    (∃ w2 : World Unit,
      linear_unary specHost [.matrix rowMajor23, .vector out2, .string "row"]
        (pureU linear_sum_handler) LINEAR_PARAMS_NONE ⟨rowMajor23Mem, ()⟩ = .ok none w2
      ∧ w2.mem 100 = 6 ∧ w2.mem 102 = 15)
    ∧ (∃ w2 : World Unit,
      linear_unary specHost [.matrix colMajor23, .vector out2, .string "row"]
        (pureU linear_sum_handler) LINEAR_PARAMS_NONE ⟨colMajor23Mem, ()⟩ = .ok none w2
      ∧ w2.mem 100 = 6 ∧ w2.mem 102 = 15) := by
  constructor
  · obtain ⟨w2, h1, h2, _⟩ := reduction_axis_symmetry specHost
      [.matrix rowMajor23, .vector out2, .string "row"] rowMajor23 out2 CblasRowMajor []
      (⟨rowMajor23Mem, ()⟩ : World Unit) rfl rfl rfl rfl rfl (by decide)
      (by decide)
      (by
        intro k i j hk hi hj
        simp only [out2, rowMajor23] at hk hi hj
        simp only [linear_vector.addr, linear_matrix.addr, out2, rowMajor23]
        omega)
    refine ⟨w2, h1, ?_, ?_⟩
    · have h := h2 0 (by decide)
      simp only [linear_vector.addr, out2] at h
      norm_num at h
      rw [h]
      norm_num [runLength, rowMajor23, rowMajor23Mem, linear_matrix.axisAddr,
        linear_matrix.addr, Finset.sum_range_succ]
    · have h := h2 1 (by decide)
      simp only [linear_vector.addr, out2] at h
      norm_num at h
      rw [h]
      norm_num [runLength, rowMajor23, rowMajor23Mem, linear_matrix.axisAddr,
        linear_matrix.addr, Finset.sum_range_succ]
  · obtain ⟨w2, h1, h2, _⟩ := reduction_axis_symmetry specHost
      [.matrix colMajor23, .vector out2, .string "row"] colMajor23 out2 CblasRowMajor []
      (⟨colMajor23Mem, ()⟩ : World Unit) rfl rfl rfl rfl rfl (by decide)
      (by decide)
      (by
        intro k i j hk hi hj
        simp only [out2, colMajor23] at hk hi hj
        simp only [linear_vector.addr, linear_matrix.addr, out2, colMajor23]
        omega)
    refine ⟨w2, h1, ?_, ?_⟩
    · have h := h2 0 (by decide)
      simp only [linear_vector.addr, out2] at h
      norm_num at h
      rw [h]
      norm_num [runLength, colMajor23, colMajor23Mem, linear_matrix.axisAddr,
        linear_matrix.addr, Finset.sum_range_succ]
    · have h := h2 1 (by decide)
      simp only [linear_vector.addr, out2] at h
      norm_num at h
      rw [h]
      norm_num [runLength, colMajor23, colMajor23Mem, linear_matrix.axisAddr,
        linear_matrix.addr, Finset.sum_range_succ]

/-! ## Reduction dispatch: argument and dimension checks -/

theorem reduceLoop_trace (count size : Nat) (X : linear_matrix) (step : Nat) (incx : Int)
    (y : linear_vector) (args : List linear_arg) (w : World (List KernelCall)) :
    (reduceLoop traceU count size X step incx y args w).ext
      = w.ext ++ (List.range count).map
          (fun i => (⟨toCInt size, X.values + ((i * step : Nat) : Int), incx, args⟩ : KernelCall)) := by
  induction count with
  | zero => simp [reduceLoop, forLoop]
  | succ n ih =>
    have hstep : (reduceLoop traceU (n + 1) size X step incx y args w).ext
        = (reduceLoop traceU n size X step incx y args w).ext
          ++ [⟨toCInt size, X.values + ((n * step : Nat) : Int), incx, args⟩] := rfl
    rw [hstep, ih, List.range_succ, List.map_append, List.append_assoc]
    rfl

theorem reduceLoop_trace_calls (count size : Nat) (X : linear_matrix) (step : Nat)
    (incx : Int) (y : linear_vector) (args : List linear_arg)
    (w : World (List KernelCall)) (hstart : w.ext = []) :
    (reduceLoop traceU count size X step incx y args w).ext.length = count
    ∧ ∀ c ∈ (reduceLoop traceU count size X step incx y args w).ext,
        c.size = toCInt size ∧ c.args = args := by
  rw [reduceLoop_trace, hstart]
  refine ⟨by simp, ?_⟩
  intro c hc
  simp only [List.nil_append, List.mem_map, List.mem_range] at hc
  obtain ⟨i, _, rfl⟩ := hc
  exact ⟨rfl, rfl⟩

theorem specParseDdof_lt (size : Nat) (p : linear_param) (v : LuaVal) (a : linear_arg)
    (h : specParseDdof size p v = .ok a) : argD [a] 0 < size := by
  unfold specParseDdof at h
  split at h
  · split at h
    · next hk =>
      injection h with h
      subst h
      exact hk
    · cases h
  · split at h
    · next hk =>
      injection h with h
      subst h
      exact hk.2.2
    · cases h
  · cases h

/-- The parser modelled from the specification rejects a degrees-of-freedom
count that is not below the implied size. -/
theorem specHost_rejects_ddof (L : List LuaVal) (size index : Nat)
    (args : List linear_arg)
    (h : specHost.linear_checkargs L LINEAR_PARAMS_DDOF size index = .ok args) :
    argD args 0 < size := by
  simp only [specHost] at h
  unfold specCheckargs at h
  by_cases hc : (specFields L index).all
      (fun kv => LINEAR_PARAMS_DDOF.any (fun p => p.name = kv.1)) = true
  · rw [if_pos hc] at h
    unfold LINEAR_PARAMS_DDOF at h
    unfold specParseArgs at h
    have hd : specParseArg size ⟨"ddof", 'd', .d 0, []⟩
        = specParseDdof size ⟨"ddof", 'd', .d 0, []⟩ := by
      funext v
      unfold specParseArg
      rfl
    rw [hd] at h
    generalize specArgValue L (specFields L index) ⟨"ddof", 'd', .d 0, []⟩ index = v at h
    cases hq : specParseDdof size ⟨"ddof", 'd', .d 0, []⟩ v with
    | error e => rw [hq] at h; cases h
    | ok a =>
      rw [hq] at h
      unfold specParseArgs at h
      simp only at h
      injection h with h
      subst h
      exact specParseDdof_lt _ _ _ _ hq
  · rw [if_neg hc] at h
    cases h

/-- The matrix branch of `linear_unary` once the dimension check has
passed: the parser is called on the run length, then the reduction loop
runs with the start step and stride that storage order and axis select. -/
theorem linear_unary_matrix_eq {σ : Type} (host : Host) (L : List LuaVal)
    (f : UKernel σ) (params : List linear_param) (w : World σ)
    (X : linear_matrix) (y : linear_vector) (axis : CBLAS_ORDER)
    (hX : testMatrix L 1 = some X) (hy : testVector L 2 = some y)
    (haxis : host.linear_checkorder L 3 = .ok axis)
    (hlen : y.length = outLength axis X) :
    linear_unary host L f params w
      = match host.linear_checkargs L params (runLength axis X) 4 with
        | .error e => .raise e w
        | .ok args =>
          .ok none (reduceLoop f (outLength axis X) (runLength axis X) X
            (if X.order = axis then X.ld else 1)
            (if X.order = axis then 1 else toCInt X.ld) y args w) := by
  unfold linear_unary
  rw [testVector_of_testMatrix hX, hX, hy, haxis]
  cases axis with
  | CblasRowMajor =>
    simp only [outLength, runLength] at hlen ⊢
    rw [if_pos hlen]
    cases host.linear_checkargs L params X.cols 4 with
    | error e => rfl
    | ok args =>
      simp only
      by_cases hord : X.order = CblasRowMajor
      · simp only [if_pos hord]
      · simp only [if_neg hord]
  | CblasColMajor =>
    simp only [outLength, runLength] at hlen ⊢
    rw [if_pos hlen]
    cases host.linear_checkargs L params X.rows 4 with
    | error e => rfl
    | ok args =>
      simp only
      by_cases hord : X.order = CblasColMajor
      · simp only [if_pos hord]
      · simp only [if_neg hord]

/-- The matrix branch of `linear_unary` when the dimension check fails. -/
theorem linear_unary_matrix_mismatch {σ : Type} (host : Host) (L : List LuaVal)
    (f : UKernel σ) (params : List linear_param) (w : World σ)
    (X : linear_matrix) (y : linear_vector) (axis : CBLAS_ORDER)
    (hX : testMatrix L 1 = some X) (hy : testVector L 2 = some y)
    (haxis : host.linear_checkorder L 3 = .ok axis)
    (hlen : y.length ≠ outLength axis X) :
    linear_unary host L f params w = .raise .dimension w := by
  unfold linear_unary
  rw [testVector_of_testMatrix hX, hX, hy, haxis]
  cases axis with
  | CblasRowMajor =>
    simp only [outLength] at hlen ⊢
    rw [if_neg hlen]
  | CblasColMajor =>
    simp only [outLength] at hlen ⊢
    rw [if_neg hlen]

/-- The vector branch of `linear_unary`. -/
theorem linear_unary_vector_eq {σ : Type} (host : Host) (L : List LuaVal)
    (f : UKernel σ) (params : List linear_param) (w : World σ) (x : linear_vector)
    (hx : testVector L 1 = some x) :
    linear_unary host L f params w
      = match host.linear_checkargs L params x.length 2 with
        | .error e => .raise e w
        | .ok args =>
          .ok (some (f (toCInt x.length) x.values (toCInt x.inc) args w).1)
            (f (toCInt x.length) x.values (toCInt x.inc) args w).2 := by
  unfold linear_unary
  rw [hx]

/-- Every path of `linear_unary` that ends before the first kernel call
ends in the state it started in. -/
theorem linear_unary_world_cases {σ : Type} (host : Host) (L : List LuaVal)
    (f : UKernel σ) (params : List linear_param) (w : World σ) :
    (linear_unary host L f params w).world = w
    ∨ (∃ x args, testVector L 1 = some x
        ∧ host.linear_checkargs L params x.length 2 = .ok args)
    ∨ (∃ X y axis args, testMatrix L 1 = some X ∧ testVector L 2 = some y
        ∧ host.linear_checkorder L 3 = .ok axis ∧ y.length = outLength axis X
        ∧ host.linear_checkargs L params (runLength axis X) 4 = .ok args) := by
  cases hx : testVector L 1 with
  | some x =>
    cases ha : host.linear_checkargs L params x.length 2 with
    | error e =>
      left
      rw [linear_unary_vector_eq host L f params w x hx, ha]
      rfl
    | ok args => exact Or.inr (Or.inl ⟨x, args, rfl, ha⟩)
  | none =>
    cases hX : testMatrix L 1 with
    | none =>
      left
      unfold linear_unary
      rw [hx, hX]
      rfl
    | some X =>
      cases hy : testVector L 2 with
      | none =>
        left
        unfold linear_unary
        rw [hx, hX, hy]
        rfl
      | some y =>
        cases hax : host.linear_checkorder L 3 with
        | error e =>
          left
          unfold linear_unary
          rw [hx, hX, hy, hax]
          rfl
        | ok axis =>
          by_cases hlen : y.length = outLength axis X
          · cases ha : host.linear_checkargs L params (runLength axis X) 4 with
            | error e =>
              left
              rw [linear_unary_matrix_eq host L f params w X y axis hX hy hax hlen, ha]
              rfl
            | ok args =>
              exact Or.inr (Or.inr ⟨X, y, axis, args, rfl, rfl, rfl, hlen, ha⟩)
          · left
            rw [linear_unary_matrix_mismatch host L f params w X y axis hX hy hax hlen]
            rfl

theorem reduceLoop_congr {σ : Type} (f g : UKernel σ) (count size : Nat)
    (X : linear_matrix) (step : Nat) (incx : Int) (y : linear_vector)
    (args : List linear_arg)
    (h : ∀ (x : Int) (w : World σ),
      f (toCInt size) x incx args w = g (toCInt size) x incx args w)
    (w : World σ) :
    reduceLoop f count size X step incx y args w
      = reduceLoop g count size X step incx y args w := by
  unfold reduceLoop
  congr 1
  funext i w2
  rw [h]

/-- Two kernels that agree on the invocations `linear_unary` makes give the
same outcome. -/
theorem linear_unary_congr {σ : Type} (host : Host) (L : List LuaVal)
    (f g : UKernel σ) (params : List linear_param) (w : World σ)
    (hV : ∀ x args, testVector L 1 = some x →
      host.linear_checkargs L params x.length 2 = .ok args →
      ∀ (w2 : World σ), f (toCInt x.length) x.values (toCInt x.inc) args w2
        = g (toCInt x.length) x.values (toCInt x.inc) args w2)
    (hM : ∀ X axis args, testMatrix L 1 = some X →
      host.linear_checkargs L params (runLength axis X) 4 = .ok args →
      ∀ (p incx : Int) (w2 : World σ), f (toCInt (runLength axis X)) p incx args w2
        = g (toCInt (runLength axis X)) p incx args w2) :
    linear_unary host L f params w = linear_unary host L g params w := by
  cases hx : testVector L 1 with
  | some x =>
    rw [linear_unary_vector_eq host L f params w x hx,
      linear_unary_vector_eq host L g params w x hx]
    cases ha : host.linear_checkargs L params x.length 2 with
    | error e => rfl
    | ok args =>
      simp only
      rw [hV x args hx ha w]
  | none =>
    cases hX : testMatrix L 1 with
    | none =>
      unfold linear_unary
      rw [hx, hX]
    | some X =>
      cases hy : testVector L 2 with
      | none =>
        unfold linear_unary
        rw [hx, hX, hy]
      | some y =>
        cases hax : host.linear_checkorder L 3 with
        | error e =>
          unfold linear_unary
          rw [hx, hX, hy, hax]
        | ok axis =>
          by_cases hlen : y.length = outLength axis X
          · rw [linear_unary_matrix_eq host L f params w X y axis hX hy hax hlen,
              linear_unary_matrix_eq host L g params w X y axis hX hy hax hlen]
            cases ha : host.linear_checkargs L params (runLength axis X) 4 with
            | error e => rfl
            | ok args =>
              simp only
              rw [reduceLoop_congr f g _ _ _ _ _ _ _ (fun p w2 => hM X axis args hX ha p _ w2)]
          · rw [linear_unary_matrix_mismatch host L f params w X y axis hX hy hax hlen,
              linear_unary_matrix_mismatch host L g params w X y axis hX hy hax hlen]

/-- C2: in `linear_unary` with the degrees-of-freedom parameter the parser is
called before any kernel invocation, with the length of the runs the kernel
will reduce as implied size (the vector length; the number of columns for
the row axis, the number of rows for the column axis, in both storage
orders). A parser error is raised with no kernel invoked; otherwise every
invocation has the implied size as run size and the parsed arguments, so
with a parser that rejects `ddof >= implied size` no invocation has
`size - ddof <= 0`: the outcome for any kernel, `linear_var_handler`
included, is the outcome for the kernel restricted to `ddof < size`. -/
theorem ddof_checked_before_kernel (host : Host) (L : List LuaVal)
    (w : World (List KernelCall))
    (hparse : ∀ (L2 : List LuaVal) (size index : Nat) (args : List linear_arg),
      host.linear_checkargs L2 LINEAR_PARAMS_DDOF size index = .ok args →
      argD args 0 < size)
    (hfitV : ∀ x, testVector L 1 = some x → x.fitsInt)
    (hfitM : ∀ X, testMatrix L 1 = some X → X.fitsInt)
    (hstart : w.ext = []) :
    (∀ x, testVector L 1 = some x →
      (∀ e, host.linear_checkargs L LINEAR_PARAMS_DDOF x.length 2 = .error e →
        linear_unary host L traceU LINEAR_PARAMS_DDOF w = .raise e w)
      ∧ (∀ args, host.linear_checkargs L LINEAR_PARAMS_DDOF x.length 2 = .ok args →
        (linear_unary host L traceU LINEAR_PARAMS_DDOF w).world.ext
          = [⟨(x.length : Int), x.values, (x.inc : Int), args⟩]))
    ∧ (∀ X y axis, testMatrix L 1 = some X → testVector L 2 = some y →
        host.linear_checkorder L 3 = .ok axis → y.length = outLength axis X →
      (∀ e, host.linear_checkargs L LINEAR_PARAMS_DDOF (runLength axis X) 4 = .error e →
        linear_unary host L traceU LINEAR_PARAMS_DDOF w = .raise e w)
      ∧ (∀ args,
        host.linear_checkargs L LINEAR_PARAMS_DDOF (runLength axis X) 4 = .ok args →
        (linear_unary host L traceU LINEAR_PARAMS_DDOF w).world.ext.length
          = outLength axis X
        ∧ ∀ c ∈ (linear_unary host L traceU LINEAR_PARAMS_DDOF w).world.ext,
            c.size = (runLength axis X : Int) ∧ c.args = args))
    ∧ (∀ c ∈ (linear_unary host L traceU LINEAR_PARAMS_DDOF w).world.ext,
        (argD c.args 0 : Int) < c.size)
    ∧ (∀ (σ : Type) (f : UKernel σ) (w2 : World σ),
        linear_unary host L f LINEAR_PARAMS_DDOF w2
          = linear_unary host L (ddofGuarded f) LINEAR_PARAMS_DDOF w2) := by
  have hV : ∀ x, testVector L 1 = some x →
      (∀ e, host.linear_checkargs L LINEAR_PARAMS_DDOF x.length 2 = .error e →
        linear_unary host L traceU LINEAR_PARAMS_DDOF w = .raise e w)
      ∧ (∀ args, host.linear_checkargs L LINEAR_PARAMS_DDOF x.length 2 = .ok args →
        (linear_unary host L traceU LINEAR_PARAMS_DDOF w).world.ext
          = [⟨(x.length : Int), x.values, (x.inc : Int), args⟩]) := by
    intro x hx
    obtain ⟨hl, hi⟩ := hfitV x hx
    constructor
    · intro e he
      rw [linear_unary_vector_eq host L traceU _ w x hx, he]
    · intro args ha
      rw [linear_unary_vector_eq host L traceU _ w x hx, ha]
      simp only [Outcome.world, traceU, hstart, toCInt_of_le hl, toCInt_of_le hi,
        List.nil_append]
  have hM : ∀ X y axis, testMatrix L 1 = some X → testVector L 2 = some y →
        host.linear_checkorder L 3 = .ok axis → y.length = outLength axis X →
      (∀ e, host.linear_checkargs L LINEAR_PARAMS_DDOF (runLength axis X) 4 = .error e →
        linear_unary host L traceU LINEAR_PARAMS_DDOF w = .raise e w)
      ∧ (∀ args,
        host.linear_checkargs L LINEAR_PARAMS_DDOF (runLength axis X) 4 = .ok args →
        (linear_unary host L traceU LINEAR_PARAMS_DDOF w).world.ext.length
          = outLength axis X
        ∧ ∀ c ∈ (linear_unary host L traceU LINEAR_PARAMS_DDOF w).world.ext,
            c.size = (runLength axis X : Int) ∧ c.args = args) := by
    intro X y axis hX hy hax hlen
    obtain ⟨hr, hc, _⟩ := hfitM X hX
    have hrun : runLength axis X ≤ INT_MAX := by
      cases axis
      · exact hc
      · exact hr
    constructor
    · intro e he
      rw [linear_unary_matrix_eq host L traceU _ w X y axis hX hy hax hlen, he]
    · intro args ha
      rw [linear_unary_matrix_eq host L traceU _ w X y axis hX hy hax hlen, ha]
      simp only [Outcome.world]
      have h := reduceLoop_trace_calls (outLength axis X) (runLength axis X) X
        (if X.order = axis then X.ld else 1)
        (if X.order = axis then 1 else toCInt X.ld) y args w hstart
      rw [toCInt_of_le hrun] at h
      exact h
  refine ⟨hV, hM, ?_, ?_⟩
  rotate_left
  · intro σ f w2
    apply linear_unary_congr
    · intro x args hx ha w3
      have hd := hparse L x.length 2 args ha
      simp only [ddofGuarded]
      rw [if_pos (by rw [toCInt_of_le (hfitV x hx).1]; omega)]
    · intro X axis args hX ha p incx w3
      have hd := hparse L (runLength axis X) 4 args ha
      obtain ⟨hr, hc, _⟩ := hfitM X hX
      have hrun : runLength axis X ≤ INT_MAX := by
        cases axis
        · exact hc
        · exact hr
      simp only [ddofGuarded]
      rw [if_pos (by rw [toCInt_of_le hrun]; omega)]
  intro c hc
  rcases linear_unary_world_cases host L traceU LINEAR_PARAMS_DDOF w with h | h | h
  · rw [h, hstart] at hc
    cases hc
  · obtain ⟨x, args, hx, ha⟩ := h
    rw [(hV x hx).2 args ha] at hc
    simp only [List.mem_singleton] at hc
    subst hc
    have := hparse L x.length 2 args ha
    simp only
    omega
  · obtain ⟨X, y, axis, args, hX, hy, hax, hlen, ha⟩ := h
    obtain ⟨hs, hargs⟩ := ((hM X y axis hX hy hax hlen).2 args ha).2 c hc
    have := hparse L (runLength axis X) 4 args ha
    rw [hs, hargs]
    omega

/-- C2, witness: on a vector of length 4 the variance dispatch with
`ddof = 1` invokes the kernel once, with run size 4 and the parsed `ddof`;
with `ddof = 4` the parser's range error is raised and no kernel runs. -/
theorem ddof_checked_before_kernel_witness :
    (linear_unary specHost [.vector vec4, .number 1] traceU LINEAR_PARAMS_DDOF
        ⟨contigRunMem, []⟩).world.ext = [⟨4, 0, 1, [.d 1]⟩]
    ∧ linear_unary specHost [.vector vec4, .number 4] traceU LINEAR_PARAMS_DDOF
        ⟨contigRunMem, []⟩ = .raise .argRange ⟨contigRunMem, []⟩ := by
  constructor
  · exact ((ddof_checked_before_kernel specHost [.vector vec4, .number 1]
      ⟨contigRunMem, []⟩ specHost_rejects_ddof
      (by intro x hx; cases hx; decide) (by intro X hX; cases hX) rfl).1
        vec4 rfl).2 [.d 1] rfl
  · exact ((ddof_checked_before_kernel specHost [.vector vec4, .number 4]
      ⟨contigRunMem, []⟩ specHost_rejects_ddof
      (by intro x hx; cases hx; decide) (by intro X hX; cases hX) rfl).1
        vec4 rfl).1 .argRange rfl

theorem specParseArg_not_dimension (size : Nat) (p : linear_param) (v : LuaVal) :
    specParseArg size p v ≠ .error .dimension := by
  unfold specParseArg specParseNumber specParseInteger specParseEnum specParseDdof
  intro h
  split_ifs at h <;> first | cases h | (split at h <;> first | cases h | (split_ifs at h; cases h))

theorem specParseArgs_not_dimension (L : List LuaVal) (fields : List (String × LuaVal))
    (size : Nat) (params : List linear_param) :
    ∀ index : Nat, specParseArgs L fields size params index ≠ .error .dimension := by
  induction params with
  | nil => intro index h; cases h
  | cons p ps ih =>
    intro index h
    unfold specParseArgs at h
    cases hq : specParseArg size p (specArgValue L fields p index) with
    | error e =>
      rw [hq] at h
      simp only at h
      injection h with h
      subst h
      exact specParseArg_not_dimension _ _ _ hq
    | ok a =>
      rw [hq] at h
      simp only at h
      cases hr : specParseArgs L fields size ps (index + 1) with
      | error e =>
        rw [hr] at h
        simp only at h
        injection h with h
        subst h
        exact ih _ hr
      | ok as =>
        rw [hr] at h
        cases h

/-- The parser modelled from the specification raises no dimension error. -/
theorem specHost_not_dimension (L : List LuaVal) (params : List linear_param)
    (size index : Nat) :
    specHost.linear_checkargs L params size index ≠ .error .dimension := by
  simp only [specHost]
  unfold specCheckargs
  split
  · exact specParseArgs_not_dimension _ _ _ _ _
  · intro h; cases h

/-- C3: for a matrix operand, an output vector and a valid axis,
`linear_unary` raises a dimension error exactly when the length of the
output vector differs from the number of rows (row axis) or of columns
(column axis); the error leaves the state as it was, for every kernel, and
a kernel that records its invocations records none. -/
theorem dimension_check {σ : Type} (host : Host) (L : List LuaVal)
    (f : UKernel σ) (params : List linear_param) (w : World σ)
    (X : linear_matrix) (y : linear_vector) (axis : CBLAS_ORDER)
    (hX : testMatrix L 1 = some X) (hy : testVector L 2 = some y)
    (haxis : host.linear_checkorder L 3 = .ok axis)
    (hperr : ∀ size index : Nat,
      host.linear_checkargs L params size index ≠ .error .dimension) :
    ((∃ w2, linear_unary host L f params w = .raise .dimension w2)
        ↔ y.length ≠ outLength axis X)
    ∧ (∀ w2, linear_unary host L f params w = .raise .dimension w2 → w2 = w)
    ∧ (y.length ≠ outLength axis X → ∀ wt : World (List KernelCall),
        linear_unary host L traceU params wt = .raise .dimension wt) := by
  by_cases hlen : y.length = outLength axis X
  · have hne : ∀ w2, linear_unary host L f params w ≠ .raise .dimension w2 := by
      intro w2 h
      rw [linear_unary_matrix_eq host L f params w X y axis hX hy haxis hlen] at h
      cases ha : host.linear_checkargs L params (runLength axis X) 4 with
      | error e =>
        rw [ha] at h
        simp only at h
        injection h with h1 _
        subst h1
        exact hperr _ _ ha
      | ok args =>
        rw [ha] at h
        cases h
    refine ⟨⟨fun ⟨w2, h⟩ => absurd h (hne w2), fun h => absurd hlen h⟩, ?_, ?_⟩
    · intro w2 h
      exact absurd h (hne w2)
    · intro h
      exact absurd hlen h
  · have he := linear_unary_matrix_mismatch host L f params w X y axis hX hy haxis hlen
    refine ⟨⟨fun _ => hlen, fun _ => ⟨w, he⟩⟩, ?_, ?_⟩
    · intro w2 h
      rw [he] at h
      injection h with _ h2
      exact h2.symm
    · intro _ wt
      exact linear_unary_matrix_mismatch host L traceU params wt X y axis hX hy haxis hlen

/-- C3, witness: the 2 x 3 matrix reduced along the column axis into an
output vector of length 2 raises a dimension error and nothing changes. -/
theorem dimension_check_witness :
    linear_unary specHost [.matrix rowMajor23, .vector out2, .string "col"]
      (pureU linear_sum_handler) LINEAR_PARAMS_NONE (⟨rowMajor23Mem, ()⟩ : World Unit)
      = .raise .dimension ⟨rowMajor23Mem, ()⟩ := by
  have h := dimension_check specHost [.matrix rowMajor23, .vector out2, .string "col"]
    (pureU linear_sum_handler) LINEAR_PARAMS_NONE (⟨rowMajor23Mem, ()⟩ : World Unit)
    rowMajor23 out2 CblasColMajor rfl rfl rfl (fun size index => specHost_not_dimension _ _ _ _)
  obtain ⟨w2, h2⟩ := h.1.mpr (by decide)
  rw [h2, h.2.1 w2 h2]

/-! ## Unsupported operands -/

/-- C9, as the code has it: for an operand that is neither a vector nor a
matrix `linear_unary` raises the operand type error, for every kernel and
with the state unchanged; for an operand that is not a number either,
`linear_elementary`, which parses the trailing arguments first, raises the
parser's error when they are invalid and the operand type error otherwise,
for every kernel and with the state unchanged. -/
theorem unsupported_operand_rejected {σ : Type} (host : Host) (L : List LuaVal)
    (params : List linear_param) (w : World σ)
    (hv : testVector L 1 = none) (hm : testMatrix L 1 = none) :
    (∀ f : UKernel σ, linear_unary host L f params w = .raise (.type 1 false) w)
    ∧ (host.lua_tonumberx L 1 = none → ∀ f : EKernel σ,
        linear_elementary host L f params w
          = match host.linear_checkargs L params 0 2 with
            | .error e => .raise e w
            | .ok _ => .raise (.type 0 true) w) := by
  constructor
  · intro f
    unfold linear_unary
    rw [hv, hm]
  · intro hn f
    unfold linear_elementary
    rw [hn, hv, hm]

/-- C9, witness: a `nil` operand with no further argument is rejected with
the operand type error by both dispatchers. -/
theorem unsupported_operand_rejected_witness :
    linear_unary specHost [.nil] (pureU linear_sum_handler) LINEAR_PARAMS_NONE
        (⟨contigRunMem, ()⟩ : World Unit) = .raise (.type 1 false) ⟨contigRunMem, ()⟩
    ∧ linear_elementary specHost [.nil] (pureE linear_inc_handler) LINEAR_PARAMS_ALPHA
        (⟨contigRunMem, ()⟩ : World Unit) = .raise (.type 0 true) ⟨contigRunMem, ()⟩ := by
  have h := unsupported_operand_rejected specHost [.nil] LINEAR_PARAMS_ALPHA
    (⟨contigRunMem, ()⟩ : World Unit) rfl rfl
  have h2 := unsupported_operand_rejected specHost [.nil] LINEAR_PARAMS_NONE
    (⟨contigRunMem, ()⟩ : World Unit) rfl rfl
  exact ⟨h2.1 _, h.2 rfl _⟩

/-- C9, counterexample: the operand `nil` is neither a number, a vector nor
a matrix, yet `linear_elementary` with a string for `alpha` raises the
parser's argument type error, not an operand type error. -/
theorem unsupported_operand_counterexample :
    specHost.lua_tonumberx nilOperandBadAlpha 1 = none
    ∧ testVector nilOperandBadAlpha 1 = none
    ∧ testMatrix nilOperandBadAlpha 1 = none
    ∧ linear_elementary specHost nilOperandBadAlpha (pureE linear_inc_handler)
        LINEAR_PARAMS_ALPHA (⟨contigRunMem, ()⟩ : World Unit)
        = .raise .argType ⟨contigRunMem, ()⟩
    ∧ ¬ ∃ (index : Int) (numok : Bool) (w2 : World Unit),
        linear_elementary specHost nilOperandBadAlpha (pureE linear_inc_handler)
          LINEAR_PARAMS_ALPHA (⟨contigRunMem, ()⟩ : World Unit)
          = .raise (.type index numok) w2 := by
  have h : linear_elementary specHost nilOperandBadAlpha (pureE linear_inc_handler)
        LINEAR_PARAMS_ALPHA (⟨contigRunMem, ()⟩ : World Unit)
        = .raise .argType ⟨contigRunMem, ()⟩ := rfl
  refine ⟨rfl, rfl, rfl, h, ?_⟩
  rintro ⟨index, numok, w2, h2⟩
  rw [h] at h2
  injection h2 with h3 _
  cases h3

/-! ## Elementwise kernels: value-wise behaviour -/

theorem strided_forLoop (g : ℚ → ℚ) (m : Mem) (x incx : Int) (hinc : 1 ≤ incx) (n : Nat) :
    (forLoop n (fun _ (s : Mem × Int) => (s.1.write s.2 (g (s.1 s.2)), s.2 + incx)) (m, x)).2
        = x + (n : Int) * incx
    ∧ (∀ i : Nat, i < n →
        (forLoop n (fun _ (s : Mem × Int) =>
            (s.1.write s.2 (g (s.1 s.2)), s.2 + incx)) (m, x)).1 (x + (i : Int) * incx)
          = g (m (x + (i : Int) * incx)))
    ∧ (∀ a : Int, (∀ i : Nat, i < n → a ≠ x + (i : Int) * incx) →
        (forLoop n (fun _ (s : Mem × Int) =>
            (s.1.write s.2 (g (s.1 s.2)), s.2 + incx)) (m, x)).1 a = m a) := by
  induction n with
  | zero =>
    refine ⟨by simp [forLoop], fun i hi => absurd hi (Nat.not_lt_zero i), fun a _ => rfl⟩
  | succ n ih =>
    obtain ⟨ihp, ihi, iho⟩ := ih
    simp only [forLoop]
    rw [ihp]
    have hfresh : (forLoop n (fun _ (s : Mem × Int) =>
        (s.1.write s.2 (g (s.1 s.2)), s.2 + incx)) (m, x)).1 (x + (n : Int) * incx)
          = m (x + (n : Int) * incx) := by
      apply iho
      intro i hi he
      have h1 : ((n : Int) - (i : Int)) * incx = 0 := by linarith
      have h2 : (0 : Int) < (n : Int) - (i : Int) := by omega
      have h3 : 0 < ((n : Int) - (i : Int)) * incx := Int.mul_pos h2 (by omega)
      omega
    refine ⟨by push_cast; ring, ?_, ?_⟩
    · intro i hi
      simp only [Mem.write]
      by_cases hin : i = n
      · subst hin
        rw [if_pos rfl, hfresh]
      · have hne : x + (i : Int) * incx ≠ x + (n : Int) * incx := by
          intro he
          have hlt : i < n := by omega
          have h1 : ((n : Int) - (i : Int)) * incx = 0 := by linarith
          have h2 : (0 : Int) < (n : Int) - (i : Int) := by omega
          have h3 : 0 < ((n : Int) - (i : Int)) * incx := Int.mul_pos h2 (by omega)
          omega
        rw [if_neg hne]
        exact ihi i (by omega)
    · intro a ha
      simp only [Mem.write]
      rw [if_neg (ha n (by omega))]
      exact iho a (fun i hi => ha i (by omega))

theorem contig_forLoop (g : ℚ → ℚ) (m : Mem) (x : Int) (n : Nat) :
    (∀ i : Nat, i < n →
        forLoop n (fun i m => m.write (x + (i : Int)) (g (m (x + (i : Int))))) m
            (x + (i : Int)) = g (m (x + (i : Int))))
    ∧ (∀ a : Int, (∀ i : Nat, i < n → a ≠ x + (i : Int)) →
        forLoop n (fun i m => m.write (x + (i : Int)) (g (m (x + (i : Int))))) m a
          = m a) := by
  induction n with
  | zero => exact ⟨fun i hi => absurd hi (Nat.not_lt_zero i), fun a _ => rfl⟩
  | succ n ih =>
    obtain ⟨ihi, iho⟩ := ih
    simp only [forLoop]
    have hfresh : forLoop n (fun i m => m.write (x + (i : Int)) (g (m (x + (i : Int))))) m
        (x + (n : Int)) = m (x + (n : Int)) := by
      apply iho
      intro i hi
      omega
    constructor
    · intro i hi
      simp only [Mem.write]
      by_cases hin : i = n
      · subst hin
        rw [if_pos rfl, hfresh]
      · rw [if_neg (by omega)]
        exact ihi i (by omega)
    · intro a ha
      simp only [Mem.write]
      rw [if_neg (ha n (by omega))]
      exact iho a (fun i hi => ha i (by omega))

/-- The strided loop replaces each element of the run by `g` of it. -/
theorem stridedLoop_valuewise (g : ℚ → ℚ) (size : Int) (m : Mem) (x incx : Int)
    (hinc : 1 ≤ incx) :
    (∀ i : Nat, i < size.toNat →
      stridedLoop g size m x incx (x + (i : Int) * incx) = g (m (x + (i : Int) * incx)))
    ∧ (∀ a : Int, (∀ i : Nat, i < size.toNat → a ≠ x + (i : Int) * incx) →
      stridedLoop g size m x incx a = m a) :=
  (strided_forLoop g m x incx hinc size.toNat).2

/-- The contiguous loop replaces each element of the run by `g` of it. -/
theorem contigLoop_valuewise (g : ℚ → ℚ) (size : Int) (m : Mem) (x : Int) :
    (∀ i : Nat, i < size.toNat →
      contigLoop g size m x (x + (i : Int) * 1) = g (m (x + (i : Int) * 1)))
    ∧ (∀ a : Int, (∀ i : Nat, i < size.toNat → a ≠ x + (i : Int) * 1) →
      contigLoop g size m x a = m a) := by
  simp only [mul_one]
  exact contig_forLoop g m x size.toNat

/-- A kernel that picks the contiguous loop for stride 1 and the strided
loop otherwise is value-wise. -/
theorem twoLoops_valuewise (g : ℚ → ℚ) (size : Int) (m : Mem) (x incx : Int)
    (hinc : 1 ≤ incx) :
    (∀ i : Nat, i < size.toNat →
      (if incx = 1 then contigLoop g size m x else stridedLoop g size m x incx)
          (x + (i : Int) * incx) = g (m (x + (i : Int) * incx)))
    ∧ (∀ a : Int, (∀ i : Nat, i < size.toNat → a ≠ x + (i : Int) * incx) →
      (if incx = 1 then contigLoop g size m x else stridedLoop g size m x incx) a
        = m a) := by
  by_cases h : incx = 1
  · subst h
    rw [if_pos rfl]
    exact contigLoop_valuewise g size m x
  · rw [if_neg h]
    exact stridedLoop_valuewise g size m x incx hinc

theorem linear_inc_handler_valuewise :
    Valuewise linear_inc_handler (fun args v => v + argN args 0) := by
  intro size m x incx args hinc
  exact twoLoops_valuewise (fun v => v + argN args 0) size m x incx hinc

theorem linear_set_handler_valuewise :
    Valuewise linear_set_handler (fun args _ => argN args 0) := by
  intro size m x incx args hinc
  exact twoLoops_valuewise (fun _ => argN args 0) size m x incx hinc

theorem linear_exp_handler_valuewise (lm : Libm) :
    Valuewise (linear_exp_handler lm) (fun _ v => lm.exp v) := by
  intro size m x incx args hinc
  exact twoLoops_valuewise lm.exp size m x incx hinc

theorem linear_log_handler_valuewise (lm : Libm) :
    Valuewise (linear_log_handler lm) (fun _ v => lm.log v) := by
  intro size m x incx args hinc
  exact twoLoops_valuewise lm.log size m x incx hinc

theorem linear_sgn_handler_valuewise :
    Valuewise linear_sgn_handler
      (fun _ v => if v > 0 then 1 else if v < 0 then -1 else v) := by
  intro size m x incx args hinc
  exact stridedLoop_valuewise _ size m x incx hinc

theorem linear_abs_handler_valuewise :
    Valuewise linear_abs_handler (fun _ v => |v|) := by
  intro size m x incx args hinc
  exact stridedLoop_valuewise _ size m x incx hinc

theorem linear_logistic_handler_valuewise (lm : Libm) :
    Valuewise (linear_logistic_handler lm) (fun _ v => 1 / (1 + lm.exp (-v))) := by
  intro size m x incx args hinc
  exact stridedLoop_valuewise _ size m x incx hinc

theorem linear_tanh_handler_valuewise (lm : Libm) :
    Valuewise (linear_tanh_handler lm) (fun _ v => lm.tanh v) := by
  intro size m x incx args hinc
  exact stridedLoop_valuewise _ size m x incx hinc

theorem linear_pow_handler_valuewise (lm : Libm) :
    Valuewise (linear_pow_handler lm) (powValue lm) := by
  intro size m x incx args hinc
  unfold linear_pow_handler powValue
  by_cases h1 : argN args 0 = -1
  · simp only [if_pos h1]
    exact twoLoops_valuewise (fun v => 1 / v) size m x incx hinc
  · simp only [if_neg h1]
    by_cases h2 : argN args 0 = 0
    · simp only [if_pos h2]
      exact twoLoops_valuewise (fun _ => 1) size m x incx hinc
    · simp only [if_neg h2]
      by_cases h3 : argN args 0 = 1 / 2
      · simp only [if_pos h3]
        exact stridedLoop_valuewise lm.sqrt size m x incx hinc
      · simp only [if_neg h3]
        by_cases h4 : argN args 0 ≠ 1
        · simp only [if_pos h4]
          exact stridedLoop_valuewise (fun v => lm.pow v (argN args 0)) size m x incx hinc
        · rw [if_neg h4]
          refine ⟨fun i _ => ?_, fun a _ => ?_⟩
          · rw [if_neg h4]
          · rfl

/-- Each kernel of the list is value-wise. -/
theorem valuewiseKernels_valuewise (lm : Libm)
    (K : Int → Mem → Int → Int → List linear_arg → Mem) (hK : K ∈ valuewiseKernels lm) :
    ∃ g, Valuewise K g := by
  simp only [valuewiseKernels, List.mem_cons, List.mem_singleton, List.not_mem_nil,
    or_false] at hK
  rcases hK with h | h | h | h | h | h | h | h | h <;> subst h
  · exact ⟨_, linear_inc_handler_valuewise⟩
  · exact ⟨_, linear_pow_handler_valuewise lm⟩
  · exact ⟨_, linear_exp_handler_valuewise lm⟩
  · exact ⟨_, linear_log_handler_valuewise lm⟩
  · exact ⟨_, linear_sgn_handler_valuewise⟩
  · exact ⟨_, linear_abs_handler_valuewise⟩
  · exact ⟨_, linear_logistic_handler_valuewise lm⟩
  · exact ⟨_, linear_tanh_handler_valuewise lm⟩
  · exact ⟨_, linear_set_handler_valuewise⟩

/-! ## Elementwise dispatch over major vectors -/

theorem major_disjoint {i n j j2 ld extent : Nat} (hi : i < n) (hj : j < extent)
    (hld : extent ≤ ld) : i * ld + j ≠ n * ld + j2 := by
  have h1 : (i + 1) * ld ≤ n * ld := Nat.mul_le_mul_right ld hi
  have h2 : (i + 1) * ld = i * ld + ld := by ring
  omega

/-- The loop over the major vectors with a value-wise kernel: each element
of each major vector is replaced by `g` of its value, once, and every other
address is left alone. -/
theorem eachMajor_valuewise {σ : Type}
    (K : Int → Mem → Int → Int → List linear_arg → Mem) (g : List linear_arg → ℚ → ℚ)
    (hK : Valuewise K g) (extent : Nat) (X : linear_matrix) (args : List linear_arg)
    (w : World σ) (hext : extent ≤ INT_MAX) (hld : extent ≤ X.ld) (count : Nat) :
    ∃ w2 : World σ, eachMajor (pureE K) count extent X args w = .ok () w2
      ∧ w2.ext = w.ext
      ∧ (∀ i j : Nat, i < count → j < extent →
          w2.mem (X.values + ((i * X.ld + j : Nat) : Int))
            = g args (w.mem (X.values + ((i * X.ld + j : Nat) : Int))))
      ∧ (∀ a : Int, (∀ i j : Nat, i < count → j < extent →
            a ≠ X.values + ((i * X.ld + j : Nat) : Int)) → w2.mem a = w.mem a) := by
  induction count with
  | zero =>
    exact ⟨w, rfl, rfl, fun i j hi _ => absurd hi (Nat.not_lt_zero i), fun a _ => rfl⟩
  | succ n ih =>
    obtain ⟨w1, h1, he, hin, hout⟩ := ih
    have hstep : eachMajor (pureE K) (n + 1) extent X args w
        = pureE K (toCInt extent) (X.values + ((n * X.ld : Nat) : Int)) 1 args w1 := by
      unfold eachMajor at h1 ⊢
      simp only [forLoopE]
      rw [h1]
    obtain ⟨kin, kout⟩ := hK (toCInt extent) w1.mem (X.values + ((n * X.ld : Nat) : Int)) 1
      args (le_refl 1)
    rw [toCInt_of_le hext, Int.toNat_ofNat] at kin kout
    have haddr : ∀ j : Nat, X.values + ((n * X.ld : Nat) : Int) + (j : Int) * 1
        = X.values + ((n * X.ld + j : Nat) : Int) := by
      intro j; push_cast; ring
    refine ⟨_, hstep, he, ?_, ?_⟩
    · intro i j hi hj
      simp only [toCInt_of_le hext]
      by_cases hin2 : i = n
      · subst hin2
        have hk := kin j hj
        rw [haddr] at hk
        rw [hk]
        congr 1
        apply hout
        intro i2 j2 hi2 hj2 he2
        have : i2 * X.ld + j2 = i * X.ld + j := by omega
        exact major_disjoint hi2 hj2 hld this
      · have hlt : i < n := by omega
        have hk := kout (X.values + ((i * X.ld + j : Nat) : Int)) (by
          intro j2 _ he2
          rw [haddr] at he2
          have : i * X.ld + j = n * X.ld + j2 := by omega
          exact major_disjoint hlt hj hld this)
        rw [hk]
        exact hin i j hlt hj
    · intro a ha
      simp only [toCInt_of_le hext]
      have hk := kout a (by
        intro j2 hj2
        rw [haddr]
        exact ha n j2 (by omega) hj2)
      rw [hk]
      exact hout a (fun i j hi hj => ha i j (by omega) hj)

/-! ## In-place updates -/

/-- The vector branch of `linear_elementary`. -/
theorem linear_elementary_vector_eq {σ : Type} (host : Host) (L : List LuaVal)
    (f : EKernel σ) (params : List linear_param) (w : World σ) (x : linear_vector)
    (args : List linear_arg)
    (hargs : host.linear_checkargs L params 0 2 = .ok args)
    (hnum : host.lua_tonumberx L 1 = none) (hx : testVector L 1 = some x) :
    linear_elementary host L f params w
      = ret0 (f (toCInt x.length) x.values (toCInt x.inc) args w) := by
  unfold linear_elementary
  rw [hargs, hnum, hx]

/-- C7: `linear_elementary` with the inc kernel on a vector view of stride at
least 1 adds `alpha` to the addresses `values + i * inc`, `i < length`, each
once, and leaves every other address and the host state unchanged; so any
view `p` over the same memory reads `old + alpha` at each component it
shares with the view and the old value at each component it does not
share. -/
theorem vector_inc_in_place {σ : Type} (host : Host) (L : List LuaVal) (w : World σ)
    (x : linear_vector) (args : List linear_arg)
    (hargs : host.linear_checkargs L LINEAR_PARAMS_ALPHA 0 2 = .ok args)
    (hnum : host.lua_tonumberx L 1 = none) (hx : testVector L 1 = some x)
    (hinc : 1 ≤ x.inc) (hfit : x.fitsInt) :
    ∃ w2 : World σ,
      linear_elementary host L (pureE linear_inc_handler) LINEAR_PARAMS_ALPHA w
        = .ok none w2
      ∧ w2.ext = w.ext
      ∧ (∀ i : Nat, i < x.length → w2.mem (x.addr i) = w.mem (x.addr i) + argN args 0)
      ∧ (∀ a : Int, (∀ i : Nat, i < x.length → a ≠ x.addr i) → w2.mem a = w.mem a)
      ∧ (∀ (p : linear_vector) (k : Nat),
          ((∃ i : Nat, i < x.length ∧ p.addr k = x.addr i) →
            w2.mem (p.addr k) = w.mem (p.addr k) + argN args 0)
          ∧ ((∀ i : Nat, i < x.length → p.addr k ≠ x.addr i) →
            w2.mem (p.addr k) = w.mem (p.addr k))) := by
  obtain ⟨hl, hi⟩ := hfit
  obtain ⟨kin, kout⟩ := linear_inc_handler_valuewise (toCInt x.length) w.mem x.values
    (toCInt x.inc) args (by rw [toCInt_of_le hi]; omega)
  rw [toCInt_of_le hl, toCInt_of_le hi, Int.toNat_ofNat] at kin kout
  have haddr : ∀ i : Nat, x.values + (i : Int) * (x.inc : Int) = x.addr i := by
    intro i; simp only [linear_vector.addr]; push_cast; ring
  have hin : ∀ i : Nat, i < x.length →
      linear_inc_handler (x.length : Int) w.mem x.values (x.inc : Int) args (x.addr i)
        = w.mem (x.addr i) + argN args 0 := by
    intro i hi2
    have h := kin i hi2
    rw [haddr] at h
    exact h
  have hout : ∀ a : Int, (∀ i : Nat, i < x.length → a ≠ x.addr i) →
      linear_inc_handler (x.length : Int) w.mem x.values (x.inc : Int) args a = w.mem a := by
    intro a ha
    exact kout a (fun i hi2 => by rw [haddr]; exact ha i hi2)
  refine ⟨⟨linear_inc_handler (x.length : Int) w.mem x.values (x.inc : Int) args, w.ext⟩,
    ?_, rfl, hin, hout, ?_⟩
  · rw [linear_elementary_vector_eq host L _ _ w x args hargs hnum hx,
      toCInt_of_le hl, toCInt_of_le hi]
    rfl
  · intro p k
    constructor
    · rintro ⟨i, hi2, he⟩
      rw [he]
      exact hin i hi2
    · intro hne
      exact hout _ hne

/-- C7, witness: incrementing by 10 the sub-view of components 1, 3, 5 of a
parent vector holding `1..6` makes the parent read `1, 12, 3, 14, 5, 16`. -/
theorem vector_inc_in_place_witness :
    ∃ w2 : World Unit,
      linear_elementary specHost [.vector sub3, .number 10] (pureE linear_inc_handler)
        LINEAR_PARAMS_ALPHA ⟨contigRunMem, ()⟩ = .ok none w2
      ∧ w2.mem (parent6.addr 0) = 1 ∧ w2.mem (parent6.addr 1) = 12
      ∧ w2.mem (parent6.addr 2) = 3 ∧ w2.mem (parent6.addr 3) = 14
      ∧ w2.mem (parent6.addr 4) = 5 ∧ w2.mem (parent6.addr 5) = 16 := by
  obtain ⟨w2, h1, _, _, _, hp⟩ := vector_inc_in_place specHost
    [.vector sub3, .number 10] (⟨contigRunMem, ()⟩ : World Unit) sub3 [.n 10]
    rfl rfl rfl (by decide) (by decide)
  have hshared : ∀ k i : Nat, i < 3 → parent6.addr k = sub3.addr i →
      w2.mem (parent6.addr k) = contigRunMem (parent6.addr k) + 10 :=
    fun k i hi he => (hp parent6 k).1 ⟨i, hi, he⟩
  have hfree : ∀ k : Nat, (∀ i : Nat, i < 3 → parent6.addr k ≠ sub3.addr i) →
      w2.mem (parent6.addr k) = contigRunMem (parent6.addr k) :=
    fun k h => (hp parent6 k).2 h
  refine ⟨w2, h1, ?_, ?_, ?_, ?_, ?_, ?_⟩
  · rw [hfree 0 (by intro i hi; simp only [linear_vector.addr, parent6, sub3]; omega)]
    norm_num [contigRunMem, linear_vector.addr, parent6]
  · rw [hshared 1 0 (by decide) (by decide)]
    norm_num [contigRunMem, linear_vector.addr, parent6]
  · rw [hfree 2 (by intro i hi; simp only [linear_vector.addr, parent6, sub3]; omega)]
    norm_num [contigRunMem, linear_vector.addr, parent6]
  · rw [hshared 3 1 (by decide) (by decide)]
    norm_num [contigRunMem, linear_vector.addr, parent6]
  · rw [hfree 4 (by intro i hi; simp only [linear_vector.addr, parent6, sub3]; omega)]
    norm_num [contigRunMem, linear_vector.addr, parent6]
  · rw [hshared 5 2 (by decide) (by decide)]
    norm_num [contigRunMem, linear_vector.addr, parent6]

/-- The matrix branch of `linear_elementary` when the fast-path guard
fails: one kernel invocation per major vector. -/
theorem linear_elementary_matrix_slow {σ : Type} (host : Host) (L : List LuaVal)
    (f : EKernel σ) (params : List linear_param) (w : World σ) (X : linear_matrix)
    (args : List linear_arg)
    (hargs : host.linear_checkargs L params 0 2 = .ok args)
    (hnum : host.lua_tonumberx L 1 = none) (hX : testMatrix L 1 = some X)
    (hguard : ¬ (minorExtent X = X.ld ∧ (X.rows * X.cols) % SIZE_MOD ≤ INT_MAX)) :
    linear_elementary host L f params w
      = ret0 (eachMajor f (majorCount X) (minorExtent X) X args w) := by
  unfold linear_elementary
  rw [hargs, hnum, testVector_of_testMatrix hX, hX]
  simp only
  by_cases hord : X.order = CblasRowMajor
  · rw [if_pos hord]
    simp only [minorExtent, majorCount, hord] at hguard ⊢
    rw [if_neg hguard]
  · rw [if_neg hord]
    have hord2 : X.order = CblasColMajor := by
      cases hX2 : X.order <;> simp_all
    simp only [minorExtent, majorCount, hord2] at hguard ⊢
    rw [Nat.mul_comm X.cols X.rows, if_neg hguard]

/-- The matrix branch of `linear_elementary` when the fast-path guard
holds: one kernel invocation on the flattened run. -/
theorem linear_elementary_matrix_fast {σ : Type} (host : Host) (L : List LuaVal)
    (f : EKernel σ) (params : List linear_param) (w : World σ) (X : linear_matrix)
    (args : List linear_arg)
    (hargs : host.linear_checkargs L params 0 2 = .ok args)
    (hnum : host.lua_tonumberx L 1 = none) (hX : testMatrix L 1 = some X)
    (hguard : minorExtent X = X.ld ∧ (X.rows * X.cols) % SIZE_MOD ≤ INT_MAX) :
    linear_elementary host L f params w
      = ret0 (f (toCInt ((X.rows * X.cols) % SIZE_MOD)) X.values 1 args w) := by
  unfold linear_elementary
  rw [hargs, hnum, testVector_of_testMatrix hX, hX]
  simp only
  by_cases hord : X.order = CblasRowMajor
  · rw [if_pos hord]
    simp only [minorExtent, hord] at hguard
    rw [if_pos hguard]
  · rw [if_neg hord]
    have hord2 : X.order = CblasColMajor := by
      cases hX2 : X.order <;> simp_all
    simp only [minorExtent, hord2] at hguard
    rw [Nat.mul_comm X.cols X.rows, if_pos hguard]

theorem major_unique {k i p j ld : Nat} (hp : p < ld) (hj : j < ld)
    (h : k * ld + p = i * ld + j) : k = i ∧ p = j := by
  rcases Nat.lt_trichotomy k i with hlt | heq | hgt
  · exact absurd h (major_disjoint hlt hp (Nat.le_refl ld))
  · subst heq
    exact ⟨rfl, by omega⟩
  · exact absurd h.symm (major_disjoint hgt hj (Nat.le_refl ld))

/-- C8: `linear_elementary` with the inc kernel on a matrix view whose
leading dimension exceeds its minor extent leaves each logical element
equal to its old value plus `alpha`, and leaves every address that the
view does not address unchanged, in particular the padding positions
after each major vector. -/
theorem matrix_inc_exact {σ : Type} (host : Host) (L : List LuaVal) (w : World σ)
    (X : linear_matrix) (args : List linear_arg)
    (hargs : host.linear_checkargs L LINEAR_PARAMS_ALPHA 0 2 = .ok args)
    (hnum : host.lua_tonumberx L 1 = none) (hX : testMatrix L 1 = some X)
    (hld : minorExtent X < X.ld) (hfit : X.fitsInt) :
    ∃ w2 : World σ,
      linear_elementary host L (pureE linear_inc_handler) LINEAR_PARAMS_ALPHA w
        = .ok none w2
      ∧ w2.ext = w.ext
      ∧ (∀ i j : Nat, i < X.rows → j < X.cols →
          w2.mem (X.addr i j) = w.mem (X.addr i j) + argN args 0)
      ∧ (∀ a : Int, (∀ i j : Nat, i < X.rows → j < X.cols → a ≠ X.addr i j) →
          w2.mem a = w.mem a)
      ∧ (∀ k p : Nat, k < majorCount X → minorExtent X ≤ p → p < X.ld →
          w2.mem (X.values + ((k * X.ld + p : Nat) : Int))
            = w.mem (X.values + ((k * X.ld + p : Nat) : Int))) := by
  obtain ⟨hr, hc, _⟩ := hfit
  have hext : minorExtent X ≤ INT_MAX := by
    unfold minorExtent
    cases X.order
    · exact hc
    · exact hr
  obtain ⟨w2, h2, he, hin, hout⟩ := eachMajor_valuewise linear_inc_handler _
    linear_inc_handler_valuewise (minorExtent X) X args w hext (by omega) (majorCount X)
  have hrun : linear_elementary host L (pureE linear_inc_handler) LINEAR_PARAMS_ALPHA w
      = .ok none w2 := by
    rw [linear_elementary_matrix_slow host L _ _ w X args hargs hnum hX
      (fun hg => by omega), h2]
    rfl
  have hpad : ∀ k p : Nat, k < majorCount X → minorExtent X ≤ p → p < X.ld →
      w2.mem (X.values + ((k * X.ld + p : Nat) : Int))
        = w.mem (X.values + ((k * X.ld + p : Nat) : Int)) := by
    intro k p _ hp1 hp2
    apply hout
    intro i j _ hj he2
    have h3 : k * X.ld + p = i * X.ld + j := by omega
    have := (major_unique hp2 (by omega) h3).2
    omega
  cases hord : X.order with
  | CblasRowMajor =>
    simp only [minorExtent, majorCount, hord] at hin hout
    refine ⟨w2, hrun, he, ?_, ?_, hpad⟩
    · intro i j hi hj
      simp only [linear_matrix.addr, hord]
      exact hin i j hi hj
    · intro a ha
      apply hout
      intro i j hi hj
      have := ha i j hi hj
      simp only [linear_matrix.addr, hord] at this
      exact this
  | CblasColMajor =>
    simp only [minorExtent, majorCount, hord] at hin hout
    refine ⟨w2, hrun, he, ?_, ?_, hpad⟩
    · intro i j hi hj
      simp only [linear_matrix.addr, hord]
      exact hin j i hj hi
    · intro a ha
      apply hout
      intro i j hi hj
      have := ha j i hj hi
      simp only [linear_matrix.addr, hord] at this
      exact this

/-- C8, witness: incrementing by 10 the 2 x 3 matrix with leading dimension 5
over a memory holding `1, 2, 3, ...` changes element `(1, 2)` at address 7
from 8 to 18 and leaves the padding address 3 at 4. -/
theorem matrix_inc_exact_witness :
    ∃ w2 : World Unit,
      linear_elementary specHost [.matrix padded23, .number 10]
        (pureE linear_inc_handler) LINEAR_PARAMS_ALPHA ⟨contigRunMem, ()⟩ = .ok none w2
      ∧ w2.mem 7 = 18 ∧ w2.mem 3 = 4 := by
  obtain ⟨w2, h1, _, hin, _, hpad⟩ := matrix_inc_exact specHost
    [.matrix padded23, .number 10] (⟨contigRunMem, ()⟩ : World Unit) padded23 [.n 10]
    rfl rfl rfl (by decide) (by decide)
  refine ⟨w2, h1, ?_, ?_⟩
  · have h := hin 1 2 (by decide) (by decide)
    have ha : padded23.addr 1 2 = 7 := by decide
    rw [ha] at h
    rw [h]
    norm_num [contigRunMem, argN]
  · have h := hpad 0 3 (by decide) (by decide) (by decide)
    have ha : padded23.values + ((0 * padded23.ld + 3 : Nat) : Int) = 3 := by decide
    rw [ha] at h
    rw [h]
    norm_num [contigRunMem]

/-! ## Flattening and storage order -/

theorem major_index_lt {i j M E : Nat} (hi : i < M) (hj : j < E) : i * E + j < M * E := by
  have h1 : (i + 1) * E ≤ M * E := Nat.mul_le_mul_right E hi
  have h2 : (i + 1) * E = i * E + E := by ring
  omega

/-- One invocation of a value-wise kernel on the flattened run of a fully
contiguous matrix gives the same state as one invocation per major
vector. -/
theorem flat_eq_eachMajor {σ : Type}
    (K : Int → Mem → Int → Int → List linear_arg → Mem) (g : List linear_arg → ℚ → ℚ)
    (hK : Valuewise K g) (X : linear_matrix) (args : List linear_arg) (w : World σ)
    (hcontig : X.ld = minorExtent X)
    (hcount : majorCount X * minorExtent X ≤ INT_MAX) :
    pureE K ((majorCount X * minorExtent X : Nat) : Int) X.values 1 args w
      = eachMajor (pureE K) (majorCount X) (minorExtent X) X args w := by
  obtain ⟨kin, kout⟩ := hK ((majorCount X * minorExtent X : Nat) : Int) w.mem X.values 1
    args (le_refl 1)
  rw [Int.toNat_ofNat] at kin kout
  by_cases hM : majorCount X = 0
  · rw [hM, Nat.zero_mul]
    unfold eachMajor pureE
    simp only [forLoopE]
    congr 1
    cases w with
    | mk mem ext =>
      simp only [World.mk.injEq, and_true]
      funext a
      rw [hM, Nat.zero_mul] at kout
      exact kout a (fun i hi => absurd hi (Nat.not_lt_zero i))
  · have hext : minorExtent X ≤ INT_MAX := by
      have h1 : 1 * minorExtent X ≤ majorCount X * minorExtent X :=
        Nat.mul_le_mul_right _ (by omega)
      omega
    obtain ⟨w2, h2, he, hin, hout⟩ := eachMajor_valuewise K g hK (minorExtent X) X args w
      hext (by omega) (majorCount X)
    rw [h2]
    unfold pureE
    congr 1
    cases w2 with
    | mk mem2 ext2 =>
      simp only at he hin hout
      simp only [World.mk.injEq]
      refine ⟨?_, he.symm⟩
      funext a
      by_cases hrun : ∃ k : Nat, k < majorCount X * minorExtent X ∧ a = X.values + (k : Int)
      · obtain ⟨k, hk, rfl⟩ := hrun
        have hE : 0 < minorExtent X := by
          rcases Nat.eq_zero_or_pos (minorExtent X) with h0 | h0
          · rw [h0] at hk; simp at hk
          · exact h0
        have hdiv : k / minorExtent X < majorCount X :=
          Nat.div_lt_of_lt_mul (by rw [Nat.mul_comm]; exact hk)
        have hmod : k % minorExtent X < minorExtent X := Nat.mod_lt _ hE
        have hk2 : k / minorExtent X * X.ld + k % minorExtent X = k := by
          rw [hcontig, Nat.mul_comm]
          exact Nat.div_add_mod k (minorExtent X)
        have h3 := hin (k / minorExtent X) (k % minorExtent X) hdiv hmod
        rw [hk2] at h3
        have h4 := kin k hk
        rw [mul_one] at h4
        rw [h3, h4]
      · have h4 := kout a (by
          intro i hi he2
          rw [mul_one] at he2
          exact hrun ⟨i, hi, he2⟩)
        rw [h4]
        symm
        apply hout
        intro i j hi hj he2
        apply hrun
        refine ⟨i * X.ld + j, ?_, he2⟩
        rw [hcontig]
        exact major_index_lt hi hj

theorem rows_mul_cols (X : linear_matrix) :
    X.rows * X.cols = majorCount X * minorExtent X := by
  unfold majorCount minorExtent
  cases X.order
  · rfl
  · exact Nat.mul_comm _ _

/-- C5: for a fully contiguous matrix whose element count fits the kernels'
run size, and for each of the value-wise kernels (inc, pow, exp, log, sgn,
abs, logistic, tanh, set), `linear_elementary` makes one kernel invocation
on the flattened run of `rows * cols` elements with stride 1, and that
invocation yields exactly the state that one invocation per major vector
(minor-extent elements, stride 1, starting at `i * ld`) yields. -/
theorem flattening_valuewise {σ : Type} (lm : Libm)
    (K : Int → Mem → Int → Int → List linear_arg → Mem) (hK : K ∈ valuewiseKernels lm)
    (host : Host) (L : List LuaVal) (params : List linear_param) (w : World σ)
    (X : linear_matrix) (args : List linear_arg)
    (hargs : host.linear_checkargs L params 0 2 = .ok args)
    (hnum : host.lua_tonumberx L 1 = none) (hX : testMatrix L 1 = some X)
    (hcontig : X.ld = minorExtent X) (hcount : X.rows * X.cols ≤ INT_MAX) :
    linear_elementary host L (pureE K) params w
        = ret0 (pureE K ((X.rows * X.cols : Nat) : Int) X.values 1 args w)
    ∧ pureE K ((X.rows * X.cols : Nat) : Int) X.values 1 args w
        = eachMajor (pureE K) (majorCount X) (minorExtent X) X args w := by
  obtain ⟨g, hg⟩ := valuewiseKernels_valuewise lm K hK
  have hmod : (X.rows * X.cols) % SIZE_MOD = X.rows * X.cols := by
    apply Nat.mod_eq_of_lt
    unfold INT_MAX at hcount
    unfold SIZE_MOD
    omega
  constructor
  · rw [linear_elementary_matrix_fast host L _ params w X args hargs hnum hX
      ⟨hcontig.symm, by rw [hmod]; exact hcount⟩, hmod, toCInt_of_le hcount]
  · rw [rows_mul_cols] at hcount ⊢
    exact flat_eq_eachMajor K g hg X args w hcontig hcount

/-- C5, witness: the contiguous 2 x 3 matrix incremented by 10, through the
flattened run as `linear_elementary` does it and through one run per row. -/
theorem flattening_valuewise_witness :
    linear_elementary specHost [.matrix rowMajor23, .number 10]
        (pureE linear_inc_handler) LINEAR_PARAMS_ALPHA (⟨rowMajor23Mem, ()⟩ : World Unit)
      = ret0 (eachMajor (pureE linear_inc_handler) 2 3 rowMajor23 [.n 10]
          ⟨rowMajor23Mem, ()⟩) := by
  have h := flattening_valuewise ratLibm linear_inc_handler
    (by unfold valuewiseKernels; exact List.Mem.head _) specHost
    [.matrix rowMajor23, .number 10] LINEAR_PARAMS_ALPHA
    (⟨rowMajor23Mem, ()⟩ : World Unit) rowMajor23 [.n 10] rfl rfl rfl rfl (by decide)
  rw [h.1, h.2]
  rfl

theorem transposed_addr (X : linear_matrix) (i j : Nat) :
    X.transposed.addr j i = X.addr i j := by
  unfold linear_matrix.addr linear_matrix.transposed
  cases X.order <;> rfl

/-- C4: for every kernel and every matrix view `X`, `linear_elementary` on
`X` and on its transposed construction (dimensions swapped, opposite order
flag, same leading dimension and values) ends in the same outcome, hence
with identical memory contents, so that element `(i, j)` of `X` equals
element `(j, i)` of the transposed construction after the call. -/
theorem elementwise_order_invariance {σ : Type} (host : Host) (rest : List LuaVal)
    (f : EKernel σ) (params : List linear_param) (w : World σ) (X : linear_matrix)
    (hargs : host.linear_checkargs (.matrix X :: rest) params 0 2
      = host.linear_checkargs (.matrix X.transposed :: rest) params 0 2)
    (hnum : host.lua_tonumberx (.matrix X :: rest) 1
      = host.lua_tonumberx (.matrix X.transposed :: rest) 1) :
    linear_elementary host (.matrix X :: rest) f params w
        = linear_elementary host (.matrix X.transposed :: rest) f params w
    ∧ ∀ i j : Nat,
        (linear_elementary host (.matrix X :: rest) f params w).world.mem (X.addr i j)
          = (linear_elementary host (.matrix X.transposed :: rest) f params w).world.mem
              (X.transposed.addr j i) := by
  have hmain : linear_elementary host (.matrix X :: rest) f params w
      = linear_elementary host (.matrix X.transposed :: rest) f params w := by
    unfold linear_elementary
    rw [← hargs, ← hnum]
    cases host.linear_checkargs (.matrix X :: rest) params 0 2 with
    | error e => rfl
    | ok args =>
      simp only
      cases host.lua_tonumberx (.matrix X :: rest) 1 with
      | some n => rfl
      | none =>
        have hv1 : testVector (.matrix X :: rest) 1 = none := rfl
        have hv2 : testVector (.matrix X.transposed :: rest) 1 = none := rfl
        have hm1 : testMatrix (.matrix X :: rest) 1 = some X := rfl
        have hm2 : testMatrix (.matrix X.transposed :: rest) 1 = some X.transposed := rfl
        simp only [hv1, hv2, hm1, hm2]
        cases hord : X.order with
        | CblasRowMajor =>
          have ht : X.transposed.order = CblasColMajor := by
            simp only [linear_matrix.transposed, hord]
          simp only [ht, if_true, reduceCtorEq, if_false]
          rfl
        | CblasColMajor =>
          have ht : X.transposed.order = CblasRowMajor := by
            simp only [linear_matrix.transposed, hord]
          simp only [ht, if_true, reduceCtorEq, if_false]
          rfl
  refine ⟨hmain, ?_⟩
  intro i j
  rw [hmain, transposed_addr]

/-- C4, witness: the 2 x 3 row-major matrix and its transposed construction,
incremented by 10. -/
theorem elementwise_order_invariance_witness :
    linear_elementary specHost [.matrix rowMajor23, .number 10]
        (pureE linear_inc_handler) LINEAR_PARAMS_ALPHA (⟨rowMajor23Mem, ()⟩ : World Unit)
      = linear_elementary specHost [.matrix rowMajor23.transposed, .number 10]
        (pureE linear_inc_handler) LINEAR_PARAMS_ALPHA ⟨rowMajor23Mem, ()⟩ :=
  (elementwise_order_invariance specHost [.number 10] (pureE linear_inc_handler)
    LINEAR_PARAMS_ALPHA (⟨rowMajor23Mem, ()⟩ : World Unit) rowMajor23 rfl rfl).1

/-! ## The normal kernel -/

theorem normalPairs_eq {σ : Type} (lm : Libm) (random : σ → Nat × σ) (size incx : Int) :
    ∀ (fuel : Nat) (i x : Int) (w : World σ), (size - i).toNat / 2 ≤ fuel →
      normalPairs lm random size incx fuel (i, x, w)
        = (i + 2 * (((size - i).toNat / 2 : Nat) : Int),
            pairsN lm random incx ((size - i).toNat / 2) (x, w)) := by
  intro fuel
  induction fuel with
  | zero =>
    intro i x w h
    have h0 : (size - i).toNat / 2 = 0 := by omega
    rw [h0]
    simp [normalPairs, pairsN]
  | succ fuel ih =>
    intro i x w h
    unfold normalPairs
    by_cases hlt : i < size - 1
    · rw [if_pos hlt]
      have ht : (size - i).toNat / 2 = (size - (i + 2)).toNat / 2 + 1 := by omega
      have h2 := ih (i + 2) (x + incx + incx)
        { mem := (w.mem.write x
            (lm.sqrt (-2 * lm.log (unitOpen (random w.ext).1))
              * lm.cos (2 * lm.pi * unitOpen (random (random w.ext).2).1))).write
            (x + incx)
            (lm.sqrt (-2 * lm.log (unitOpen (random w.ext).1))
              * lm.sin (2 * lm.pi * unitOpen (random (random w.ext).2).1)),
          ext := (random (random w.ext).2).2 } (by omega)
      simp only
      rw [h2, ht]
      refine Prod.ext ?_ ?_
      · simp only; push_cast; ring
      · simp only [pairsN, pairStep]
    · rw [if_neg hlt]
      have h0 : (size - i).toNat / 2 = 0 := by omega
      rw [h0]
      simp [pairsN]

/-- The normal kernel returns normally with the fill of the specification:
the loop of pairs ends by its own condition, before its iteration bound. -/
theorem linear_normal_handler_eq {σ : Type} (lm : Libm) (random : σ → Nat × σ)
    (size x incx : Int) (args : List linear_arg) (w : World σ) :
    linear_normal_handler lm random size x incx args w
      = .ok () (normalFill lm random size.toNat x incx w) := by
  unfold linear_normal_handler normalFill
  have h := normalPairs_eq lm random size incx size.toNat 0 x w (by
    simp only [sub_zero]; omega)
  simp only [sub_zero, zero_add] at h
  simp only [h]
  by_cases hodd : size.toNat % 2 = 1
  · have hlt : 2 * ((size.toNat / 2 : Nat) : Int) < size := by omega
    rw [if_pos hlt, if_pos hodd]
    rfl
  · have hlt : ¬ 2 * ((size.toNat / 2 : Nat) : Int) < size := by omega
    rw [if_neg hlt, if_neg hodd]

theorem pairsN_add {σ : Type} (lm : Libm) (random : σ → Nat × σ) (incx : Int) :
    ∀ (a b : Nat) (s : Int × World σ),
      pairsN lm random incx (a + b) s
        = pairsN lm random incx b (pairsN lm random incx a s) := by
  intro a
  induction a with
  | zero => intro b s; simp [pairsN]
  | succ a ih =>
    intro b s
    have h : a + 1 + b = (a + b) + 1 := by omega
    rw [h]
    simp only [pairsN]
    exact ih b _

theorem pairsN_fst {σ : Type} (lm : Libm) (random : σ → Nat × σ) (incx : Int) :
    ∀ (n : Nat) (s : Int × World σ),
      (pairsN lm random incx n s).1 = s.1 + 2 * (n : Int) * incx := by
  intro n
  induction n with
  | zero => intro s; simp [pairsN]
  | succ n ih =>
    intro s
    simp only [pairsN]
    rw [ih]
    simp only [pairStep]
    push_cast
    ring

/-- A run that starts with an even number of elements splits there: filling
`a + b` elements is filling `a` elements and then `b` elements. -/
theorem normalFill_add {σ : Type} (lm : Libm) (random : σ → Nat × σ) (a b : Nat)
    (x incx : Int) (w : World σ) (ha : a % 2 = 0) :
    normalFill lm random (a + b) x incx w
      = normalFill lm random b (x + (a : Int) * incx) incx
          (normalFill lm random a x incx w) := by
  have h1 : (a + b) / 2 = a / 2 + b / 2 := by omega
  have h2 : (a + b) % 2 = b % 2 := by omega
  have h3 : ¬ a % 2 = 1 := by omega
  have hs : pairsN lm random incx (a / 2) (x, w)
      = (x + (a : Int) * incx, normalFill lm random a x incx w) := by
    refine Prod.ext ?_ ?_
    · rw [pairsN_fst]
      simp only
      have : (2 : Int) * ((a / 2 : Nat) : Int) = (a : Int) := by omega
      rw [this]
    · simp only [normalFill, if_neg h3]
  unfold normalFill
  rw [h1, h2, pairsN_add, hs]
  simp only [normalFill, if_neg h3]

/-- The fill of a fully contiguous matrix, one major vector after the
other. -/
theorem eachMajor_normal {σ : Type} (lm : Libm) (random : σ → Nat × σ)
    (extent : Nat) (X : linear_matrix) (args : List linear_arg) (w : World σ)
    (hext : extent ≤ INT_MAX) (hld : X.ld = extent) (heven : extent % 2 = 0)
    (count : Nat) :
    eachMajor (linear_normal_handler lm random) count extent X args w
      = .ok () (normalFill lm random (count * extent) X.values 1 w) := by
  induction count with
  | zero =>
    unfold eachMajor
    simp only [forLoopE, Nat.zero_mul]
    congr 1
  | succ n ih =>
    have hstep : eachMajor (linear_normal_handler lm random) (n + 1) extent X args w
        = linear_normal_handler lm random (toCInt extent)
            (X.values + ((n * X.ld : Nat) : Int)) 1 args
            (normalFill lm random (n * extent) X.values 1 w) := by
      unfold eachMajor at ih ⊢
      simp only [forLoopE]
      rw [ih]
    rw [hstep, linear_normal_handler_eq, toCInt_of_le hext, Int.toNat_ofNat]
    have hsplit : (n + 1) * extent = n * extent + extent := by ring
    have hev : (n * extent) % 2 = 0 := by
      rw [Nat.mul_mod, heven]
      simp
    rw [hsplit, normalFill_add lm random (n * extent) extent X.values 1 w hev, hld]
    congr 2
    push_cast
    ring

/-- C6, as the code has it: for a fully contiguous matrix whose element
count fits the kernels' run size and whose minor extent is even, or which
has at most one major vector, filling it with the normal kernel through
the single flattened run, as `linear_elementary` does, gives the same
element values and the same final generator state as one invocation per
major vector. -/
theorem flattening_normal_even {σ : Type} (lm : Libm) (random : σ → Nat × σ)
    (host : Host) (L : List LuaVal) (params : List linear_param) (w : World σ)
    (X : linear_matrix) (args : List linear_arg)
    (hargs : host.linear_checkargs L params 0 2 = .ok args)
    (hnum : host.lua_tonumberx L 1 = none) (hX : testMatrix L 1 = some X)
    (hcontig : X.ld = minorExtent X) (hcount : X.rows * X.cols ≤ INT_MAX)
    (hshape : minorExtent X % 2 = 0 ∨ majorCount X ≤ 1) :
    linear_elementary host L (linear_normal_handler lm random) params w
      = ret0 (eachMajor (linear_normal_handler lm random) (majorCount X)
          (minorExtent X) X args w) := by
  have hmod : (X.rows * X.cols) % SIZE_MOD = X.rows * X.cols := by
    apply Nat.mod_eq_of_lt
    unfold INT_MAX at hcount
    unfold SIZE_MOD
    omega
  rw [linear_elementary_matrix_fast host L _ params w X args hargs hnum hX
    ⟨hcontig.symm, by rw [hmod]; exact hcount⟩, hmod, toCInt_of_le hcount]
  rw [rows_mul_cols] at hcount ⊢
  congr 1
  by_cases hM : majorCount X = 0
  · rw [hM, Nat.zero_mul]
    unfold eachMajor
    simp only [forLoopE]
    rw [linear_normal_handler_eq]
    congr 1
  · have hext : minorExtent X ≤ INT_MAX := by
      have h1 : 1 * minorExtent X ≤ majorCount X * minorExtent X :=
        Nat.mul_le_mul_right _ (by omega)
      omega
    rcases hshape with heven | hone
    · rw [eachMajor_normal lm random (minorExtent X) X args w hext hcontig heven,
        linear_normal_handler_eq, Int.toNat_ofNat]
    · have h1 : majorCount X = 1 := by omega
      rw [h1, Nat.one_mul]
      unfold eachMajor
      simp only [forLoopE, Nat.zero_mul, Nat.cast_zero, add_zero, toCInt_of_le hext]

/-- C6, witness: a contiguous 2 x 2 matrix is filled the same way through
the flattened run and row by row. -/
theorem flattening_normal_even_witness :
    linear_elementary specHost [.matrix square22]
        (linear_normal_handler ratLibm countingRandom) LINEAR_PARAMS_NONE
        (⟨contigRunMem, 0⟩ : World Nat)
      = ret0 (eachMajor (linear_normal_handler ratLibm countingRandom) 2 2 square22 []
          ⟨contigRunMem, 0⟩) :=
  flattening_normal_even ratLibm countingRandom specHost [.matrix square22]
    LINEAR_PARAMS_NONE (⟨contigRunMem, 0⟩ : World Nat) square22 [] rfl rfl rfl rfl
    (by decide) (Or.inl (by decide))

/-- C6, counterexample: for the contiguous matrix of two rows and one column
the flattened run that `linear_elementary` takes makes two draws, the fill
row by row makes four: the final generator states differ. -/
theorem flattening_normal_counterexample :
    (linear_elementary specHost [.matrix col21]
        (linear_normal_handler ratLibm countingRandom) LINEAR_PARAMS_NONE
        (⟨contigRunMem, 0⟩ : World Nat)).world.ext = 2
    ∧ (ret0 (eachMajor (linear_normal_handler ratLibm countingRandom)
        (majorCount col21) (minorExtent col21) col21 []
        (⟨contigRunMem, 0⟩ : World Nat))).world.ext = 4
    ∧ linear_elementary specHost [.matrix col21]
        (linear_normal_handler ratLibm countingRandom) LINEAR_PARAMS_NONE
        (⟨contigRunMem, 0⟩ : World Nat)
      ≠ ret0 (eachMajor (linear_normal_handler ratLibm countingRandom)
        (majorCount col21) (minorExtent col21) col21 []
        (⟨contigRunMem, 0⟩ : World Nat)) := by
  have h1 : (linear_elementary specHost [.matrix col21]
        (linear_normal_handler ratLibm countingRandom) LINEAR_PARAMS_NONE
        (⟨contigRunMem, 0⟩ : World Nat)).world.ext = 2 := by decide
  have h2 : (ret0 (eachMajor (linear_normal_handler ratLibm countingRandom)
        (majorCount col21) (minorExtent col21) col21 []
        (⟨contigRunMem, 0⟩ : World Nat))).world.ext = 4 := by decide
  refine ⟨h1, h2, ?_⟩
  intro he
  rw [he, h2] at h1
  exact absurd h1 (by decide)

/-! ## Variance and standard deviation -/

/-- The sum of squared deviations that the variance kernel divides is not
negative, at any stride. -/
theorem var_numerator (size : Int) (m : Mem) (x incx : Int) (args : List linear_arg) :
    ∃ sq : ℚ, 0 ≤ sq
      ∧ linear_var_handler size m x incx args
        = sq / (((toSizeT size + SIZE_MOD - argD args 0) % SIZE_MOD : Nat) : ℚ) := by
  unfold linear_var_handler
  by_cases h : incx = 1
  · simp only [if_pos h]
    refine ⟨_, ?_, rfl⟩
    rw [forLoop_sq_sum, zero_add]
    exact Finset.sum_nonneg (fun i _ => sq_nonneg _)
  · simp only [if_neg h]
    refine ⟨_, ?_, rfl⟩
    rw [forLoop_strided_sq_sum, zero_add]
    exact Finset.sum_nonneg (fun i _ => sq_nonneg _)

/-- C11: for a run of `size` elements (within the `int` range) at any stride
and `ddof < size`, the variance kernel returns a sum of squares, which is
not negative, divided by the positive number `size - ddof`, hence a value
`>= 0`; and the standard deviation kernel returns exactly `sqrt` of the
value the variance kernel returns on the same run and arguments. -/
theorem variance_nonneg_std_sqrt (lm : Libm) (size incx : Int) (m : Mem) (x : Int)
    (args : List linear_arg) (hmax : size ≤ INT_MAX)
    (hd : (argD args 0 : Int) < size) :
    0 ≤ linear_var_handler size m x incx args
    ∧ (∃ sq : ℚ, 0 ≤ sq
        ∧ linear_var_handler size m x incx args
          = sq / ((size.toNat : ℚ) - (argD args 0 : ℚ))
        ∧ 0 < (size.toNat : ℚ) - (argD args 0 : ℚ))
    ∧ linear_std_handler lm size m x incx args
        = lm.sqrt (linear_var_handler size m x incx args) := by
  have h0 : 0 ≤ size := by omega
  obtain ⟨sq, hsq, hv⟩ := var_numerator size m x incx args
  rw [var_divisor size (argD args 0) h0 hmax hd] at hv
  have hpos : 0 < (size.toNat : ℚ) - (argD args 0 : ℚ) := by
    have h1 : argD args 0 < size.toNat := by omega
    have h2 : (argD args 0 : ℚ) < (size.toNat : ℚ) := by exact_mod_cast h1
    linarith
  refine ⟨?_, ⟨sq, hsq, hv, hpos⟩, rfl⟩
  rw [hv]
  exact div_nonneg hsq (le_of_lt hpos)

/-- C11, witness: the run `1, 2, 3, 4` with `ddof = 1` has variance 5/3,
which is not negative, and the standard deviation kernel returns `sqrt` of
it. -/
theorem variance_nonneg_std_sqrt_witness :
    0 ≤ linear_var_handler 4 contigRunMem 0 1 [.d 1]
    ∧ linear_std_handler ratLibm 4 contigRunMem 0 1 [.d 1]
        = ratLibm.sqrt (linear_var_handler 4 contigRunMem 0 1 [.d 1]) :=
  ⟨(variance_nonneg_std_sqrt ratLibm 4 1 contigRunMem 0 [.d 1] (by decide) (by decide)).1,
   (variance_nonneg_std_sqrt ratLibm 4 1 contigRunMem 0 [.d 1] (by decide) (by decide)).2.2⟩

/-! ## The power kernel -/

theorem stride_inj {x incx : Int} {i n : Nat} (hinc : incx ≠ 0)
    (he : x + (i : Int) * incx = x + (n : Int) * incx) : i = n := by
  have h1 : ((i : Int) - (n : Int)) * incx = 0 := by linarith
  rcases mul_eq_zero.mp h1 with h2 | h2
  · omega
  · exact absurd h2 hinc

/-- The strided loop at any stride but 0: each element of the run is
replaced by `g` of it, once, and no other address changes. -/
theorem strided_forLoop_ne (g : ℚ → ℚ) (m : Mem) (x incx : Int) (hinc : incx ≠ 0)
    (n : Nat) :
    (forLoop n (fun _ (s : Mem × Int) => (s.1.write s.2 (g (s.1 s.2)), s.2 + incx)) (m, x)).2
        = x + (n : Int) * incx
    ∧ (∀ i : Nat, i < n →
        (forLoop n (fun _ (s : Mem × Int) =>
            (s.1.write s.2 (g (s.1 s.2)), s.2 + incx)) (m, x)).1 (x + (i : Int) * incx)
          = g (m (x + (i : Int) * incx)))
    ∧ (∀ a : Int, (∀ i : Nat, i < n → a ≠ x + (i : Int) * incx) →
        (forLoop n (fun _ (s : Mem × Int) =>
            (s.1.write s.2 (g (s.1 s.2)), s.2 + incx)) (m, x)).1 a = m a) := by
  induction n with
  | zero =>
    refine ⟨by simp [forLoop], fun i hi => absurd hi (Nat.not_lt_zero i), fun a _ => rfl⟩
  | succ n ih =>
    obtain ⟨ihp, ihi, iho⟩ := ih
    simp only [forLoop]
    rw [ihp]
    have hfresh : (forLoop n (fun _ (s : Mem × Int) =>
        (s.1.write s.2 (g (s.1 s.2)), s.2 + incx)) (m, x)).1 (x + (n : Int) * incx)
          = m (x + (n : Int) * incx) := by
      apply iho
      intro i hi he
      have := stride_inj hinc he.symm
      omega
    refine ⟨by push_cast; ring, ?_, ?_⟩
    · intro i hi
      simp only [Mem.write]
      by_cases hin : i = n
      · subst hin
        rw [if_pos rfl, hfresh]
      · rw [if_neg (fun he => hin (stride_inj hinc he))]
        exact ihi i (by omega)
    · intro a ha
      simp only [Mem.write]
      rw [if_neg (ha n (by omega))]
      exact iho a (fun i hi => ha i (by omega))

/-- The strided loop that stores a constant, at any stride: each element of
the run ends up holding the constant, and no other address changes. -/
theorem strided_forLoop_const (c : ℚ) (m : Mem) (x incx : Int) (n : Nat) :
    (forLoop n (fun _ (s : Mem × Int) => (s.1.write s.2 c, s.2 + incx)) (m, x)).2
        = x + (n : Int) * incx
    ∧ (∀ i : Nat, i < n →
        (forLoop n (fun _ (s : Mem × Int) => (s.1.write s.2 c, s.2 + incx)) (m, x)).1
            (x + (i : Int) * incx) = c)
    ∧ (∀ a : Int, (∀ i : Nat, i < n → a ≠ x + (i : Int) * incx) →
        (forLoop n (fun _ (s : Mem × Int) => (s.1.write s.2 c, s.2 + incx)) (m, x)).1 a
          = m a) := by
  induction n with
  | zero =>
    refine ⟨by simp [forLoop], fun i hi => absurd hi (Nat.not_lt_zero i), fun a _ => rfl⟩
  | succ n ih =>
    obtain ⟨ihp, ihi, iho⟩ := ih
    simp only [forLoop]
    rw [ihp]
    refine ⟨by push_cast; ring, ?_, ?_⟩
    · intro i hi
      simp only [Mem.write]
      by_cases he : x + (i : Int) * incx = x + (n : Int) * incx
      · rw [if_pos he]
      · rw [if_neg he]
        have hin : i ≠ n := fun h => he (by rw [h])
        exact ihi i (by omega)
    · intro a ha
      simp only [Mem.write]
      rw [if_neg (ha n (by omega))]
      exact iho a (fun i hi => ha i (by omega))

/-- The two loops of a kernel that stores a constant, at any stride. -/
theorem twoLoops_const (c : ℚ) (size : Int) (m : Mem) (x incx : Int) :
    (∀ i : Nat, i < size.toNat →
      (if incx = 1 then contigLoop (fun _ => c) size m x
        else stridedLoop (fun _ => c) size m x incx) (x + (i : Int) * incx) = c)
    ∧ (∀ a : Int, (∀ i : Nat, i < size.toNat → a ≠ x + (i : Int) * incx) →
      (if incx = 1 then contigLoop (fun _ => c) size m x
        else stridedLoop (fun _ => c) size m x incx) a = m a) := by
  by_cases h : incx = 1
  · subst h
    rw [if_pos rfl]
    exact contigLoop_valuewise (fun _ => c) size m x
  · rw [if_neg h]
    exact (strided_forLoop_const c m x incx size.toNat).2

/-- The two loops of a kernel at any stride but 0. -/
theorem twoLoops_ne (g : ℚ → ℚ) (size : Int) (m : Mem) (x incx : Int) (hinc : incx ≠ 0) :
    (∀ i : Nat, i < size.toNat →
      (if incx = 1 then contigLoop g size m x else stridedLoop g size m x incx)
          (x + (i : Int) * incx) = g (m (x + (i : Int) * incx)))
    ∧ (∀ a : Int, (∀ i : Nat, i < size.toNat → a ≠ x + (i : Int) * incx) →
      (if incx = 1 then contigLoop g size m x else stridedLoop g size m x incx) a
        = m a) := by
  by_cases h : incx = 1
  · subst h
    rw [if_pos rfl]
    exact contigLoop_valuewise g size m x
  · rw [if_neg h]
    exact (strided_forLoop_ne g m x incx hinc size.toNat).2

theorem linear_pow_handler_one (lm : Libm) (size : Int) (m : Mem) (x incx : Int)
    (args : List linear_arg) (halpha : argN args 0 = 1) :
    linear_pow_handler lm size m x incx args = m := by
  unfold linear_pow_handler
  simp only [halpha]
  norm_num

theorem linear_pow_handler_zero (lm : Libm) (size : Int) (m : Mem) (x incx : Int)
    (args : List linear_arg) (halpha : argN args 0 = 0) :
    linear_pow_handler lm size m x incx args
      = if incx = 1 then contigLoop (fun _ => 1) size m x
        else stridedLoop (fun _ => 1) size m x incx := by
  unfold linear_pow_handler
  simp only [halpha]
  norm_num

theorem linear_pow_handler_neg_one (lm : Libm) (size : Int) (m : Mem) (x incx : Int)
    (args : List linear_arg) (halpha : argN args 0 = -1) :
    linear_pow_handler lm size m x incx args
      = if incx = 1 then contigLoop (fun v => 1 / v) size m x
        else stridedLoop (fun v => 1 / v) size m x incx := by
  unfold linear_pow_handler
  simp only [halpha, if_true]

theorem forLoopE_noop {σ : Type} (body : Nat → World σ → Outcome Unit σ)
    (h : ∀ (i : Nat) (w : World σ), body i w = .ok () w) (w : World σ) :
    ∀ n : Nat, forLoopE n body w = .ok () w := by
  intro n
  induction n with
  | zero => rfl
  | succ n ih => simp only [forLoopE, ih, h]

/-- A kernel that changes nothing leaves the state of `linear_elementary` as
it was, whatever the operand. -/
theorem linear_elementary_noop {σ : Type} (host : Host) (L : List LuaVal)
    (f : EKernel σ) (params : List linear_param) (w : World σ) (args : List linear_arg)
    (hargs : host.linear_checkargs L params 0 2 = .ok args)
    (hf : ∀ (size x incx : Int) (w2 : World σ), f size x incx args w2 = .ok () w2) :
    (linear_elementary host L f params w).world = w := by
  unfold linear_elementary
  rw [hargs]
  simp only
  cases host.lua_tonumberx L 1 with
  | some n =>
    simp only [hf]
    rfl
  | none =>
    simp only
    cases testVector L 1 with
    | some x =>
      simp only [hf]
      rfl
    | none =>
      simp only
      cases testMatrix L 1 with
      | none => rfl
      | some X =>
        have hm : ∀ (count extent : Nat), eachMajor f count extent X args w = .ok () w := by
          intro count extent
          unfold eachMajor
          exact forLoopE_noop _ (fun i w2 => hf _ _ _ w2) w count
        simp only [hf, hm]
        split_ifs <;> rfl

/-- C12: `linear_pow_handler` with `alpha == 1` returns the memory it was
given, for every run size, stride and contents; so `linear_elementary`
with the pow kernel and `alpha == 1` leaves the state unchanged whatever
the operand: `power(x, 1) == x`. -/
theorem pow_one_noop {σ : Type} (lm : Libm) (args : List linear_arg)
    (halpha : argN args 0 = 1) :
    (∀ (size : Int) (m : Mem) (x incx : Int),
      linear_pow_handler lm size m x incx args = m)
    ∧ (∀ (host : Host) (L : List LuaVal) (w : World σ),
        host.linear_checkargs L LINEAR_PARAMS_ALPHA 0 2 = .ok args →
        (linear_elementary host L (pureE (linear_pow_handler lm)) LINEAR_PARAMS_ALPHA w).world
          = w) := by
  refine ⟨fun size m x incx => linear_pow_handler_one lm size m x incx args halpha, ?_⟩
  intro host L w hargs
  apply linear_elementary_noop host L _ _ w args hargs
  intro size x incx w2
  unfold pureE
  rw [linear_pow_handler_one lm size w2.mem x incx args halpha]

/-- C12, witness: the power 1 of the vector `2, 4, 5` at stride 3 is the
vector itself, element by element, and the call returns normally. -/
theorem pow_one_noop_witness :
    linear_pow_handler ratLibm 3 mem245Strided 10 3 [.n 1] = mem245Strided
    ∧ linear_elementary specHost [.vector ⟨3, 3, 10⟩, .number 1]
        (pureE (linear_pow_handler ratLibm)) LINEAR_PARAMS_ALPHA
        (⟨mem245Strided, ()⟩ : World Unit) = .ok none ⟨mem245Strided, ()⟩ := by
  have h := pow_one_noop (σ := Unit) ratLibm [.n 1] rfl
  refine ⟨h.1 3 mem245Strided 10 3, ?_⟩
  rw [linear_elementary_vector_eq specHost [.vector ⟨3, 3, 10⟩, .number 1]
    (pureE (linear_pow_handler ratLibm)) LINEAR_PARAMS_ALPHA
    (⟨mem245Strided, ()⟩ : World Unit) ⟨3, 3, 10⟩ [.n 1] rfl rfl rfl]
  simp only [pureE, h.1]
  rfl

/-- C13: `linear_pow_handler` with `alpha == 0` sets every logical element of
the run to 1 and changes no other address, at any stride and for any
contents; so the set kernel with `alpha = 0`, which makes every element 0,
followed by the pow kernel with `alpha = 0` on the same run yields all
ones. -/
theorem pow_zero_ones (lm : Libm) (size : Int) (m : Mem) (x incx : Int)
    (args : List linear_arg) (halpha : argN args 0 = 0) :
    (∀ i : Nat, i < size.toNat →
      linear_pow_handler lm size m x incx args (x + (i : Int) * incx) = 1)
    ∧ (∀ a : Int, (∀ i : Nat, i < size.toNat → a ≠ x + (i : Int) * incx) →
      linear_pow_handler lm size m x incx args a = m a)
    ∧ (∀ i : Nat, i < size.toNat →
      linear_set_handler size m x incx args (x + (i : Int) * incx) = 0
      ∧ linear_pow_handler lm size (linear_set_handler size m x incx args) x incx args
          (x + (i : Int) * incx) = 1) := by
  have hp : ∀ m2 : Mem,
      (∀ i : Nat, i < size.toNat →
        linear_pow_handler lm size m2 x incx args (x + (i : Int) * incx) = 1)
      ∧ (∀ a : Int, (∀ i : Nat, i < size.toNat → a ≠ x + (i : Int) * incx) →
        linear_pow_handler lm size m2 x incx args a = m2 a) := by
    intro m2
    rw [linear_pow_handler_zero lm size m2 x incx args halpha]
    exact twoLoops_const 1 size m2 x incx
  refine ⟨(hp m).1, (hp m).2, ?_⟩
  intro i hi
  refine ⟨?_, (hp _).1 i hi⟩
  have hs := (twoLoops_const (argN args 0) size m x incx).1 i hi
  rw [halpha] at hs
  unfold linear_set_handler
  simp only [halpha]
  exact hs

/-- C13, witness: the power 0 of the vector `2, 4, 5` at stride 3 is
`1, 1, 1`, and the address 11 between two elements keeps its value. -/
theorem pow_zero_ones_witness :
    linear_pow_handler ratLibm 3 mem245Strided 10 3 [.n 0] 10 = 1
    ∧ linear_pow_handler ratLibm 3 mem245Strided 10 3 [.n 0] 13 = 1
    ∧ linear_pow_handler ratLibm 3 mem245Strided 10 3 [.n 0] 16 = 1
    ∧ linear_pow_handler ratLibm 3 mem245Strided 10 3 [.n 0] 11 = mem245Strided 11 := by
  have h := pow_zero_ones ratLibm 3 mem245Strided 10 3 [.n 0] rfl
  refine ⟨?_, ?_, ?_, ?_⟩
  · exact h.1 0 (by decide)
  · exact h.1 1 (by decide)
  · exact h.1 2 (by decide)
  · apply h.2.1
    intro i hi
    have : i < 3 := hi
    omega

/-- C14: `linear_pow_handler` with `alpha == -1` replaces each logical element
of a run of any stride but 0 by `1 / x_i`, the reciprocal of a nonzero
`x_i`, and changes no other address; the contiguous branch on a memory that
holds the same logical sequence gives the same elements as the strided
branch. -/
theorem pow_reciprocal (lm : Libm) (size : Int) (m : Mem) (x incx : Int)
    (args : List linear_arg) (halpha : argN args 0 = -1) (hinc : incx ≠ 0) :
    (∀ i : Nat, i < size.toNat →
      linear_pow_handler lm size m x incx args (x + (i : Int) * incx)
        = 1 / m (x + (i : Int) * incx))
    ∧ (∀ i : Nat, i < size.toNat → m (x + (i : Int) * incx) ≠ 0 →
      linear_pow_handler lm size m x incx args (x + (i : Int) * incx)
        * m (x + (i : Int) * incx) = 1)
    ∧ (∀ a : Int, (∀ i : Nat, i < size.toNat → a ≠ x + (i : Int) * incx) →
      linear_pow_handler lm size m x incx args a = m a)
    ∧ (∀ (m2 : Mem) (x2 : Int),
        (∀ i : Nat, i < size.toNat → m2 (x2 + (i : Int)) = m (x + (i : Int) * incx)) →
        ∀ i : Nat, i < size.toNat →
          linear_pow_handler lm size m2 x2 1 args (x2 + (i : Int))
            = linear_pow_handler lm size m x incx args (x + (i : Int) * incx)) := by
  have hp : ∀ (m2 : Mem) (x2 incx2 : Int), incx2 ≠ 0 →
      (∀ i : Nat, i < size.toNat →
        linear_pow_handler lm size m2 x2 incx2 args (x2 + (i : Int) * incx2)
          = 1 / m2 (x2 + (i : Int) * incx2))
      ∧ (∀ a : Int, (∀ i : Nat, i < size.toNat → a ≠ x2 + (i : Int) * incx2) →
        linear_pow_handler lm size m2 x2 incx2 args a = m2 a) := by
    intro m2 x2 incx2 h2
    rw [linear_pow_handler_neg_one lm size m2 x2 incx2 args halpha]
    exact twoLoops_ne (fun v => 1 / v) size m2 x2 incx2 h2
  refine ⟨(hp m x incx hinc).1, ?_, (hp m x incx hinc).2, ?_⟩
  · intro i hi hne
    rw [(hp m x incx hinc).1 i hi]
    field_simp
  · intro m2 x2 hsame i hi
    have h1 := (hp m2 x2 1 one_ne_zero).1 i hi
    rw [mul_one] at h1
    rw [h1, (hp m x incx hinc).1 i hi, hsame i hi]

/-- C14, witness: the reciprocal power of `2, 4, 5`, read at stride 3 and
read contiguously, is `1/2, 1/4, 1/5`. -/
theorem pow_reciprocal_witness :
    linear_pow_handler ratLibm 3 mem245Strided 10 3 [.n (-1)] 10 = 1 / 2
    ∧ linear_pow_handler ratLibm 3 mem245Strided 10 3 [.n (-1)] 13 = 1 / 4
    ∧ linear_pow_handler ratLibm 3 mem245Strided 10 3 [.n (-1)] 16 = 1 / 5
    ∧ linear_pow_handler ratLibm 3 mem245 0 1 [.n (-1)] 0 = 1 / 2
    ∧ linear_pow_handler ratLibm 3 mem245 0 1 [.n (-1)] 1 = 1 / 4
    ∧ linear_pow_handler ratLibm 3 mem245 0 1 [.n (-1)] 2 = 1 / 5 := by
  have h := pow_reciprocal ratLibm 3 mem245Strided 10 3 [.n (-1)] rfl (by decide)
  have hs : ∀ i : Nat, i < (3 : Int).toNat →
      mem245 (0 + (i : Int)) = mem245Strided (10 + (i : Int) * 3) := by
    intro i hi
    have h3 : i < 3 := hi
    interval_cases i <;> rfl
  have hc := h.2.2.2 mem245 0 hs
  have e0 := h.1 0 (by decide)
  have e1 := h.1 1 (by decide)
  have e2 := h.1 2 (by decide)
  have c0 := hc 0 (by decide)
  have c1 := hc 1 (by decide)
  have c2 := hc 2 (by decide)
  norm_num at e0 e1 e2 c0 c1 c2
  have v0 : mem245Strided 10 = 2 := rfl
  have v1 : mem245Strided 13 = 4 := rfl
  have v2 : mem245Strided 16 = 5 := rfl
  rw [v0] at e0
  rw [v1] at e1
  rw [v2] at e2
  rw [e0] at c0
  rw [e1] at c1
  rw [e2] at c2
  norm_num at e0 e1 e2 c0 c1 c2
  exact ⟨e0, e1, e2, c0, c1, c2⟩

/-! ## The uniform kernel -/

theorem unitHalfOpen_range (r : Nat) (hr : r ≤ RAND_MAX) :
    0 ≤ unitHalfOpen r ∧ unitHalfOpen r < 1 := by
  unfold unitHalfOpen
  have hpos : (0 : ℚ) < (RAND_MAX : ℚ) + 1 := by positivity
  have hr2 : (r : ℚ) ≤ (RAND_MAX : ℚ) := by exact_mod_cast hr
  constructor
  · exact div_nonneg (Nat.cast_nonneg r) (le_of_lt hpos)
  · rw [div_lt_one hpos]
    linarith

/-- The loop of the uniform kernel after `n` iterations: `n` draws have been
made, element `k` holds the value of draw `k`, and no other address has
changed. -/
theorem uniform_forLoop {σ : Type} (random : σ → Nat × σ) (x incx : Int)
    (hinc : incx ≠ 0) (w : World σ) (n : Nat) :
    (forLoop n (fun _ (s : Int × World σ) =>
        (s.1 + incx,
         ({ mem := s.2.mem.write s.1 (unitHalfOpen (random s.2.ext).1),
            ext := (random s.2.ext).2 } : World σ))) (x, w)).1 = x + (n : Int) * incx
    ∧ (forLoop n (fun _ (s : Int × World σ) =>
        (s.1 + incx,
         ({ mem := s.2.mem.write s.1 (unitHalfOpen (random s.2.ext).1),
            ext := (random s.2.ext).2 } : World σ))) (x, w)).2.ext = genState random n w.ext
    ∧ (∀ k : Nat, k < n →
        (forLoop n (fun _ (s : Int × World σ) =>
          (s.1 + incx,
           ({ mem := s.2.mem.write s.1 (unitHalfOpen (random s.2.ext).1),
              ext := (random s.2.ext).2 } : World σ))) (x, w)).2.mem (x + (k : Int) * incx)
          = unitHalfOpen (genDraw random k w.ext))
    ∧ (∀ a : Int, (∀ k : Nat, k < n → a ≠ x + (k : Int) * incx) →
        (forLoop n (fun _ (s : Int × World σ) =>
          (s.1 + incx,
           ({ mem := s.2.mem.write s.1 (unitHalfOpen (random s.2.ext).1),
              ext := (random s.2.ext).2 } : World σ))) (x, w)).2.mem a = w.mem a) := by
  induction n with
  | zero =>
    refine ⟨by simp [forLoop], rfl, fun k hk => absurd hk (Nat.not_lt_zero k), fun a _ => rfl⟩
  | succ n ih =>
    obtain ⟨ihp, ihe, ihi, iho⟩ := ih
    simp only [forLoop]
    rw [ihp, ihe]
    refine ⟨by push_cast; ring, rfl, ?_, ?_⟩
    · intro k hk
      simp only [Mem.write]
      by_cases hkn : k = n
      · subst hkn
        rw [if_pos rfl]
        rfl
      · rw [if_neg (fun he => hkn (stride_inj hinc he))]
        exact ihi k (by omega)
    · intro a ha
      simp only [Mem.write]
      rw [if_neg (ha n (by omega))]
      exact iho a (fun k hk => ha k (by omega))

/-- C17: every draw `r` with `0 <= r <= RAND_MAX` maps to a value
`r / (RAND_MAX + 1)` with `0 <= v < 1`; on a run of any stride but 0 the
uniform kernel returns normally, has made exactly one draw per element,
has written the value of draw `k` to logical element `k`, in ascending
order, and has changed no other address; with a generator whose draws are
at most `RAND_MAX` every element lies in `[0, 1)`. -/
theorem uniform_fill {σ : Type} (random : σ → Nat × σ) (size x incx : Int)
    (args : List linear_arg) (w : World σ) (hinc : incx ≠ 0) :
    (∀ r : Nat, r ≤ RAND_MAX → 0 ≤ unitHalfOpen r ∧ unitHalfOpen r < 1)
    ∧ ∃ w2 : World σ, linear_uniform_handler random size x incx args w = .ok () w2
      ∧ w2.ext = genState random size.toNat w.ext
      ∧ (∀ k : Nat, k < size.toNat →
          w2.mem (x + (k : Int) * incx) = unitHalfOpen (genDraw random k w.ext))
      ∧ (∀ a : Int, (∀ k : Nat, k < size.toNat → a ≠ x + (k : Int) * incx) →
          w2.mem a = w.mem a)
      ∧ ((∀ s : σ, (random s).1 ≤ RAND_MAX) → ∀ k : Nat, k < size.toNat →
          0 ≤ w2.mem (x + (k : Int) * incx) ∧ w2.mem (x + (k : Int) * incx) < 1) := by
  refine ⟨unitHalfOpen_range, ?_⟩
  obtain ⟨_, he, hi, ho⟩ := uniform_forLoop random x incx hinc w size.toNat
  refine ⟨_, rfl, he, hi, ho, ?_⟩
  intro hrange k hk
  rw [hi k hk]
  exact unitHalfOpen_range _ (hrange _)

/-- C17, witness: three elements at stride 2 filled from the counting
generator: three draws are made, and the elements hold the values of the
draws 0, 1 and 2. -/
theorem uniform_fill_witness :
    ∃ w2 : World Nat,
      linear_uniform_handler countingRandom 3 0 2 [] ⟨contigRunMem, 0⟩ = .ok () w2
      ∧ w2.ext = 3
      ∧ w2.mem 0 = 0 ∧ w2.mem 2 = 1 / 2147483648 ∧ w2.mem 4 = 2 / 2147483648
      ∧ w2.mem 1 = 2 := by
  obtain ⟨w2, h1, he, hi, ho, _⟩ :=
    (uniform_fill countingRandom 3 0 2 [] (⟨contigRunMem, 0⟩ : World Nat) (by decide)).2
  refine ⟨w2, h1, ?_, ?_, ?_, ?_, ?_⟩
  · rw [he]; decide
  · have h := hi 0 (by decide)
    norm_num at h
    rw [h]
    norm_num [unitHalfOpen, genDraw, genState, countingRandom]
  · have h := hi 1 (by decide)
    norm_num at h
    rw [h]
    norm_num [unitHalfOpen, genDraw, genState, countingRandom, RAND_MAX]
  · have h := hi 2 (by decide)
    norm_num at h
    rw [h]
    norm_num [unitHalfOpen, genDraw, genState, countingRandom, RAND_MAX]
  · have h := ho 1 (by
      intro k hk
      have : k < 3 := hk
      omega)
    rw [h]
    norm_num [contigRunMem]

/-! ## The normal kernel: pairs and draws -/

theorem Mem.write_same (m : Mem) (a : Int) (v : ℚ) : (m.write a v) a = v := by
  unfold Mem.write
  exact if_pos rfl

theorem Mem.write_other (m : Mem) (a b : Int) (v : ℚ) (h : b ≠ a) :
    (m.write a v) b = m b := by
  unfold Mem.write
  exact if_neg h

theorem pairsN_succ_last {σ : Type} (lm : Libm) (random : σ → Nat × σ) (incx : Int)
    (t : Nat) (s : Int × World σ) :
    pairsN lm random incx (t + 1) s
      = pairStep lm random incx (pairsN lm random incx t s) := by
  rw [pairsN_add lm random incx t 1 s]
  rfl

/-- The state after `t` Box-Muller pairs: `2 * t` draws have been made, the
elements `2 * j` and `2 * j + 1` hold the cosine and the sine value of the
pair of draws `2 * j` and `2 * j + 1`, and no other address has changed. -/
theorem pairsN_spec {σ : Type} (lm : Libm) (random : σ → Nat × σ) (x incx : Int)
    (hinc : incx ≠ 0) (w : World σ) (t : Nat) :
    (pairsN lm random incx t (x, w)).2.ext = genState random (2 * t) w.ext
    ∧ (∀ j : Nat, j < t →
        (pairsN lm random incx t (x, w)).2.mem (x + ((2 * j : Nat) : Int) * incx)
          = boxMullerCos lm (genDraw random (2 * j) w.ext) (genDraw random (2 * j + 1) w.ext)
        ∧ (pairsN lm random incx t (x, w)).2.mem (x + ((2 * j + 1 : Nat) : Int) * incx)
          = boxMullerSin lm (genDraw random (2 * j) w.ext) (genDraw random (2 * j + 1) w.ext))
    ∧ (∀ a : Int, (∀ i : Nat, i < 2 * t → a ≠ x + (i : Int) * incx) →
        (pairsN lm random incx t (x, w)).2.mem a = w.mem a) := by
  induction t with
  | zero =>
    exact ⟨rfl, fun j hj => absurd hj (Nat.not_lt_zero j), fun a _ => rfl⟩
  | succ t ih =>
    obtain ⟨ihe, ihi, iho⟩ := ih
    have hpos : (pairsN lm random incx t (x, w)).1 = x + ((2 * t : Nat) : Int) * incx := by
      rw [pairsN_fst]
      push_cast
      ring
    have hpos2 : (pairsN lm random incx t (x, w)).1 + incx
        = x + ((2 * t + 1 : Nat) : Int) * incx := by
      rw [hpos]
      push_cast
      ring
    rw [pairsN_succ_last]
    simp only [pairStep]
    rw [hpos2, hpos, ihe]
    refine ⟨rfl, ?_, ?_⟩
    · intro j hj
      by_cases hjt : j = t
      · subst hjt
        constructor
        · rw [Mem.write_other _ _ _ _ (fun he => by have := stride_inj hinc he; omega),
            Mem.write_same]
          rfl
        · rw [Mem.write_same]
          rfl
      · have hlt : j < t := by omega
        constructor
        · rw [Mem.write_other _ _ _ _ (fun he => by have := stride_inj hinc he; omega),
            Mem.write_other _ _ _ _ (fun he => by have := stride_inj hinc he; omega)]
          exact (ihi j hlt).1
        · rw [Mem.write_other _ _ _ _ (fun he => by have := stride_inj hinc he; omega),
            Mem.write_other _ _ _ _ (fun he => by have := stride_inj hinc he; omega)]
          exact (ihi j hlt).2
    · intro a ha
      rw [Mem.write_other _ _ _ _ (ha (2 * t + 1) (by omega)),
        Mem.write_other _ _ _ _ (ha (2 * t) (by omega))]
      exact iho a (fun i hi => ha i (by omega))

/-- C19: on a run of any length and of any stride but 0 the normal kernel
returns normally and has made exactly `2 * ceil(n / 2)` draws; for
`2 * k + 1 < n` the elements `2 * k` and `2 * k + 1` hold
`r * cos (2 * pi * u2)` and `r * sin (2 * pi * u2)` of the pair of draws
`2 * k` and `2 * k + 1`; for odd `n` the last element holds the cosine
value of the pair of draws `n - 1` and `n`, whose sine value is not
stored; no address outside the run changes, and for `n == 0` the state is
unchanged. -/
theorem box_muller_pairing {σ : Type} (lm : Libm) (random : σ → Nat × σ)
    (size x incx : Int) (args : List linear_arg) (w : World σ) (hinc : incx ≠ 0) :
    ∃ w2 : World σ, linear_normal_handler lm random size x incx args w = .ok () w2
      ∧ w2.ext = genState random (2 * ((size.toNat + 1) / 2)) w.ext
      ∧ (∀ k : Nat, 2 * k + 1 < size.toNat →
          w2.mem (x + ((2 * k : Nat) : Int) * incx)
            = boxMullerCos lm (genDraw random (2 * k) w.ext)
                (genDraw random (2 * k + 1) w.ext)
          ∧ w2.mem (x + ((2 * k + 1 : Nat) : Int) * incx)
            = boxMullerSin lm (genDraw random (2 * k) w.ext)
                (genDraw random (2 * k + 1) w.ext))
      ∧ (size.toNat % 2 = 1 →
          w2.mem (x + ((size.toNat - 1 : Nat) : Int) * incx)
            = boxMullerCos lm (genDraw random (size.toNat - 1) w.ext)
                (genDraw random size.toNat w.ext))
      ∧ (∀ a : Int, (∀ i : Nat, i < size.toNat → a ≠ x + (i : Int) * incx) →
          w2.mem a = w.mem a)
      ∧ (size.toNat = 0 → w2 = w) := by
  refine ⟨normalFill lm random size.toNat x incx w,
    linear_normal_handler_eq lm random size x incx args w, ?_⟩
  generalize size.toNat = n
  obtain ⟨he, hi, ho⟩ := pairsN_spec lm random x incx hinc w (n / 2)
  have hpos : (pairsN lm random incx (n / 2) (x, w)).1
      = x + ((2 * (n / 2) : Nat) : Int) * incx := by
    rw [pairsN_fst]
    push_cast
    ring
  unfold normalFill
  by_cases hodd : n % 2 = 1
  · simp only [if_pos hodd, tailStep]
    rw [hpos, he]
    have hn : 2 * (n / 2) = n - 1 := by omega
    refine ⟨?_, ?_, ?_, ?_, ?_⟩
    · have h2 : 2 * ((n + 1) / 2) = 2 * (n / 2) + 1 + 1 := by omega
      rw [h2]
      rfl
    · intro k hk
      have hlt : k < n / 2 := by omega
      rw [Mem.write_other _ _ _ _ (fun h => by have := stride_inj hinc h; omega),
        Mem.write_other _ _ _ _ (fun h => by have := stride_inj hinc h; omega)]
      exact hi k hlt
    · intro _
      rw [hn, Mem.write_same]
      have hn2 : n = n - 1 + 1 := by omega
      rw [boxMullerCos]
      conv_rhs => rw [genDraw, genDraw, hn2]
      rfl
    · intro a ha
      rw [Mem.write_other _ _ _ _ (ha (2 * (n / 2)) (by omega))]
      exact ho a (fun i hi2 => ha i (by omega))
    · intro h0
      omega
  · simp only [if_neg hodd]
    have hn : 2 * (n / 2) = n := by omega
    refine ⟨?_, ?_, ?_, ?_, ?_⟩
    · have h2 : 2 * ((n + 1) / 2) = 2 * (n / 2) := by omega
      rw [h2]
      exact he
    · intro k hk
      exact hi k (by omega)
    · intro h1
      exact absurd h1 hodd
    · intro a ha
      exact ho a (fun i hi2 => ha i (by omega))
    · intro h0
      subst h0
      rfl

/-- C19, witness: three elements filled from the counting generator: four
draws are made, the elements 0 and 1 hold the cosine and sine value of
the pair of draws 0 and 1, element 2 the cosine value of the pair of draws
2 and 3, and the address 3 after the run keeps its value. -/
theorem box_muller_pairing_witness :
    ∃ w2 : World Nat,
      linear_normal_handler ratLibm countingRandom 3 0 1 [] ⟨contigRunMem, 0⟩ = .ok () w2
      ∧ w2.ext = 4
      ∧ w2.mem 0 = boxMullerCos ratLibm 0 1
      ∧ w2.mem 1 = boxMullerSin ratLibm 0 1
      ∧ w2.mem 2 = boxMullerCos ratLibm 2 3
      ∧ w2.mem 3 = 4 := by
  obtain ⟨w2, h1, he, hp, hodd, ho, _⟩ := box_muller_pairing ratLibm countingRandom 3 0 1 []
    (⟨contigRunMem, 0⟩ : World Nat) (by decide)
  refine ⟨w2, h1, ?_, ?_, ?_, ?_, ?_⟩
  · rw [he]; decide
  · have h := (hp 0 (by decide)).1
    norm_num at h
    rw [h]
    rfl
  · have h := (hp 0 (by decide)).2
    norm_num at h
    rw [h]
    rfl
  · have h := hodd (by decide)
    have e : (0 : Int) + (((3 : Int).toNat - 1 : Nat) : Int) * 1 = 2 := by decide
    rw [e] at h
    rw [h]
    rfl
  · have h := ho 3 (by
      intro i hi
      have : i < 3 := hi
      omega)
    rw [h]
    norm_num [contigRunMem]

/-! ## The normal kernel: domain of the logarithm and the square root -/

theorem unitOpen_range (d : Nat) (hd : d ≤ RAND_MAX) :
    0 < unitOpen d ∧ unitOpen d ≤ 1 := by
  unfold unitOpen
  have hpos : (0 : ℚ) < (RAND_MAX : ℚ) + 1 := by positivity
  have hd2 : (d : ℚ) ≤ (RAND_MAX : ℚ) := by exact_mod_cast hd
  constructor
  · exact div_pos (by positivity) hpos
  · rw [div_le_one hpos]
    linarith

/-- With draws in range and a logarithm that is not positive on
`0 < u <= 1`, a Box-Muller pair never takes the error branch of the guarded
logarithm or of the guarded square root. -/
theorem pairStep_guarded {σ : Type} (lm : Libm) (random : σ → Nat × σ) (incx : Int)
    (hrange : ∀ s : σ, (random s).1 ≤ RAND_MAX)
    (hlog : ∀ u : ℚ, 0 < u → u ≤ 1 → lm.log u ≤ 0) (s : Int × World σ) :
    pairStep (domainGuarded lm) random incx s = pairStep lm random incx s := by
  have hu := unitOpen_range _ (hrange s.2.ext)
  have hl := hlog _ hu.1 hu.2
  have hrad : 0 ≤ -2 * lm.log (unitOpen (random s.2.ext).1) := by linarith
  simp only [pairStep, domainGuarded, if_pos hu, if_pos hrad]

theorem pairsN_guarded {σ : Type} (lm : Libm) (random : σ → Nat × σ) (incx : Int)
    (hrange : ∀ s : σ, (random s).1 ≤ RAND_MAX)
    (hlog : ∀ u : ℚ, 0 < u → u ≤ 1 → lm.log u ≤ 0) :
    ∀ (t : Nat) (s : Int × World σ),
      pairsN (domainGuarded lm) random incx t s = pairsN lm random incx t s := by
  intro t
  induction t with
  | zero => intro s; rfl
  | succ t ih =>
    intro s
    simp only [pairsN]
    rw [pairStep_guarded lm random incx hrange hlog, ih]

theorem tailStep_guarded {σ : Type} (lm : Libm) (random : σ → Nat × σ)
    (hrange : ∀ s : σ, (random s).1 ≤ RAND_MAX)
    (hlog : ∀ u : ℚ, 0 < u → u ≤ 1 → lm.log u ≤ 0) (s : Int × World σ) :
    tailStep (domainGuarded lm) random s = tailStep lm random s := by
  have hu := unitOpen_range _ (hrange s.2.ext)
  have hl := hlog _ hu.1 hu.2
  have hrad : 0 ≤ -2 * lm.log (unitOpen (random s.2.ext).1) := by linarith
  simp only [tailStep, domainGuarded, if_pos hu, if_pos hrad]

/-- C20: for every draw `d` with `0 <= d <= RAND_MAX` the value
`u = (d + 1) / (RAND_MAX + 1)` satisfies `0 < u <= 1`, so that the
radicand `-2 * ln u` is not negative; and with draws in that range the
normal kernel gives the same outcome when its logarithm and its square
root are guarded: their error branches are never taken. -/
theorem box_muller_domain {σ : Type} (lm : Libm) (random : σ → Nat × σ)
    (hrange : ∀ s : σ, (random s).1 ≤ RAND_MAX)
    (hlog : ∀ u : ℚ, 0 < u → u ≤ 1 → lm.log u ≤ 0) :
    (∀ d : Nat, d ≤ RAND_MAX → 0 < unitOpen d ∧ unitOpen d ≤ 1)
    ∧ (∀ d : Nat, d ≤ RAND_MAX → 0 ≤ -2 * Real.log ((unitOpen d : ℚ) : ℝ))
    ∧ (∀ (size x incx : Int) (args : List linear_arg) (w : World σ),
        linear_normal_handler (domainGuarded lm) random size x incx args w
          = linear_normal_handler lm random size x incx args w) := by
  refine ⟨unitOpen_range, ?_, ?_⟩
  · intro d hd
    obtain ⟨h0, h1⟩ := unitOpen_range d hd
    have h0r : (0 : ℝ) ≤ ((unitOpen d : ℚ) : ℝ) := by exact_mod_cast le_of_lt h0
    have h1r : ((unitOpen d : ℚ) : ℝ) ≤ 1 := by exact_mod_cast h1
    have := Real.log_nonpos h0r h1r
    linarith
  · intro size x incx args w
    rw [linear_normal_handler_eq, linear_normal_handler_eq]
    unfold normalFill
    rw [pairsN_guarded lm random incx hrange hlog,
      tailStep_guarded lm random hrange hlog]

/-- C20, witness: the draws 0 and `RAND_MAX` give `u = 1 / 2^31` and `u = 1`,
both in `0 < u <= 1`; the counting generator draws in range. -/
theorem box_muller_domain_witness :
    (0 < unitOpen 0 ∧ unitOpen 0 ≤ 1)
    ∧ (0 < unitOpen RAND_MAX ∧ unitOpen RAND_MAX ≤ 1)
    ∧ linear_normal_handler (domainGuarded boundLibm) countingRandom 3 0 1 []
        (⟨contigRunMem, 0⟩ : World Nat)
      = linear_normal_handler boundLibm countingRandom 3 0 1 [] ⟨contigRunMem, 0⟩ := by
  have h := box_muller_domain boundLibm countingRandom
    (by
      intro s
      have : s % (RAND_MAX + 1) < RAND_MAX + 1 := Nat.mod_lt _ (by decide)
      simp only [countingRandom]
      omega)
    (by
      intro u _ h1
      simp only [boundLibm]
      linarith)
  exact ⟨h.1 0 (by decide), h.1 RAND_MAX (le_refl _), h.2.2 3 0 1 [] _⟩

/-! ## The callback map -/

theorem applyPrefix_raise_stays {σ : Type} (host : Host) (fn : Callback σ) (x incx : Int)
    (w : World σ) (k : Nat) (e : LErr) (w1 : World σ)
    (h : applyPrefix host fn x incx w k = .raise e w1) :
    ∀ n : Nat, applyPrefix host fn x incx w (k + n) = .raise e w1 := by
  intro n
  induction n with
  | zero => exact h
  | succ n ih =>
    have hk : k + (n + 1) = (k + n) + 1 := by omega
    rw [hk]
    simp only [applyPrefix, ih]

/-- The loop of the apply kernel, started after `k` calls, continues the
callback map of the specification. -/
theorem applyLoop_eq_prefix {σ : Type} (host : Host) (fn : Callback σ) (x incx : Int)
    (w : World σ) :
    ∀ (n k : Nat) (wk : World σ), applyPrefix host fn x incx w k = .ok () wk →
      applyLoop host fn incx n (x + (k : Int) * incx) wk
        = applyPrefix host fn x incx w (k + n) := by
  intro n
  induction n with
  | zero =>
    intro k wk h
    rw [Nat.add_zero, h]
    rfl
  | succ n ih =>
    intro k wk h
    have hk : k + (n + 1) = (k + 1) + n := by omega
    have hstep : applyPrefix host fn x incx w (k + 1)
        = match fn (wk.mem (x + (k : Int) * incx)) wk with
          | .raise e w1 => .raise e w1
          | .ok r w1 =>
            .ok () ⟨w1.mem.write (x + (k : Int) * incx) (callbackNumber host r), w1.ext⟩ := by
      simp only [applyPrefix, h]
    rw [hk]
    simp only [applyLoop]
    cases hf : fn (wk.mem (x + (k : Int) * incx)) wk with
    | raise e w1 =>
      rw [hf] at hstep
      simp only
      exact (applyPrefix_raise_stays host fn x incx w (k + 1) e w1 hstep n).symm
    | ok r w1 =>
      rw [hf] at hstep
      simp only
      have ha : x + (k : Int) * incx + incx = x + ((k + 1 : Nat) : Int) * incx := by
        push_cast; ring
      rw [ha]
      exact ih (k + 1) _ hstep

theorem linear_apply_handler_eq {σ : Type} (host : Host) (fn : Callback σ)
    (size x incx : Int) (args : List linear_arg) (w : World σ) :
    linear_apply_handler host fn size x incx args w
      = applyPrefix host fn x incx w size.toNat := by
  have h := applyLoop_eq_prefix host fn x incx w size.toNat 0 w rfl
  simp only [Nat.cast_zero, zero_mul, add_zero, Nat.zero_add] at h
  exact h

/-- The callback map with a callback that records its argument: after `k`
calls the record has grown by the original values of the elements
`0 .. k-1` in ascending order, these elements hold the converted return
values, and no other address has changed. -/
theorem applyPrefix_recording (host : Host) (g : ℚ → LuaVal) (x incx : Int)
    (hinc : incx ≠ 0) (w : World (List ℚ)) (k : Nat) :
    ∃ wk : World (List ℚ),
      applyPrefix host (recordingCallback g) x incx w k = .ok () wk
      ∧ wk.ext = w.ext ++ (List.range k).map (fun j => w.mem (x + (j : Int) * incx))
      ∧ (∀ j : Nat, j < k →
          wk.mem (x + (j : Int) * incx)
            = callbackNumber host (g (w.mem (x + (j : Int) * incx))))
      ∧ (∀ a : Int, (∀ j : Nat, j < k → a ≠ x + (j : Int) * incx) → wk.mem a = w.mem a) := by
  induction k with
  | zero =>
    exact ⟨w, rfl, by simp, fun j hj => absurd hj (Nat.not_lt_zero j), fun a _ => rfl⟩
  | succ k ih =>
    obtain ⟨wk, hk, he, hi, ho⟩ := ih
    have hcur : wk.mem (x + (k : Int) * incx) = w.mem (x + (k : Int) * incx) := by
      apply ho
      intro j hj he2
      have := stride_inj hinc he2
      omega
    refine ⟨{ mem := wk.mem.write (x + (k : Int) * incx)
                (callbackNumber host (g (wk.mem (x + (k : Int) * incx)))),
              ext := wk.ext ++ [wk.mem (x + (k : Int) * incx)] }, ?_, ?_, ?_, ?_⟩
    · simp only [applyPrefix, hk, recordingCallback]
    · simp [he, hcur, List.range_succ]
    · intro j hj
      simp only
      by_cases hjk : j = k
      · subst hjk
        rw [Mem.write_same, hcur]
      · rw [Mem.write_other _ _ _ _ (fun he2 => hjk (stride_inj hinc he2))]
        exact hi j (by omega)
    · intro a ha
      simp only
      rw [Mem.write_other _ _ _ _ (ha k (by omega))]
      exact ho a (fun j hj => ha j (by omega))

/-- C15: the apply kernel is the callback map of the specification: call `k`
receives the value stored in logical element `k` at the time of the call,
and the value it returns is stored in element `k` before call `k + 1`;
with a callback that records its argument and returns `g` of it, on a run
of `n` elements of any stride but 0, exactly `n` calls are recorded, in
ascending order of the elements, call `k` having received the value of
element `k`, and element `k` holds the converted return value of call
`k`. -/
theorem apply_in_order {σ : Type} (host : Host) (size x incx : Int)
    (args : List linear_arg) :
    (∀ (fn : Callback σ) (w : World σ),
      linear_apply_handler host fn size x incx args w
        = applyPrefix host fn x incx w size.toNat)
    ∧ (incx ≠ 0 → ∀ (g : ℚ → LuaVal) (w : World (List ℚ)),
        ∃ w2 : World (List ℚ),
          linear_apply_handler host (recordingCallback g) size x incx args w = .ok () w2
          ∧ w2.ext = w.ext
              ++ (List.range size.toNat).map (fun k => w.mem (x + (k : Int) * incx))
          ∧ (∀ k : Nat, k < size.toNat →
              w2.mem (x + (k : Int) * incx)
                = callbackNumber host (g (w.mem (x + (k : Int) * incx))))
          ∧ (∀ a : Int, (∀ k : Nat, k < size.toNat → a ≠ x + (k : Int) * incx) →
              w2.mem a = w.mem a)) := by
  refine ⟨fun fn w => linear_apply_handler_eq host fn size x incx args w, ?_⟩
  intro hinc g w
  obtain ⟨w2, h, he, hi, ho⟩ := applyPrefix_recording host g x incx hinc w size.toNat
  exact ⟨w2, by rw [linear_apply_handler_eq, h], he, hi, ho⟩

/-- C15, witness: the callback that records its argument and returns it
plus 1, mapped over `2, 4, 5` at stride 3: the record is `2, 4, 5` and the
elements become `3, 5, 6`. -/
theorem apply_in_order_witness :
    ∃ w2 : World (List ℚ),
      linear_apply_handler specHost (recordingCallback (fun v => .number (v + 1)))
        3 10 3 [] ⟨mem245Strided, []⟩ = .ok () w2
      ∧ w2.ext = [2, 4, 5]
      ∧ w2.mem 10 = 3 ∧ w2.mem 13 = 5 ∧ w2.mem 16 = 6 := by
  obtain ⟨w2, h1, he, hi, _⟩ := (apply_in_order (σ := Unit) specHost 3 10 3 []).2
    (by decide) (fun v => .number (v + 1)) ⟨mem245Strided, []⟩
  refine ⟨w2, h1, ?_, ?_, ?_, ?_⟩
  · rw [he]
    decide
  · have h := hi 0 (by decide)
    norm_num at h
    rw [h]
    norm_num [callbackNumber, specHost, stackAt, mem245Strided]
  · have h := hi 1 (by decide)
    norm_num at h
    rw [h]
    norm_num [callbackNumber, specHost, stackAt, mem245Strided]
  · have h := hi 2 (by decide)
    norm_num at h
    rw [h]
    norm_num [callbackNumber, specHost, stackAt, mem245Strided]

/-- The callback map with a callback that leaves the memory of doubles
alone: after `k` successful calls the elements `0 .. k-1` hold the
converted return values of their calls, each made on the original value of
its element, and no other address has changed. -/
theorem applyPrefix_mem {σ : Type} (host : Host) (fn : Callback σ) (x incx : Int)
    (hinc : incx ≠ 0) (hmem : ∀ (v : ℚ) (w2 : World σ), (fn v w2).world.mem = w2.mem)
    (w : World σ) :
    ∀ (k : Nat) (wk : World σ), applyPrefix host fn x incx w k = .ok () wk →
      (∀ a : Int, (∀ j : Nat, j < k → a ≠ x + (j : Int) * incx) → wk.mem a = w.mem a)
      ∧ (∀ j : Nat, j < k → ∃ (wj : World σ) (r : LuaVal) (wj2 : World σ),
          applyPrefix host fn x incx w j = .ok () wj
          ∧ fn (w.mem (x + (j : Int) * incx)) wj = .ok r wj2
          ∧ wk.mem (x + (j : Int) * incx) = callbackNumber host r) := by
  intro k
  induction k with
  | zero =>
    intro wk h
    simp only [applyPrefix] at h
    injection h with _ h2
    subst h2
    exact ⟨fun a _ => rfl, fun j hj => absurd hj (Nat.not_lt_zero j)⟩
  | succ k ih =>
    intro wk1 h
    simp only [applyPrefix] at h
    cases hp : applyPrefix host fn x incx w k with
    | raise e w1 =>
      rw [hp] at h
      cases h
    | ok u wk =>
      rw [hp] at h
      simp only at h
      obtain ⟨iho, ihi⟩ := ih wk hp
      have hcur : wk.mem (x + (k : Int) * incx) = w.mem (x + (k : Int) * incx) := by
        apply iho
        intro j hj he2
        have := stride_inj hinc he2
        omega
      cases hf : fn (wk.mem (x + (k : Int) * incx)) wk with
      | raise e w1 =>
        rw [hf] at h
        cases h
      | ok r w1 =>
        rw [hf] at h
        simp only at h
        injection h with _ h2
        subst h2
        have hm : w1.mem = wk.mem := by
          have := hmem (wk.mem (x + (k : Int) * incx)) wk
          rw [hf] at this
          exact this
        constructor
        · intro a ha
          simp only
          rw [Mem.write_other _ _ _ _ (ha k (by omega)), hm]
          exact iho a (fun j hj => ha j (by omega))
        · intro j hj
          by_cases hjk : j = k
          · subst hjk
            refine ⟨wk, r, w1, hp, ?_, ?_⟩
            · rw [← hcur]
              exact hf
            · simp only
              rw [Mem.write_same]
          · obtain ⟨wj, r2, wj2, h1, h2, h3⟩ := ihi j (by omega)
            refine ⟨wj, r2, wj2, h1, h2, ?_⟩
            simp only
            rw [Mem.write_other _ _ _ _ (fun he2 => hjk (stride_inj hinc he2)), hm]
            exact h3

/-- C16: if the first `k` calls of the callback return and the call for
logical element `k < n` raises, the apply kernel raises that error in the
state the callback left, so that no later call is made; and when the
callback leaves the memory of doubles alone and the stride is not 0, the
elements `0 .. k-1` hold the converted return values of their calls and
every other address, the elements `k .. n-1` included, keeps its previous
value. -/
theorem apply_partial_on_error {σ : Type} (host : Host) (fn : Callback σ)
    (size x incx : Int) (args : List linear_arg) (w : World σ)
    (k : Nat) (wk : World σ) (e : LErr) (w1 : World σ)
    (hk : k < size.toNat)
    (hfirst : applyPrefix host fn x incx w k = .ok () wk)
    (hraise : fn (wk.mem (x + (k : Int) * incx)) wk = .raise e w1) :
    linear_apply_handler host fn size x incx args w = .raise e w1
    ∧ (incx ≠ 0 → (∀ (v : ℚ) (w2 : World σ), (fn v w2).world.mem = w2.mem) →
        (∀ j : Nat, k ≤ j → w1.mem (x + (j : Int) * incx) = w.mem (x + (j : Int) * incx))
        ∧ (∀ a : Int, (∀ j : Nat, j < k → a ≠ x + (j : Int) * incx) → w1.mem a = w.mem a)
        ∧ (∀ j : Nat, j < k → ∃ (wj : World σ) (r : LuaVal) (wj2 : World σ),
            applyPrefix host fn x incx w j = .ok () wj
            ∧ fn (w.mem (x + (j : Int) * incx)) wj = .ok r wj2
            ∧ w1.mem (x + (j : Int) * incx) = callbackNumber host r)) := by
  have hstep : applyPrefix host fn x incx w (k + 1) = .raise e w1 := by
    simp only [applyPrefix, hfirst, hraise]
  constructor
  · rw [linear_apply_handler_eq]
    have hn : size.toNat = (k + 1) + (size.toNat - (k + 1)) := by omega
    rw [hn]
    exact applyPrefix_raise_stays host fn x incx w (k + 1) e w1 hstep _
  · intro hinc hmem
    obtain ⟨ho, hi⟩ := applyPrefix_mem host fn x incx hinc hmem w k wk hfirst
    have hm : w1.mem = wk.mem := by
      have := hmem (wk.mem (x + (k : Int) * incx)) wk
      rw [hraise] at this
      exact this
    rw [hm]
    refine ⟨?_, ho, hi⟩
    intro j hj
    apply ho
    intro i hi2 he2
    have := stride_inj hinc he2
    omega

/-- C16, witness: the callback that raises on the value 5, mapped over
`2, 4, 5` at stride 3: the error is raised after the calls on 2, 4 and 5
have been recorded, the elements 0 and 1 hold the returned values 3 and 5,
and element 2 keeps the value 5. -/
theorem apply_partial_on_error_witness :
    ∃ w1 : World (List ℚ),
      linear_apply_handler specHost (raisingCallback 5 (fun v => .number (v + 1)))
        3 10 3 [] ⟨mem245Strided, []⟩ = .raise (.callback 0) w1
      ∧ w1.ext = [2, 4, 5]
      ∧ w1.mem 10 = 3 ∧ w1.mem 13 = 5 ∧ w1.mem 16 = 5 := by
  have h := apply_partial_on_error specHost (raisingCallback 5 (fun v => .number (v + 1)))
    3 10 3 [] (⟨mem245Strided, []⟩ : World (List ℚ)) 2 _ _ _ (by decide) rfl rfl
  refine ⟨_, h.1, ?_, ?_, ?_, ?_⟩
  · norm_num [Mem.write, callbackNumber, specHost, stackAt, mem245Strided]
  · norm_num [Mem.write, callbackNumber, specHost, stackAt, mem245Strided]
  · norm_num [Mem.write, callbackNumber, specHost, stackAt, mem245Strided]
  · norm_num [Mem.write, callbackNumber, specHost, stackAt, mem245Strided]

/-! ## The fast-path guard -/

theorem eachMajor_trace (count extent : Nat) (X : linear_matrix) (args : List linear_arg)
    (w : World (List KernelCall)) :
    eachMajor traceE count extent X args w
      = .ok () ⟨w.mem, w.ext ++ (List.range count).map
          (fun i => (⟨toCInt extent, X.values + ((i * X.ld : Nat) : Int), 1, args⟩ :
            KernelCall))⟩ := by
  induction count with
  | zero =>
    unfold eachMajor
    simp [forLoopE]
  | succ n ih =>
    unfold eachMajor at ih ⊢
    simp only [forLoopE]
    rw [ih]
    simp [traceE, List.range_succ]

/-- C18, as the code has it: for a matrix view with `ld == minor extent`
whose true element count `rows * cols` is below `2^64`, so that the
`size_t` product does not wrap, `linear_elementary` makes the single
flattened invocation exactly when the true element count is at most
`INT_MAX`, and the run size handed to the kernel is then the true element
count; otherwise it makes one invocation per major vector. -/
theorem fast_path_guard {σ : Type} (host : Host) (L : List LuaVal) (f : EKernel σ)
    (params : List linear_param) (w : World σ) (X : linear_matrix)
    (args : List linear_arg)
    (hargs : host.linear_checkargs L params 0 2 = .ok args)
    (hnum : host.lua_tonumberx L 1 = none) (hX : testMatrix L 1 = some X)
    (hcontig : X.ld = minorExtent X) (hwrap : X.rows * X.cols < SIZE_MOD) :
    (X.rows * X.cols ≤ INT_MAX →
      linear_elementary host L f params w
        = ret0 (f ((X.rows * X.cols : Nat) : Int) X.values 1 args w))
    ∧ (INT_MAX < X.rows * X.cols →
      linear_elementary host L f params w
        = ret0 (eachMajor f (majorCount X) (minorExtent X) X args w))
    ∧ (∀ wt : World (List KernelCall),
        (eachMajor traceE (majorCount X) (minorExtent X) X args wt).world.ext
          = wt.ext ++ (List.range (majorCount X)).map
              (fun i => (⟨toCInt (minorExtent X), X.values + ((i * X.ld : Nat) : Int), 1,
                args⟩ : KernelCall))) := by
  have hmod : (X.rows * X.cols) % SIZE_MOD = X.rows * X.cols := Nat.mod_eq_of_lt hwrap
  refine ⟨?_, ?_, ?_⟩
  · intro hle
    rw [linear_elementary_matrix_fast host L f params w X args hargs hnum hX
      ⟨hcontig.symm, by rw [hmod]; exact hle⟩, hmod, toCInt_of_le hle]
  · intro hgt
    exact linear_elementary_matrix_slow host L f params w X args hargs hnum hX
      (fun hg => by rw [hmod] at hg; omega)
  · intro wt
    rw [eachMajor_trace]
    rfl

/-- C18, witness: the contiguous 2 x 3 matrix has 6 elements: one invocation
with run size 6 is made. -/
theorem fast_path_guard_witness :
    linear_elementary specHost [.matrix rowMajor23] traceE LINEAR_PARAMS_NONE
        (⟨rowMajor23Mem, []⟩ : World (List KernelCall))
      = .ok none ⟨rowMajor23Mem, [⟨6, 0, 1, []⟩]⟩ := by
  have h := (fast_path_guard specHost [.matrix rowMajor23] traceE LINEAR_PARAMS_NONE
    (⟨rowMajor23Mem, []⟩ : World (List KernelCall)) rowMajor23 [] rfl rfl rfl rfl
    (by decide)).1 (by decide)
  rw [h]
  rfl

/-- C18, counterexample: the view of `2^32` rows and `2^32` columns with
`ld == minor extent` has `2^64` elements, more than `INT_MAX`, yet the
`size_t` product is 0 and `linear_elementary` makes the single flattened
invocation, with run size 0, instead of one invocation per major vector. -/
theorem fast_path_guard_counterexample :
    hugeSquare.ld = minorExtent hugeSquare
    ∧ INT_MAX < hugeSquare.rows * hugeSquare.cols
    ∧ (linear_elementary specHost [.matrix hugeSquare] traceE LINEAR_PARAMS_NONE
        (⟨rowMajor23Mem, []⟩ : World (List KernelCall))).world.ext = [⟨0, 0, 1, []⟩]
    ∧ majorCount hugeSquare = 2 ^ 32 := by
  refine ⟨by decide, by decide, by decide, by decide⟩

end LuaLinear
